import Mathlib

/-! NahidaKV cache: a shallow embedding of the Go package `utils/cache`.

The Go package keeps three `container/list` lists (the window list and the two
stages of the segmented LRU) and one map from the primary hash of a key to the
`*list.Element` that holds it.  Every element holds a `*storeItem`.

The embedding makes the pointers explicit:

* a `*list.Element` is a natural number (an address), allocated by `PushFront`;
* a `*storeItem` is a natural number (an address), allocated where the Go code
  takes `&newitem`;
* a `list.List` is the sequence of its linked elements, front first;
* the map `data`, which the cache, the window and the segmented LRU share, and
  the two heaps live in one record `Mem`.

A Go run-time fault (nil dereference, `panic`) is an explicit result: `none` for
the methods of the lists, `Except.error` carrying the state at the fault for the
methods of `Cache`.

The `float64` products of `NewCache` are computed with the rounding of the format.
The lock of the public methods is a separate layer: `set`, `get` and `del` are the
sequential bodies, and `Shared` interleaves goroutines that run the public methods
`Set`, `Get` and `Del` on one cache.
-/

namespace cache

/-! ## Data model -/

/-- Payload of an entry (`interface{}`); `none` is the `nil` interface. -/
abbrev Value := Option Nat

/-- The record `storeItem` kept in every tier. -/
structure storeItem where
  stage : Int
  key : Nat
  conflict : Nat
  value : Value
  deriving DecidableEq, Repr

/-- Constant `STAGE_ONE = iota + 1`. -/
def STAGE_ONE : Int := 1

/-- Constant `STAGE_TWO`. -/
def STAGE_TWO : Int := 2

/-- Point update of a map or heap indexed by natural numbers. -/
def upd {β : Type} (f : Nat → β) (a : Nat) (v : β) : Nat → β :=
  fun x => if x = a then v else f x

/-- Memory shared by the window, the segmented LRU and the cache:
`data` is `map[uint64]*list.Element`, `Value e` is the `*storeItem` held by the
element at address `e`, `item p` is the record at address `p`; `elems` and
`items` are the next free addresses. -/
structure Mem where
  data : Nat → Option Nat
  Value : Nat → Nat
  elems : Nat
  item : Nat → storeItem
  items : Nat

/-- The map statement `delete(data, k)`. -/
def Mem.delete (m : Mem) (k : Nat) : Mem :=
  { m with data := upd m.data k none }

/-- The map statement `data[k] = e`. -/
def Mem.store (m : Mem) (k e : Nat) : Mem :=
  { m with data := upd m.data k (some e) }

/-- The assignment `*p = i` to a `*storeItem`. -/
def Mem.assign (m : Mem) (p : Nat) (i : storeItem) : Mem :=
  { m with item := upd m.item p i }

/-- The expression `&newitem`: the record escapes to a fresh address. -/
def Mem.alloc (m : Mem) (i : storeItem) : Mem × Nat :=
  ({ m with item := upd m.item m.items i, items := m.items + 1 }, m.items)

/-- The record an element holds, `e.Value.(*storeItem)` dereferenced. -/
def Mem.entry (m : Mem) (e : Nat) : storeItem := m.item (m.Value e)

/-! ## `container/list` -/

/-- `l.PushFront(v)`: a fresh element holding `v` is linked at the front. -/
def PushFront (l : List Nat) (m : Mem) (v : Nat) : List Nat × Mem × Nat :=
  (m.elems :: l, { m with Value := upd m.Value m.elems v, elems := m.elems + 1 },
    m.elems)

/-- `l.MoveToFront(e)`: nothing happens when `e` is not an element of `l`. -/
def MoveToFront (l : List Nat) (e : Nat) : List Nat :=
  if e ∈ l then e :: l.erase e else l

/-- `l.Remove(e)`: nothing happens when `e` is not an element of `l`. -/
def Remove (l : List Nat) (e : Nat) : List Nat := l.erase e

/-- `l.Back()`: the last element, `none` (Go `nil`) for the empty list. -/
def Back (l : List Nat) : Option Nat := l.getLast?

/-! ## External primitives -/

/-- What the package takes from outside: the two hash functions of the Go
runtime and of `xxhash`, for strings and for byte slices, and the value at
which a counter of the frequency sketch saturates. -/
structure Env where
  MemHashString : String → Nat
  Sum64String : String → Nat
  MemHash : List Nat → Nat
  Sum64 : List Nat → Nat
  counterMax : Nat

/-- Conversion `uint64(k)` of a signed integer. -/
def toUint64 (k : Int) : Nat := (k % 2 ^ 64).toNat

/-- Conversion `uint32(k)` of a `uint64`. -/
def toUint32 (k : Nat) : Nat := k % 2 ^ 32

/-- Wrap-around of `int32` arithmetic. -/
def wrapInt32 (x : Int) : Int := (x + 2 ^ 31) % 2 ^ 32 - 2 ^ 31

/-- A key as the caller passes it (`interface{}`), by dynamic type; `other`
stands for every type the type switch of `keyToHash` does not list. -/
inductive Key where
  | nil
  | uint64 (k : Nat)
  | string (k : String)
  | bytes (k : List Nat)
  | byte (k : Nat)
  | int (k : Int)
  | int32 (k : Int)
  | uint32 (k : Nat)
  | int64 (k : Int)
  | other
  deriving DecidableEq, Repr

/-- `Cache.keyToHash`: the pair (primary hash, conflict hash); `none` is the
`panic("Key type not supported")` of the default case. -/
def keyToHash (X : Env) : Key → Option (Nat × Nat)
  | .nil => some (0, 0)
  | .uint64 k => some (k, 0)
  | .string k => some (X.MemHashString k, X.Sum64String k)
  | .bytes k => some (X.MemHash k, X.Sum64 k)
  | .byte k => some (k, 0)
  | .int k => some (toUint64 k, 0)
  | .int32 k => some (toUint64 k, 0)
  | .uint32 k => some (k, 0)
  | .int64 k => some (toUint64 k, 0)
  | .other => none

/-! ## Admission filter and frequency sketch -/

/-- Modelled from the spec: the type `BloomFilter` is not among the sources.
The spec gives its contract, a set of marked fingerprints. -/
structure BloomFilter where
  seen : Nat → Bool

/-- Modelled from the spec: `newFilter` is not among the sources; a new filter
has no mark. -/
def newFilter : BloomFilter := { seen := fun _ => false }

/-- Modelled from the spec: `BloomFilter.Allow` is not among the sources.
"Returns whether the fingerprint was already marked; as a side effect, always
marks it if not already marked." -/
def BloomFilter.Allow (f : BloomFilter) (x : Nat) : BloomFilter × Bool :=
  ({ seen := upd f.seen x true }, f.seen x)

/-- Modelled from the spec: `BloomFilter.reset` is not among the sources.
"Clears all marks." -/
def BloomFilter.reset (_f : BloomFilter) : BloomFilter := { seen := fun _ => false }

/-- Modelled from the spec: the type `cmSketch` is not among the sources.
The spec gives its contract, one saturating counter per fingerprint. -/
structure cmSketch where
  count : Nat → Nat
  limit : Nat

/-- Modelled from the spec: `newCmSketch` is not among the sources; every
counter of a new sketch is zero. -/
def newCmSketch (X : Env) : cmSketch := { count := fun _ => 0, limit := X.counterMax }

/-- Modelled from the spec: `cmSketch.Increment` is not among the sources.
"Increases the estimate for that fingerprint (saturating, not unbounded)." -/
def cmSketch.Increment (s : cmSketch) (k : Nat) : cmSketch :=
  if s.count k < s.limit then { s with count := upd s.count k (s.count k + 1) }
  else s

/-- Modelled from the spec: `cmSketch.Estimate` is not among the sources.
"Returns the current approximate count." -/
def cmSketch.Estimate (s : cmSketch) (k : Nat) : Int := (s.count k : Int)

/-- Modelled from the spec: `cmSketch.Reset` is not among the sources.
"Halves (decays) all counters." -/
def cmSketch.Reset (s : cmSketch) : cmSketch := { s with count := fun k => s.count k / 2 }

/-! ## Window LRU -/

/-- Modelled from the spec: the type `windowLRU` is not among the sources
(`newWindowLRU(size, data)` shows its capacity and the shared map); a
fixed-capacity recency list. -/
structure windowLRU where
  cap : Int
  list : List Nat

/-- Modelled from the spec: `newWindowLRU` is not among the sources. -/
def newWindowLRU (size : Int) : windowLRU := { cap := size, list := [] }

/-- Modelled from the spec: `windowLRU.add` is not among the sources.
"If under capacity, insert at the most-recent end and register in the Shared
Index; otherwise evict the least-recently-used entry (remove its index entry)
and insert the new one at the most-recent end, returning the evicted entry to
the caller."  The result is (window, memory, evicted entry, evicted?); `none`
is the fault of evicting from an empty list. -/
def windowLRU.add (lru : windowLRU) (m : Mem) (newitem : storeItem) :
    Option (windowLRU × Mem × storeItem × Bool) :=
  if (lru.list.length : Int) < lru.cap then
    let (m1, p) := m.alloc newitem
    let (l, m2, e) := PushFront lru.list m1 p
    some ({ lru with list := l }, m2.store newitem.key e,
      { stage := 0, key := 0, conflict := 0, value := none }, false)
  else
    match Back lru.list with
    | none => none
    | some evictItem =>
      let eitem := m.entry evictItem
      let m0 := m.delete eitem.key
      let (m1, p) := m0.alloc newitem
      let (l, m2, e) := PushFront (Remove lru.list evictItem) m1 p
      some ({ lru with list := l }, m2.store newitem.key e, eitem, true)

/-- Modelled from the spec: `windowLRU.get` is not among the sources.
"Move the entry to the most-recent end." -/
def windowLRU.get (lru : windowLRU) (v : Nat) : windowLRU :=
  { lru with list := MoveToFront lru.list v }

/-! ## Segmented LRU (`s2lru.go`) -/

/-- The struct `segmentedLRU`; its field `data` is the shared map of `Mem`. -/
structure segmentedLRU where
  stageOneCap : Int
  stageTowCap : Int
  stageOne : List Nat
  stageTwo : List Nat

/-- `newSLRU`. -/
def newSLRU (stageOneCap stageTowCap : Int) : segmentedLRU :=
  { stageOneCap := stageOneCap, stageTowCap := stageTowCap, stageOne := [], stageTwo := [] }

/-- `segmentedLRU.Len`. -/
def segmentedLRU.Len (slru : segmentedLRU) : Int :=
  (slru.stageTwo.length : Int) + (slru.stageOne.length : Int)

/-- `segmentedLRU.add`; `none` is the nil dereference of `e.Value` when
`stageOne.Back()` is nil. -/
def segmentedLRU.add (slru : segmentedLRU) (m : Mem) (newitem : storeItem) :
    Option (segmentedLRU × Mem) :=
  let newitem : storeItem := { newitem with stage := 1 }
  if (slru.stageOne.length : Int) < slru.stageOneCap ∨
      slru.Len < slru.stageOneCap + slru.stageTowCap then
    let (m1, p) := m.alloc newitem
    let (l, m2, e) := PushFront slru.stageOne m1 p
    some ({ slru with stageOne := l }, m2.store newitem.key e)
  else
    match Back slru.stageOne with
    | none => none
    | some e =>
      let item := m.Value e
      let m1 := m.delete (m.item item).key
      let m2 := m1.assign item newitem
      let m3 := m2.store (m2.item item).key e
      some ({ slru with stageOne := MoveToFront slru.stageOne e }, m3)

/-- `segmentedLRU.get`; `none` is the nil dereference of `back.Value` when
`stageTwo.Back()` is nil. -/
def segmentedLRU.get (slru : segmentedLRU) (m : Mem) (v : Nat) :
    Option (segmentedLRU × Mem) :=
  let item := m.Value v
  if (m.item item).stage = STAGE_TWO then
    some ({ slru with stageTwo := MoveToFront slru.stageTwo v }, m)
  else if (slru.stageTwo.length : Int) < slru.stageTowCap then
    let l1 := Remove slru.stageOne v
    let m1 := m.assign item { m.item item with stage := STAGE_TWO }
    let (l2, m2, e) := PushFront slru.stageTwo m1 item
    some ({ slru with stageOne := l1, stageTwo := l2 }, m2.store (m2.item item).key e)
  else
    match Back slru.stageTwo with
    | none => none
    | some back =>
      let bitem := m.Value back
      let oldb := m.item bitem
      let oldi := m.item item
      let m1 := (m.assign bitem oldi).assign item oldb
      let m2 := m1.assign bitem { m1.item bitem with stage := STAGE_TWO }
      let m3 := m2.assign item { m2.item item with stage := STAGE_ONE }
      let m4 := m3.store (m3.item item).key v
      let m5 := m4.store (m4.item bitem).key back
      some ({ slru with stageOne := MoveToFront slru.stageOne v,
                        stageTwo := MoveToFront slru.stageTwo back }, m5)

/-- `segmentedLRU.victim`: the address of the record (`some (some p)`), Go `nil`
(`some none`), or the nil dereference of `v.Value` (`none`). -/
def segmentedLRU.victim (slru : segmentedLRU) (m : Mem) : Option (Option Nat) :=
  if slru.Len < slru.stageOneCap + slru.stageTowCap then some none
  else
    match Back slru.stageOne with
    | none => none
    | some v => some (some (m.Value v))

/-! ## The `float64` arithmetic of `NewCache`

`NewCache` converts two `int`s to `float64`, multiplies each by a constant and
converts the product back with `int(...)`.  A finite `float64` is a 53-bit integer
significand times a power of two, and conversion and multiplication round the exact
result to the nearest such number, ties to the even significand (IEEE 754).  The
values here are far from the range limits of the format, so exponents are unbounded
in the model. -/

/-- The number of low bits that a positive integer loses when it is cut to 53
significant bits: the least `s` with `N / 2 ^ s < 2 ^ 53` (`fuel` bounds the search;
`N` itself is enough). -/
def shiftOf : Nat → Nat → Nat
  | 0, _ => 0
  | fuel + 1, N => if N < 2 ^ 53 then 0 else shiftOf fuel (N / 2) + 1

/-- Rounding of a natural number to 53 significant bits, to nearest, ties to even:
with `s = shiftOf N N` the result is the multiple of `2 ^ s` nearest to `N`. -/
def roundBits (N : Nat) : Nat :=
  let s := shiftOf N N
  let q := N / 2 ^ s
  let r := N % 2 ^ s
  if 2 ^ s < 2 * r ∨ (2 * r = 2 ^ s ∧ q % 2 = 1) then (q + 1) * 2 ^ s else q * 2 ^ s

/-- The conversion `float64(n)` of an `int`; the result is an integer-valued
`float64`, given by its value. -/
def toFloat64 (n : Int) : Int :=
  if n < 0 then -((roundBits (-n).toNat : Nat) : Int) else ((roundBits n.toNat : Nat) : Int)

/-- The expression `int(f * c)` for an integer-valued `float64` `f` and the positive
`float64` constant `c = m / 2 ^ e`: the exact product `f * m / 2 ^ e` is rounded to a
`float64`, and `int` truncates towards zero. -/
def mulToInt (f : Int) (m e : Nat) : Int :=
  if f < 0 then -((roundBits ((-f).toNat * m) / 2 ^ e : Nat) : Int)
  else ((roundBits (f.toNat * m) / 2 ^ e : Nat) : Int)

/-! ## The cache (`cache.go`) -/

/-- The struct `Cache` without the field `m`, the lock, which `Shared` adds to it;
`mem` holds the field `data`. -/
structure Cache where
  lru : windowLRU
  slru : segmentedLRU
  door : BloomFilter
  c : cmSketch
  t : Int
  threshold : Int
  mem : Mem

/-- `NewCache`.  `lruSize` is computed in `int` arithmetic (Go's `/` truncates);
`slruSize` is `int(float64(size) * ((100 - lruPct) / 100.0))` and `slru0` is
`int(0.2 * float64(slruSize))`, computed in `float64` arithmetic: the constant of the
first product is 0.99, the `float64` `4458563631096791 / 2 ^ 52`, and 0.2 is the
`float64` `3602879701896397 / 2 ^ 54`. -/
def NewCache (X : Env) (size : Int) : Cache :=
  let lruPct : Int := 1
  let lruSize := Int.tdiv (lruPct * size) 100
  let lruSize := if lruSize < 1 then 1 else lruSize
  let slruSize := mulToInt (toFloat64 size) 4458563631096791 52
  let slruSize := if slruSize < 1 then 1 else slruSize
  let slru0 := mulToInt (toFloat64 slruSize) 3602879701896397 54
  let slru0 := if slru0 < 1 then 1 else slru0
  { lru := newWindowLRU lruSize
    slru := newSLRU slru0 (slruSize - slru0)
    door := newFilter
    c := newCmSketch X
    t := 0
    threshold := 0
    mem := { data := fun _ => none, Value := fun _ => 0, elems := 0,
             item := fun _ => { stage := 0, key := 0, conflict := 0, value := none },
             items := 0 } }

/-- `Cache.set`. -/
def Cache.set (X : Env) (c : Cache) (key : Key) (value : Value) : Except Cache (Cache × Bool) :=
  match keyToHash X key with
  | none => .error c
  | some (keyHash, conflictHash) =>
    let i : storeItem := { stage := 0, key := keyHash, conflict := conflictHash, value := value }
    match c.lru.add c.mem i with
    | none => .error c
    | some (lru, mem, eitem, evicted) =>
      let c1 : Cache := { c with lru := lru, mem := mem }
      if !evicted then .ok (c1, true)
      else
        match c1.slru.victim c1.mem with
        | none => .error c1
        | some none =>
          match c1.slru.add c1.mem eitem with
          | none => .error c1
          | some (slru, mem) => .ok ({ c1 with slru := slru, mem := mem }, true)
        | some (some victim) =>
          let (door, allowed) := c1.door.Allow (toUint32 eitem.key)
          let c2 : Cache := { c1 with door := door }
          if !allowed then .ok (c2, true)
          else
            let vcount := c2.c.Estimate (c2.mem.item victim).key
            let ocount := c2.c.Estimate eitem.key
            if ocount < vcount then .ok (c2, true)
            else
              match c2.slru.add c2.mem eitem with
              | none => .error c2
              | some (slru, mem) => .ok ({ c2 with slru := slru, mem := mem }, true)

/-- The miss path of `Cache.get`: `door.Allow`, `c.Increment`, `return nil, false`. -/
def Cache.miss (c : Cache) (keyHash : Nat) : Cache :=
  { c with door := (c.door.Allow (toUint32 keyHash)).1, c := c.c.Increment keyHash }

/-- The head of `Cache.get`: `c.t++`, and when the counter equals the threshold
the sketch and the filter are reset and the counter restarts from zero. -/
def Cache.tick (c : Cache) : Cache :=
  let t := wrapInt32 (c.t + 1)
  if t = c.threshold then { c with c := c.c.Reset, door := c.door.reset, t := 0 }
  else { c with t := t }

/-- `Cache.get`. -/
def Cache.get (X : Env) (c : Cache) (key : Key) : Except Cache (Cache × Value × Bool) :=
  let c0 := c.tick
  match keyToHash X key with
  | none => .error c0
  | some (keyHash, confictHash) =>
    match c0.mem.data keyHash with
    | none => .ok (c0.miss keyHash, none, false)
    | some val =>
      let item := c0.mem.Value val
      if (c0.mem.item item).conflict ≠ confictHash then .ok (c0.miss keyHash, none, false)
      else
        let c1 : Cache := { c0 with door := (c0.door.Allow (toUint32 keyHash)).1,
                                    c := c0.c.Increment (c0.mem.item item).key }
        let v := (c1.mem.item item).value
        if (c1.mem.item item).stage = 0 then
          .ok ({ c1 with lru := c1.lru.get val }, v, true)
        else
          match c1.slru.get c1.mem val with
          | none => .error c1
          | some (slru, mem) => .ok ({ c1 with slru := slru, mem := mem }, v, true)

/-- `Cache.del`: the result is (conflict hash of the removed entry, found). -/
def Cache.del (X : Env) (c : Cache) (key : Key) : Except Cache (Cache × Nat × Bool) :=
  match keyToHash X key with
  | none => .error c
  | some (keyHash, conflictHash) =>
    match c.mem.data keyHash with
    | none => .ok (c, 0, false)
    | some val =>
      let item := c.mem.Value val
      if conflictHash ≠ 0 ∧ conflictHash ≠ (c.mem.item item).conflict then .ok (c, 0, false)
      else .ok ({ c with mem := c.mem.delete keyHash }, (c.mem.item item).conflict, true)

/-! ## Sequences of calls -/

/-- One call of the public interface. -/
inductive Op where
  | Set (key : Key) (value : Value)
  | Get (key : Key)
  | Del (key : Key)
  deriving DecidableEq, Repr

/-- The state after one call, or the state at the fault. -/
def step (X : Env) (c : Cache) : Op → Except Cache Cache
  | .Set key value => (Cache.set X c key value).map Prod.fst
  | .Get key => (Cache.get X c key).map Prod.fst
  | .Del key => (Cache.del X c key).map Prod.fst

/-- The state after a sequence of calls; a fault ends the run. -/
def run (X : Env) (c : Cache) : List Op → Except Cache Cache
  | [] => .ok c
  | op :: ops =>
    match step X c op with
    | .error e => .error e
    | .ok c1 => run X c1 ops

/-! ## Well-formedness of the pointer structure -/

/-- The element `e` is linked in one of the three lists. -/
def Linked (w s1 s2 : List Nat) (e : Nat) : Prop := e ∈ w ∨ e ∈ s1 ∨ e ∈ s2

/-- Consistency of the three lists and the shared memory: no element is linked
twice in a list, linked elements and their records are allocated, distinct
linked elements hold distinct records, the stage tag of a record names the
list of its element (so no element is in two lists), and every entry of the
map points to a linked element that holds the mapped key. -/
structure Sound (w s1 s2 : List Nat) (m : Mem) : Prop where
  nodupW : w.Nodup
  nodup1 : s1.Nodup
  nodup2 : s2.Nodup
  alloc : ∀ e, Linked w s1 s2 e → e < m.elems ∧ m.Value e < m.items
  inj : ∀ e e2, Linked w s1 s2 e → Linked w s1 s2 e2 → m.Value e = m.Value e2 → e = e2
  stage0 : ∀ e, e ∈ w → (m.entry e).stage = 0
  stage1 : ∀ e, e ∈ s1 → (m.entry e).stage = 1
  stage2 : ∀ e, e ∈ s2 → (m.entry e).stage = 2
  index : ∀ k e, m.data k = some e → Linked w s1 s2 e ∧ (m.entry e).key = k

/-- The occupancy bounds the code maintains. -/
structure Sized (lru : windowLRU) (slru : segmentedLRU) : Prop where
  capW : 1 ≤ lru.cap
  cap1 : 1 ≤ slru.stageOneCap
  lenW : (lru.list.length : Int) ≤ lru.cap
  len2 : (slru.stageTwo.length : Int) ≤ slru.stageTowCap
  lenS : slru.Len ≤ slru.stageOneCap + slru.stageTowCap

/-- Well-formed cache state. -/
def Cache.WF (c : Cache) : Prop :=
  Sound c.lru.list c.slru.stageOne c.slru.stageTwo c.mem ∧ Sized c.lru c.slru

/-- A key of a type that `keyToHash` accepts. -/
def Key.supported (X : Env) (k : Key) : Prop := (keyToHash X k).isSome = true

/-- The keys of the calls of a sequence are all supported. -/
def Op.supported (X : Env) : Op → Prop
  | .Set key _ => key.supported X
  | .Get key => key.supported X
  | .Del key => key.supported X

/-- Every record held by a linked element has a key that satisfies `P`. -/
def Cache.KeysIn (c : Cache) (P : Nat → Prop) : Prop :=
  ∀ e, Linked c.lru.list c.slru.stageOne c.slru.stageTwo e → P (c.mem.entry e).key

/-- The call is a `Set` whose key has primary hash `h`. -/
def Op.setsHash (X : Env) (h : Nat) : Op → Prop
  | .Set key _ => ∃ ch, keyToHash X key = some (h, ch)
  | .Get _ => False
  | .Del _ => False

/-- Every linked element is the one the index gives for the key of its record. -/
def FullIdx (w s1 s2 : List Nat) (m : Mem) : Prop :=
  ∀ e, Linked w s1 s2 e → m.data (m.entry e).key = some e

/-- The list `l` holds a record with key `k`. -/
def Mem.holds (m : Mem) (l : List Nat) (k : Nat) : Prop := ∃ e, e ∈ l ∧ (m.entry e).key = k

/-- Index/list consistency, first half: every key present in the index is the key
of a record in exactly one of the three lists. -/
def Cache.IndexInOneList (c : Cache) : Prop :=
  ∀ k, (c.mem.data k).isSome = true →
    (c.mem.holds c.lru.list k ∧ ¬ c.mem.holds c.slru.stageOne k ∧
        ¬ c.mem.holds c.slru.stageTwo k) ∨
      (¬ c.mem.holds c.lru.list k ∧ c.mem.holds c.slru.stageOne k ∧
        ¬ c.mem.holds c.slru.stageTwo k) ∨
      (¬ c.mem.holds c.lru.list k ∧ ¬ c.mem.holds c.slru.stageOne k ∧
        c.mem.holds c.slru.stageTwo k)

/-- Index/list consistency, second half: every element of a list has an index
entry under the key of its record that points back to that element. -/
def Cache.ListsIndexed (c : Cache) : Prop :=
  FullIdx c.lru.list c.slru.stageOne c.slru.stageTwo c.mem

/-- The primary hashes of the keys of the `Set` calls of a sequence, in order. -/
def setHashes (X : Env) : List Op → List Nat
  | [] => []
  | .Set key _ :: ops =>
    match keyToHash X key with
    | none => setHashes X ops
    | some (kh, _) => kh :: setHashes X ops
  | .Get _ :: ops => setHashes X ops
  | .Del _ :: ops => setHashes X ops

/-- The call is a `Del`. -/
def Op.isDel : Op → Bool
  | .Del _ => true
  | _ => false

/-! ## Observations on runs -/

/-- A sample environment: every string and every byte slice has primary hash 7,
and the conflict hash is the length. -/
def Env.sample : Env :=
  { MemHashString := fun _ => 7
    Sum64String := fun s => s.length
    MemHash := fun _ => 7
    Sum64 := fun b => b.length
    counterMax := 15 }

/-- The result `(value, found)` of `Get key` issued after the calls `ops` on
`NewCache size`; `none` when a call faults. -/
def getAfter (X : Env) (size : Int) (ops : List Op) (key : Key) : Option (Value × Bool) :=
  match run X (NewCache X size) ops with
  | .error _ => none
  | .ok c =>
    match Cache.get X c key with
    | .error _ => none
    | .ok (_, v, b) => some (v, b)

/-- The result `(marker, found)` of `Del key` issued after the calls `ops` on
`NewCache size`; `none` when a call faults. -/
def delAfter (X : Env) (size : Int) (ops : List Op) (key : Key) : Option (Nat × Bool) :=
  match run X (NewCache X size) ops with
  | .error _ => none
  | .ok c =>
    match Cache.del X c key with
    | .error _ => none
    | .ok (_, r, b) => some (r, b)

/-- The state in which the calls `ops` on `NewCache size` end: the state after
the last call, or the state at the fault. -/
def stateAfter (X : Env) (size : Int) (ops : List Op) : Cache :=
  match run X (NewCache X size) ops with
  | .error c => c
  | .ok c => c

/-- What `windowLRU.add` returns, with the unchanged input in place of a fault. -/
def windowLRU.added (lru : windowLRU) (m : Mem) (i : storeItem) :
    windowLRU × Mem × storeItem × Bool :=
  (lru.add m i).getD (lru, m, i, false)

/-- Five `Set` calls after which, on `NewCache(3)`, the window holds key 12, the
probation list holds the keys 11 and 10, and the filter has marked 12. -/
def tieOps : List Op :=
  [.Set (.int 10) none, .Set (.int 11) none, .Set (.int 12) none, .Set (.int 13) none,
    .Set (.int 12) none]

/-- The state after `tieOps` on `NewCache(3)`. -/
def tieState : Cache := stateAfter Env.sample 3 tieOps

/-- Calls after which, on `NewCache(3)`, the window holds key `2 ^ 32 + 1`, the
probation list holds the keys 11 and 10, and the only fingerprint the filter has
been given is 1. -/
def truncOps : List Op :=
  [.Get (.int 1), .Set (.int 10) none, .Set (.int 11) none, .Set (.int 4294967297) none]

/-- The state after `truncOps` on `NewCache(3)`. -/
def truncState : Cache := stateAfter Env.sample 3 truncOps

/-- Calls after which, on `NewCache(3)`, the window holds key 13, the probation
list holds the keys 11 and 10, and the filter has marked nothing. -/
def unseenOps : List Op :=
  [.Set (.int 10) none, .Set (.int 11) none, .Set (.int 13) none]

/-- The state after `unseenOps` on `NewCache(3)`. -/
def unseenState : Cache := stateAfter Env.sample 3 unseenOps

/-- Two `Set` calls after which, on `NewCache(3)`, key 2 is in the window and
key 1 in the probation list. -/
def twoSets : List Op := [.Set (.int 1) (some 10), .Set (.int 2) (some 20)]

/-- The state after `twoSets` on `NewCache(3)`. -/
def twoState : Cache := stateAfter Env.sample 3 twoSets

/-- One `Set` for each of the integer keys 0, 1, ..., 99. -/
def hundredSets : List Op := (List.range 100).map (fun k => Op.Set (.int (k : Int)) none)

/-- The `Set` calls for a list of integer keys with their values. -/
def setAll (kvs : List (Int × Value)) : List Op := kvs.map (fun kv => Op.Set (.int kv.1) kv.2)

/-- Number of entries held in the three lists. -/
def Cache.total (c : Cache) : Nat :=
  c.lru.list.length + c.slru.stageOne.length + c.slru.stageTwo.length

/-- The keys of the records of a list, front first. -/
def Mem.keys (m : Mem) (l : List Nat) : List Nat := l.map (fun e => (m.entry e).key)

/-- Whether the calls `ops` on `NewCache size` end in a fault. -/
def runFaults (X : Env) (size : Int) (ops : List Op) : Bool :=
  match run X (NewCache X size) ops with
  | .error _ => true
  | .ok _ => false

/-- Calls after which, on `NewCache(3)`, the probation list and the full protected
list each hold one record, both with key 5: the protected one is the record of
the first `Set(5)`, the probation one, which the index gives for 5, is the record
of the second. -/
def dupOps : List Op :=
  [.Set (.int 5) (some 50), .Set (.int 6) (some 60), .Get (.int 5), .Set (.int 5) (some 51),
    .Set (.int 7) (some 70)]

/-- The state after `dupOps` on `NewCache(3)`. -/
def dupState : Cache := stateAfter Env.sample 3 dupOps

/-- Calls after which, on `NewCache(3)`, the probation list holds key 6 and the full
protected list holds key 5. -/
def swapOps : List Op :=
  [.Set (.int 5) (some 50), .Set (.int 6) (some 60), .Get (.int 5), .Set (.int 7) (some 70)]

/-- The state after `swapOps` on `NewCache(3)`. -/
def swapState : Cache := stateAfter Env.sample 3 swapOps

/-! ## The public methods and the lock (`cache.go`, `sync.RWMutex`)

The public methods `Set`, `Get` and `Del` take the lock `c.m`, defer its release and
call `set`, `get`, `del`.  Goroutines that run public methods on one cache are
modelled by interleaving: each goroutine moves from the call to the body (its lock
call has returned) and from the body to the return (the body has run, the deferred
unlock has run). -/

/-- The state of a `sync.RWMutex` (Go standard library, by its documented contract:
any number of readers or one writer): how many goroutines hold the read side and
whether one holds the write side. -/
structure RWMutex where
  readers : Nat
  writer : Bool
  deriving DecidableEq, Repr

/-- `RWMutex.RLock`; `none` when the call has to wait, which it does while a writer
holds the lock.  (Go also makes it wait while a `Lock` call is waiting; the model
lets it return, which only adds interleavings.) -/
def RWMutex.RLock (m : RWMutex) : Option RWMutex :=
  if m.writer then none else some { m with readers := m.readers + 1 }

/-- `RWMutex.RUnlock`. -/
def RWMutex.RUnlock (m : RWMutex) : RWMutex := { m with readers := m.readers - 1 }

/-- `RWMutex.Lock`; `none` when the call has to wait, which it does while a writer or
a reader holds the lock. -/
def RWMutex.Lock (m : RWMutex) : Option RWMutex :=
  if m.writer ∨ m.readers ≠ 0 then none else some { m with writer := true }

/-- `RWMutex.Unlock`. -/
def RWMutex.Unlock (m : RWMutex) : RWMutex := { m with writer := false }

/-- The first statement of the public method of a call: `c.m.Lock()` in `Cache.Set`
and `Cache.Del`, `c.m.RLock()` in `Cache.Get`. -/
def Op.acquire (m : RWMutex) : Op → Option RWMutex
  | .Set _ _ => m.Lock
  | .Get _ => m.RLock
  | .Del _ => m.Lock

/-- The deferred statement of the public method of a call: `c.m.Unlock()` in
`Cache.Set` and `Cache.Del`, `c.m.RUnlock()` in `Cache.Get`. -/
def Op.release (m : RWMutex) : Op → RWMutex
  | .Set _ _ => m.Unlock
  | .Get _ => m.RUnlock
  | .Del _ => m.Unlock

/-- Where a goroutine is in its public method: `called` before the lock call has
returned, `inBody` while `set`, `get` or `del` runs with the lock held, `returned`
after the deferred unlock. -/
inductive Phase where
  | called
  | inBody
  | returned
  deriving DecidableEq, Repr

/-- One cache shared by goroutines: the lock `c.m`, the rest of the struct, and the
public call of every goroutine with its progress. -/
structure Shared where
  m : RWMutex
  c : Cache
  calls : List (Op × Phase)

/-- The goroutines `ops` about to call their public methods on the cache `c`, with
the lock free. -/
def Shared.start (c : Cache) (ops : List Op) : Shared :=
  { m := { readers := 0, writer := false }
    c := c
    calls := ops.map (fun op => (op, Phase.called)) }

/-- The next move of goroutine `i`, `none` when it has none (its lock call waits, it
has returned, or there is no such goroutine).  The body takes effect on the shared
cache when it ends; a body that ends in a fault leaves the state at the fault, and
the deferred unlock runs all the same. -/
def Shared.move (X : Env) (s : Shared) (i : Nat) : Option Shared :=
  match s.calls.get? i with
  | none => none
  | some (op, Phase.called) =>
      match op.acquire s.m with
      | none => none
      | some m => some { s with m := m, calls := s.calls.set i (op, Phase.inBody) }
  | some (op, Phase.inBody) =>
      some { m := op.release s.m
             c := match step X s.c op with
               | .ok c => c
               | .error c => c
             calls := s.calls.set i (op, Phase.returned) }
  | some (_, Phase.returned) => none

/-- The moves of the goroutines in the order `sched`. -/
def Shared.moves (X : Env) (s : Shared) : List Nat → Option Shared
  | [] => some s
  | i :: sched =>
    match s.move X i with
    | none => none
    | some s1 => s1.moves X sched

/-- The progress of the goroutines. -/
def Shared.phases (s : Shared) : List Phase := s.calls.map Prod.snd

/-- The calls whose bodies are running. -/
def Shared.running (s : Shared) : List Op :=
  (s.calls.filter (fun p => p.2 = Phase.inBody)).map Prod.fst

/-- The observable part of a state: the lock, the progress of the goroutines and the
counter `t` of the cache. -/
def Shared.view (s : Shared) : RWMutex × List Phase × Int := (s.m, s.phases, s.c.t)

/-- Whether a call is a `Get`. -/
def Op.isGet : Op → Bool
  | .Get _ => true
  | _ => false

/-- Whether a goroutine is in the body of a `Get` call (`get = true`) or of a `Set`
or `Del` call (`get = false`). -/
def runs (get : Bool) (p : Op × Phase) : Bool :=
  decide (p.2 = Phase.inBody) && (p.1.isGet == get)

/-- The number of running bodies of `Get` calls (`get = true`) or of `Set` and `Del`
calls (`get = false`). -/
def Shared.bodies (s : Shared) (get : Bool) : Nat := s.calls.countP (runs get)

/-- The lock agrees with the running bodies: the readers are the running `Get`
bodies, the writer flag is set when a `Set` or `Del` body runs, and a running `Set`
or `Del` body is the only running body. -/
structure Shared.Locked (s : Shared) : Prop where
  readers : s.m.readers = s.bodies true
  writer : s.m.writer = true ↔ 1 ≤ s.bodies false
  one : s.bodies false ≤ 1
  excl : 1 ≤ s.bodies false → s.bodies true = 0

/-! ## Lemmas on the list primitives -/

theorem upd_apply {β : Type} (f : Nat → β) (a : Nat) (v : β) (x : Nat) :
    upd f a v x = if x = a then v else f x := rfl

@[simp]
theorem upd_same {β : Type} (f : Nat → β) (a : Nat) (v : β) : upd f a v a = v := by
  simp [upd]

theorem upd_ne {β : Type} (f : Nat → β) {a x : Nat} (v : β) (h : x ≠ a) : upd f a v x = f x := by
  simp [upd, h]

theorem mem_MoveToFront (l : List Nat) (e x : Nat) : x ∈ MoveToFront l e ↔ x ∈ l := by
  unfold MoveToFront
  split
  · rename_i h
    by_cases hx : x = e
    · subst hx; simp [h]
    · simp [hx, List.mem_erase_of_ne hx]
  · rfl

theorem nodup_MoveToFront (l : List Nat) (e : Nat) (h : l.Nodup) : (MoveToFront l e).Nodup := by
  unfold MoveToFront
  split
  · exact List.nodup_cons.mpr ⟨fun hm => (List.Nodup.mem_erase_iff h).mp hm |>.1 rfl,
      h.erase e⟩
  · exact h

theorem length_MoveToFront (l : List Nat) (e : Nat) : (MoveToFront l e).length = l.length := by
  unfold MoveToFront
  split
  · rename_i h
    have := List.length_erase_of_mem h
    have hp := List.length_pos_of_mem h
    simp only [List.length_cons]
    omega
  · rfl

theorem Back_mem {l : List Nat} {e : Nat} (h : Back l = some e) : e ∈ l :=
  List.mem_of_getLast?_eq_some h

theorem Back_eq_none {l : List Nat} (h : Back l = none) : l = [] := by
  unfold Back at h
  exact List.getLast?_eq_none_iff.mp h

theorem Back_isSome {l : List Nat} (h : 0 < l.length) : ∃ e, Back l = some e := by
  cases hb : Back l with
  | none => rw [Back_eq_none hb] at h; simp at h
  | some e => exact ⟨e, rfl⟩

/-! ## Preservation of `Sound` by the memory updates -/

theorem sound_push_window {w s1 s2 : List Nat} {m : Mem} (i : storeItem)
    (h : Sound w s1 s2 m) (hi : i.stage = 0) :
    Sound (PushFront w (m.alloc i).1 (m.alloc i).2).1 s1 s2
      ((PushFront w (m.alloc i).1 (m.alloc i).2).2.1.store i.key
        (PushFront w (m.alloc i).1 (m.alloc i).2).2.2) := by
  obtain ⟨hnw, hn1, hn2, hal, hinj, h0, h1, h2, hix⟩ := h
  have fresh : ∀ e, Linked w s1 s2 e → e ≠ m.elems ∧ m.Value e ≠ m.items := by
    intro e he
    have := hal e he
    omega
  have keep : ∀ e, Linked w s1 s2 e →
      upd m.item m.items i (upd m.Value m.elems m.items e)
        = m.entry e := by
    intro e he
    simp [upd_apply, fresh e he, Mem.entry]
  have hnew : ∀ e, Linked (m.elems :: w) s1 s2 e → e = m.elems ∨ Linked w s1 s2 e := by
    intro e he
    simpa [Linked, or_assoc] using he
  simp only [PushFront, Mem.alloc, Mem.store]
  refine ⟨?_, hn1, hn2, ?_, ?_, ?_, ?_, ?_, ?_⟩
  · exact List.nodup_cons.mpr ⟨fun hm => (fresh _ (Or.inl hm)).1 rfl, hnw⟩
  · intro e he
    rcases hnew e he with rfl | he
    · simp
    · have := fresh e he
      have := hal e he
      simp [upd_apply, *]
      omega
  · intro e e2 he he2
    rcases hnew e he with rfl | he <;> rcases hnew e2 he2 with rfl | he2
    · simp
    · have := fresh e2 he2
      simp [upd_apply, this]
      intro h; exact absurd h.symm this.2
    · have := fresh e he
      simp [upd_apply, this]
    · have := fresh e he
      have := fresh e2 he2
      simp [upd_apply, *]
      exact hinj e e2 he he2
  · intro e he
    simp only [Mem.entry]
    rcases List.mem_cons.mp he with rfl | he
    · simp [hi]
    · rw [keep e (Or.inl he)]; exact h0 e he
  · intro e he
    simp only [Mem.entry]
    rw [keep e (Or.inr (Or.inl he))]; exact h1 e he
  · intro e he
    simp only [Mem.entry]
    rw [keep e (Or.inr (Or.inr he))]; exact h2 e he
  · intro k e hk
    simp only [Mem.entry, upd_apply] at hk ⊢
    split at hk
    · rename_i hkk
      simp at hk; subst hk; subst hkk
      simp [Linked]
    · obtain ⟨hl, hkey⟩ := hix k e hk
      have := fresh e hl
      refine ⟨?_, ?_⟩
      · rcases hl with hl | hl | hl <;> simp [Linked, hl]
      · simp [this]; exact hkey
theorem sound_push_one {w s1 s2 : List Nat} {m : Mem} (i : storeItem)
    (h : Sound w s1 s2 m) (hi : i.stage = 1) :
    Sound w (PushFront s1 (m.alloc i).1 (m.alloc i).2).1 s2
      ((PushFront s1 (m.alloc i).1 (m.alloc i).2).2.1.store i.key
        (PushFront s1 (m.alloc i).1 (m.alloc i).2).2.2) := by
  obtain ⟨hnw, hn1, hn2, hal, hinj, h0, h1, h2, hix⟩ := h
  have fresh : ∀ e, Linked w s1 s2 e → e ≠ m.elems ∧ m.Value e ≠ m.items := by
    intro e he
    have := hal e he
    omega
  have keep : ∀ e, Linked w s1 s2 e →
      upd m.item m.items i (upd m.Value m.elems m.items e) = m.entry e := by
    intro e he
    simp [upd_apply, fresh e he, Mem.entry]
  have hnew : ∀ e, Linked w (m.elems :: s1) s2 e → e = m.elems ∨ Linked w s1 s2 e := by
    intro e he
    rcases he with he | he | he
    · exact Or.inr (Or.inl he)
    · rcases List.mem_cons.mp he with he | he
      · exact Or.inl he
      · exact Or.inr (Or.inr (Or.inl he))
    · exact Or.inr (Or.inr (Or.inr he))
  simp only [PushFront, Mem.alloc, Mem.store]
  refine ⟨hnw, ?_, hn2, ?_, ?_, ?_, ?_, ?_, ?_⟩
  · exact List.nodup_cons.mpr ⟨fun hm => (fresh _ (Or.inr (Or.inl hm))).1 rfl, hn1⟩
  · intro e he
    rcases hnew e he with rfl | he
    · simp
    · have := fresh e he
      have := hal e he
      simp [upd_apply, *]
      omega
  · intro e e2 he he2
    rcases hnew e he with rfl | he <;> rcases hnew e2 he2 with rfl | he2
    · simp
    · have := fresh e2 he2
      simp [upd_apply, this]
      intro h; exact absurd h.symm this.2
    · have := fresh e he
      simp [upd_apply, this]
    · have := fresh e he
      have := fresh e2 he2
      simp [upd_apply, *]
      exact hinj e e2 he he2
  · intro e he
    simp only [Mem.entry]
    rw [keep e (Or.inl he)]; exact h0 e he
  · intro e he
    simp only [Mem.entry]
    rcases List.mem_cons.mp he with rfl | he
    · simp [hi]
    · rw [keep e (Or.inr (Or.inl he))]; exact h1 e he
  · intro e he
    simp only [Mem.entry]
    rw [keep e (Or.inr (Or.inr he))]; exact h2 e he
  · intro k e hk
    simp only [Mem.entry, upd_apply] at hk ⊢
    split at hk
    · rename_i hkk
      simp at hk; subst hk; subst hkk
      simp [Linked]
    · obtain ⟨hl, hkey⟩ := hix k e hk
      have := fresh e hl
      refine ⟨?_, ?_⟩
      · rcases hl with hl | hl | hl <;> simp [Linked, hl]
      · simp [this]; exact hkey

/-- Two linked elements in lists of different stage are different. -/
theorem Sound.ne_of_mem {w s1 s2 : List Nat} {m : Mem} (h : Sound w s1 s2 m) {a b : Nat} :
    (a ∈ w → b ∈ s1 → a ≠ b) ∧ (a ∈ w → b ∈ s2 → a ≠ b) ∧ (a ∈ s1 → b ∈ s2 → a ≠ b) := by
  refine ⟨?_, ?_, ?_⟩
  · rintro ha hb rfl
    have := h.stage0 a ha; have := h.stage1 a hb; omega
  · rintro ha hb rfl
    have := h.stage0 a ha; have := h.stage2 a hb; omega
  · rintro ha hb rfl
    have := h.stage1 a ha; have := h.stage2 a hb; omega

theorem sound_delete {w s1 s2 : List Nat} {m : Mem} (k : Nat) (h : Sound w s1 s2 m) :
    Sound w s1 s2 (m.delete k) := by
  obtain ⟨hnw, hn1, hn2, hal, hinj, h0, h1, h2, hix⟩ := h
  refine ⟨hnw, hn1, hn2, hal, hinj, h0, h1, h2, ?_⟩
  intro k2 e hk
  simp only [Mem.delete, upd_apply] at hk
  split at hk
  · simp at hk
  · exact hix k2 e hk

theorem sound_evict_window {w s1 s2 : List Nat} {m : Mem} (x : Nat)
    (h : Sound w s1 s2 m) (hx : x ∈ w) :
    Sound (Remove w x) s1 s2 (m.delete (m.entry x).key) := by
  have hne := @Sound.ne_of_mem _ _ _ _ h
  obtain ⟨hnw, hn1, hn2, hal, hinj, h0, h1, h2, hix⟩ := h
  have sub : ∀ e, Linked (Remove w x) s1 s2 e → Linked w s1 s2 e := by
    intro e he
    rcases he with he | he | he
    · exact Or.inl (List.mem_of_mem_erase he)
    · exact Or.inr (Or.inl he)
    · exact Or.inr (Or.inr he)
  refine ⟨hnw.erase x, hn1, hn2, fun e he => hal e (sub e he),
    fun e e2 he he2 => hinj e e2 (sub e he) (sub e2 he2),
    fun e he => h0 e (List.mem_of_mem_erase he), h1, h2, ?_⟩
  intro k e hk
  simp only [Mem.delete, upd_apply] at hk
  split at hk
  · simp at hk
  · rename_i hkx
    obtain ⟨hl, hkey⟩ := hix k e hk
    refine ⟨?_, hkey⟩
    have hex : e ≠ x := by
      rintro rfl; exact hkx hkey.symm
    rcases hl with hl | hl | hl
    · exact Or.inl ((List.mem_erase_of_ne hex).mpr hl)
    · exact Or.inr (Or.inl hl)
    · exact Or.inr (Or.inr hl)

theorem sound_move {w s1 s2 w2 t1 t2 : List Nat} {m : Mem} (h : Sound w s1 s2 m)
    (hw : ∀ e, e ∈ w2 ↔ e ∈ w) (h1 : ∀ e, e ∈ t1 ↔ e ∈ s1) (h2 : ∀ e, e ∈ t2 ↔ e ∈ s2)
    (nw : w2.Nodup) (n1 : t1.Nodup) (n2 : t2.Nodup) : Sound w2 t1 t2 m := by
  have hl : ∀ e, Linked w2 t1 t2 e ↔ Linked w s1 s2 e := by
    intro e; simp [Linked, hw, h1, h2]
  refine ⟨nw, n1, n2, fun e he => h.alloc e ((hl e).mp he),
    fun e e2 he he2 => h.inj e e2 ((hl e).mp he) ((hl e2).mp he2),
    fun e he => h.stage0 e ((hw e).mp he), fun e he => h.stage1 e ((h1 e).mp he),
    fun e he => h.stage2 e ((h2 e).mp he), ?_⟩
  intro k e hk
  exact ⟨(hl e).mpr (h.index k e hk).1, (h.index k e hk).2⟩
theorem Sound.not_mem_window {w s1 s2 : List Nat} {m : Mem} (h : Sound w s1 s2 m) {a : Nat}
    (ha : a ∈ s1 ∨ a ∈ s2) : a ∉ w := by
  intro hw
  rcases ha with ha | ha
  · exact h.ne_of_mem.1 hw ha rfl
  · exact h.ne_of_mem.2.1 hw ha rfl

theorem sound_replace_one {w s1 s2 : List Nat} {m : Mem} (e : Nat) (i : storeItem)
    (h : Sound w s1 s2 m) (he : e ∈ s1) (hi : i.stage = 1) :
    Sound w s1 s2 (((m.delete (m.entry e).key).assign (m.Value e) i).store i.key e) := by
  have hne := @Sound.ne_of_mem _ _ _ _ h
  obtain ⟨hnw, hn1, hn2, hal, hinj, h0, h1, h2, hix⟩ := h
  have hle : Linked w s1 s2 e := Or.inr (Or.inl he)
  have keep : ∀ x, Linked w s1 s2 x → x ≠ e → upd m.item (m.Value e) i (m.Value x) = m.entry x := by
    intro x hx hxe
    have : m.Value x ≠ m.Value e := fun hv => hxe (hinj x e hx hle hv)
    simp [upd_apply, this, Mem.entry]
  simp only [Mem.delete, Mem.assign, Mem.store]
  refine ⟨hnw, hn1, hn2, hal, hinj, ?_, ?_, ?_, ?_⟩
  · intro x hx
    simp only [Mem.entry]
    rw [keep x (Or.inl hx) (hne.1 hx he)]; exact h0 x hx
  · intro x hx
    simp only [Mem.entry]
    by_cases hxe : x = e
    · subst hxe; simp [hi]
    · rw [keep x (Or.inr (Or.inl hx)) hxe]; exact h1 x hx
  · intro x hx
    simp only [Mem.entry]
    rw [keep x (Or.inr (Or.inr hx)) (fun hxe => hne.2.2 he hx hxe.symm)]; exact h2 x hx
  · intro k x hk
    simp only [Mem.entry, upd_apply] at hk ⊢
    split at hk
    · rename_i hkk
      simp at hk; subst hk; subst hkk
      exact ⟨hle, by simp⟩
    · split at hk
      · simp at hk
      · rename_i hk1 hk2
        obtain ⟨hl, hkey⟩ := hix k x hk
        have hxe : x ≠ e := by
          rintro rfl; exact hk2 hkey.symm
        have : m.Value x ≠ m.Value e := fun hv => hxe (hinj x e hl hle hv)
        exact ⟨hl, by simp [this]; exact hkey⟩

theorem sound_promote {w s1 s2 : List Nat} {m : Mem} (v : Nat)
    (h : Sound w s1 s2 m) (hv : v ∈ s1) :
    Sound w (Remove s1 v) (m.elems :: s2)
      { data := upd m.data (m.entry v).key (some m.elems)
        Value := upd m.Value m.elems (m.Value v)
        elems := m.elems + 1
        item := upd m.item (m.Value v) { m.item (m.Value v) with stage := STAGE_TWO }
        items := m.items } := by
  have hne := @Sound.ne_of_mem _ _ _ _ h
  obtain ⟨hnw, hn1, hn2, hal, hinj, h0, h1, h2, hix⟩ := h
  have hlv : Linked w s1 s2 v := Or.inr (Or.inl hv)
  have hvn : v ∉ Remove s1 v := fun hm => ((List.Nodup.mem_erase_iff hn1).mp hm).1 rfl
  have old : ∀ x, Linked w (Remove s1 v) (m.elems :: s2) x →
      x = m.elems ∨ (Linked w s1 s2 x ∧ x ≠ v ∧ x ≠ m.elems) := by
    intro x hx
    rcases hx with hx | hx | hx
    · refine Or.inr ⟨Or.inl hx, fun hxv => hne.1 hx hv hxv, ?_⟩
      have := hal x (Or.inl hx); omega
    · refine Or.inr ⟨Or.inr (Or.inl (List.mem_of_mem_erase hx)), ?_, ?_⟩
      · rintro rfl; exact hvn hx
      · have := hal x (Or.inr (Or.inl (List.mem_of_mem_erase hx))); omega
    · rcases List.mem_cons.mp hx with hx | hx
      · exact Or.inl hx
      · refine Or.inr ⟨Or.inr (Or.inr hx), fun hxv => hne.2.2 hv hx hxv.symm, ?_⟩
        have := hal x (Or.inr (Or.inr hx)); omega
  have keep : ∀ x, Linked w s1 s2 x → x ≠ v → x ≠ m.elems →
      upd m.item (m.Value v) { m.item (m.Value v) with stage := STAGE_TWO }
        (upd m.Value m.elems (m.Value v) x) = m.entry x := by
    intro x hx hxv hxe
    have : m.Value x ≠ m.Value v := fun hh => hxv (hinj x v hx hlv hh)
    simp [upd_apply, this, hxe, Mem.entry]
  refine ⟨hnw, hn1.erase v, ?_, ?_, ?_, ?_, ?_, ?_, ?_⟩
  · refine List.nodup_cons.mpr ⟨fun hm => ?_, hn2⟩
    have := hal _ (Or.inr (Or.inr hm)); omega
  · intro x hx
    rcases old x hx with rfl | ⟨hl, hxv, hxe⟩
    · have := hal v hlv
      simp; exact this.2
    · have := hal x hl
      simp [upd_apply, hxe]; omega
  · intro x y hx hy
    rcases old x hx with rfl | ⟨hlx, hxv, hxe⟩ <;> rcases old y hy with rfl | ⟨hly, hyv, hye⟩
    · simp
    · simp [upd_apply, hye]
      intro hh; exact absurd (hinj v y hlv hly hh) (Ne.symm hyv)
    · simp [upd_apply, hxe]
      intro hh; exact absurd (hinj x v hlx hlv hh) hxv
    · simp [upd_apply, hxe, hye]
      exact hinj x y hlx hly
  · intro x hx
    simp only [Mem.entry]
    have hl : Linked w s1 s2 x := Or.inl hx
    have := hal x hl
    rw [keep x hl (hne.1 hx hv) (by omega)]; exact h0 x hx
  · intro x hx
    simp only [Mem.entry]
    have hl : Linked w s1 s2 x := Or.inr (Or.inl (List.mem_of_mem_erase hx))
    have := hal x hl
    rw [keep x hl (by rintro rfl; exact hvn hx) (by omega)]
    exact h1 x (List.mem_of_mem_erase hx)
  · intro x hx
    simp only [Mem.entry]
    rcases List.mem_cons.mp hx with rfl | hx
    · simp [STAGE_TWO]
    · have hl : Linked w s1 s2 x := Or.inr (Or.inr hx)
      have := hal x hl
      rw [keep x hl (fun hxv => hne.2.2 hv hx hxv.symm) (by omega)]; exact h2 x hx
  · intro k x hk
    simp only [Mem.entry, upd_apply] at hk ⊢
    split at hk
    · rename_i hkk
      simp at hk; subst hk; subst hkk
      exact ⟨Or.inr (Or.inr (List.mem_cons_self _ _)), by simp [Mem.entry]⟩
    · rename_i hkk
      obtain ⟨hl, hkey⟩ := hix k x hk
      have hxv : x ≠ v := by
        rintro rfl; exact hkk hkey.symm
      have hxe : x ≠ m.elems := by
        have := hal x hl; omega
      have hval : m.Value x ≠ m.Value v := fun hh => hxv (hinj x v hl hlv hh)
      refine ⟨?_, by simp [hxe, hval]; exact hkey⟩
      rcases hl with hl | hl | hl
      · exact Or.inl hl
      · exact Or.inr (Or.inl ((List.mem_erase_of_ne hxv).mpr hl))
      · exact Or.inr (Or.inr (List.mem_cons_of_mem _ hl))
theorem sound_swap {w s1 s2 : List Nat} {m : Mem} (v back : Nat)
    (h : Sound w s1 s2 m) (hv : v ∈ s1) (hb : back ∈ s2) :
    Sound w s1 s2
      { data := upd (upd m.data (m.entry back).key (some v)) (m.entry v).key (some back)
        Value := m.Value
        elems := m.elems
        item := upd (upd m.item (m.Value back) { m.entry v with stage := STAGE_TWO })
          (m.Value v) { m.entry back with stage := STAGE_ONE }
        items := m.items } := by
  have hne := @Sound.ne_of_mem _ _ _ _ h
  obtain ⟨hnw, hn1, hn2, hal, hinj, h0, h1, h2, hix⟩ := h
  have hlv : Linked w s1 s2 v := Or.inr (Or.inl hv)
  have hlb : Linked w s1 s2 back := Or.inr (Or.inr hb)
  have hvb : v ≠ back := hne.2.2 hv hb
  have hpp : m.Value back ≠ m.Value v := fun hh => hvb (hinj back v hlb hlv hh).symm
  have keep : ∀ x, Linked w s1 s2 x → x ≠ v → x ≠ back →
      upd (upd m.item (m.Value back) { m.entry v with stage := STAGE_TWO })
          (m.Value v) { m.entry back with stage := STAGE_ONE } (m.Value x) = m.entry x := by
    intro x hx hxv hxb
    have h1 : m.Value x ≠ m.Value v := fun hh => hxv (hinj x v hx hlv hh)
    have h2 : m.Value x ≠ m.Value back := fun hh => hxb (hinj x back hx hlb hh)
    simp [upd_apply, h1, h2, Mem.entry]
  simp only [Mem.entry] at keep
  refine ⟨hnw, hn1, hn2, hal, hinj, ?_, ?_, ?_, ?_⟩
  · intro x hx
    simp only [Mem.entry]
    rw [keep x (Or.inl hx) (hne.1 hx hv) (hne.2.1 hx hb)]; exact h0 x hx
  · intro x hx
    simp only [Mem.entry]
    by_cases hxv : x = v
    · subst hxv; simp [STAGE_ONE]
    · rw [keep x (Or.inr (Or.inl hx)) hxv (hne.2.2 hx hb)]; exact h1 x hx
  · intro x hx
    simp only [Mem.entry]
    by_cases hxb : x = back
    · subst hxb; simp [upd_apply, hpp, STAGE_TWO]
    · rw [keep x (Or.inr (Or.inr hx)) (fun hxv => hne.2.2 hv hx hxv.symm) hxb]; exact h2 x hx
  · intro k x hk
    simp only [upd_apply] at hk
    split at hk
    · rename_i hkk
      simp at hk; subst hk; subst hkk
      exact ⟨hlb, by simp [Mem.entry, upd_apply, hpp]⟩
    · split at hk
      · rename_i hk1 hkk
        simp at hk; subst hk; subst hkk
        exact ⟨hlv, by simp [Mem.entry]⟩
      · rename_i hk1 hk2
        obtain ⟨hl, hkey⟩ := hix k x hk
        have hxv : x ≠ v := by
          rintro rfl; exact hk1 hkey.symm
        have hxb : x ≠ back := by
          rintro rfl; exact hk2 hkey.symm
        refine ⟨hl, ?_⟩
        simp only [Mem.entry]
        rw [keep x hl hxv hxb]; exact hkey
theorem window_add_sound {lru lru2 : windowLRU} {s1 s2 : List Nat} {m m2 : Mem}
    {i eitem : storeItem} {ev : Bool} (h : Sound lru.list s1 s2 m) (hi : i.stage = 0)
    (ha : lru.add m i = some (lru2, m2, eitem, ev)) : Sound lru2.list s1 s2 m2 := by
  unfold windowLRU.add at ha
  split at ha
  · simp only [Option.some.injEq, Prod.mk.injEq] at ha
    obtain ⟨rfl, rfl, -, -⟩ := ha
    exact sound_push_window i h hi
  · split at ha
    · simp at ha
    · rename_i x hx
      simp only [Option.some.injEq, Prod.mk.injEq] at ha
      obtain ⟨rfl, rfl, -, -⟩ := ha
      exact sound_push_window i (sound_evict_window x h (Back_mem hx)) hi

theorem window_add_sized {lru lru2 : windowLRU} {m m2 : Mem}
    {i eitem : storeItem} {ev : Bool} (hc : 1 ≤ lru.cap) (hl : (lru.list.length : Int) ≤ lru.cap)
    (ha : lru.add m i = some (lru2, m2, eitem, ev)) :
    lru2.cap = lru.cap ∧ (lru2.list.length : Int) ≤ lru.cap ∧
      (ev = false → lru2.list.length = lru.list.length + 1) ∧
      (ev = true → lru2.list.length = lru.list.length ∧ (lru.list.length : Int) = lru.cap) := by
  unfold windowLRU.add at ha
  split at ha
  · simp only [Option.some.injEq, Prod.mk.injEq] at ha
    obtain ⟨rfl, rfl, -, rfl⟩ := ha
    simp [PushFront]
    omega
  · split at ha
    · simp at ha
    · rename_i x hx
      simp only [Option.some.injEq, Prod.mk.injEq] at ha
      obtain ⟨rfl, rfl, -, rfl⟩ := ha
      have hm := Back_mem hx
      have h1 := List.length_erase_of_mem hm
      have h2 := List.length_pos_of_mem hm
      simp [PushFront, Remove, h1]
      omega

theorem window_add_ok {lru : windowLRU} (m : Mem) (i : storeItem) (hc : 1 ≤ lru.cap) :
    ∃ r, lru.add m i = some r := by
  unfold windowLRU.add
  split
  · exact ⟨_, rfl⟩
  · rename_i hlt
    have : 0 < lru.list.length := by omega
    obtain ⟨x, hx⟩ := Back_isSome this
    rw [hx]
    exact ⟨_, rfl⟩

theorem slru_add_sound {slru slru2 : segmentedLRU} {w : List Nat} {m m2 : Mem}
    {i : storeItem} (h : Sound w slru.stageOne slru.stageTwo m)
    (ha : slru.add m i = some (slru2, m2)) : Sound w slru2.stageOne slru2.stageTwo m2 := by
  unfold segmentedLRU.add at ha
  split at ha
  · simp only [Option.some.injEq, Prod.mk.injEq] at ha
    obtain ⟨rfl, rfl⟩ := ha
    exact sound_push_one { i with stage := 1 } h rfl
  · split at ha
    · simp at ha
    · rename_i e he
      simp only [Option.some.injEq, Prod.mk.injEq] at ha
      obtain ⟨rfl, rfl⟩ := ha
      have hm := Back_mem he
      have := sound_replace_one e { i with stage := 1 } h hm rfl
      refine sound_move ?_ (fun _ => Iff.rfl) (mem_MoveToFront _ e) (fun _ => Iff.rfl)
        h.nodupW (nodup_MoveToFront _ e h.nodup1) h.nodup2
      simpa [Mem.assign, Mem.delete, Mem.store, Mem.entry] using this

theorem slru_add_sized {slru slru2 : segmentedLRU} {m m2 : Mem} {i : storeItem}
    (h2 : (slru.stageTwo.length : Int) ≤ slru.stageTowCap)
    (hs : slru.Len ≤ slru.stageOneCap + slru.stageTowCap)
    (ha : slru.add m i = some (slru2, m2)) :
    slru2.stageOneCap = slru.stageOneCap ∧ slru2.stageTowCap = slru.stageTowCap ∧
      slru2.stageTwo = slru.stageTwo ∧ slru2.Len ≤ slru.stageOneCap + slru.stageTowCap ∧
      (slru.Len < slru.stageOneCap + slru.stageTowCap →
        slru2.stageOne.length = slru.stageOne.length + 1) := by
  unfold segmentedLRU.add at ha
  split at ha
  · rename_i hc
    simp only [Option.some.injEq, Prod.mk.injEq] at ha
    obtain ⟨rfl, rfl⟩ := ha
    refine ⟨rfl, rfl, rfl, ?_, fun _ => rfl⟩
    simp only [segmentedLRU.Len, PushFront, List.length_cons] at hc hs ⊢
    push_cast
    omega
  · rename_i hc
    split at ha
    · simp at ha
    · rename_i e he
      simp only [Option.some.injEq, Prod.mk.injEq] at ha
      obtain ⟨rfl, rfl⟩ := ha
      refine ⟨rfl, rfl, rfl, ?_, fun hlt => ?_⟩
      · simp only [segmentedLRU.Len, length_MoveToFront] at hs ⊢
        exact hs
      · simp only [segmentedLRU.Len] at hc hlt
        omega

theorem slru_add_ok {slru : segmentedLRU} (m : Mem) (i : storeItem)
    (hc : 1 ≤ slru.stageOneCap) : ∃ r, slru.add m i = some r := by
  unfold segmentedLRU.add
  split
  · exact ⟨_, rfl⟩
  · rename_i hlt
    have : 0 < slru.stageOne.length := by omega
    obtain ⟨x, hx⟩ := Back_isSome this
    rw [hx]
    exact ⟨_, rfl⟩

theorem slru_victim_ok {slru : segmentedLRU} (m : Mem) (hc : 1 ≤ slru.stageOneCap)
    (h2 : (slru.stageTwo.length : Int) ≤ slru.stageTowCap) : ∃ r, slru.victim m = some r := by
  unfold segmentedLRU.victim
  split
  · exact ⟨_, rfl⟩
  · rename_i hlt
    simp only [segmentedLRU.Len] at hlt
    have : 0 < slru.stageOne.length := by omega
    obtain ⟨x, hx⟩ := Back_isSome this
    rw [hx]
    exact ⟨_, rfl⟩
/-- The memory after the content swap of `segmentedLRU.get`, in closed form. -/
theorem swap_mem_eq (m : Mem) (v back : Nat) (hpp : m.Value back ≠ m.Value v) :
    let item := m.Value v
    let bitem := m.Value back
    let m1 := (m.assign bitem (m.item item)).assign item (m.item bitem)
    let m2 := m1.assign bitem { m1.item bitem with stage := STAGE_TWO }
    let m3 := m2.assign item { m2.item item with stage := STAGE_ONE }
    let m4 := m3.store (m3.item item).key v
    m4.store (m4.item bitem).key back =
      { data := upd (upd m.data (m.entry back).key (some v)) (m.entry v).key (some back)
        Value := m.Value
        elems := m.elems
        item := upd (upd m.item (m.Value back) { m.entry v with stage := STAGE_TWO })
          (m.Value v) { m.entry back with stage := STAGE_ONE }
        items := m.items } := by
  have hpp2 : m.Value v ≠ m.Value back := fun h => hpp h.symm
  simp only [Mem.assign, Mem.store, Mem.entry, upd_same, upd_ne _ _ hpp, upd_ne _ _ hpp2,
    Mem.mk.injEq, true_and, and_true]
  funext q
  by_cases h1 : q = m.Value v
  · subst h1; simp
  · by_cases h2 : q = m.Value back
    · subst h2; simp [upd_apply, hpp]
    · simp [upd_apply, h1, h2]

theorem slru_get_sound {slru slru2 : segmentedLRU} {w : List Nat} {m m2 : Mem}
    {v : Nat} (h : Sound w slru.stageOne slru.stageTwo m)
    (hv : v ∈ slru.stageOne ∨ v ∈ slru.stageTwo)
    (hg : slru.get m v = some (slru2, m2)) : Sound w slru2.stageOne slru2.stageTwo m2 := by
  simp only [segmentedLRU.get] at hg
  by_cases hst : (m.item (m.Value v)).stage = STAGE_TWO
  · rw [if_pos hst] at hg
    simp only [Option.some.injEq, Prod.mk.injEq] at hg
    obtain ⟨rfl, rfl⟩ := hg
    exact sound_move h (fun _ => Iff.rfl) (fun _ => Iff.rfl) (mem_MoveToFront _ v)
      h.nodupW h.nodup1 (nodup_MoveToFront _ v h.nodup2)
  · rw [if_neg hst] at hg
    have hv1 : v ∈ slru.stageOne := by
      rcases hv with hv | hv
      · exact hv
      · exact absurd (h.stage2 v hv) hst
    by_cases hlen : (slru.stageTwo.length : Int) < slru.stageTowCap
    · rw [if_pos hlen] at hg
      simp only [Option.some.injEq, Prod.mk.injEq] at hg
      obtain ⟨rfl, rfl⟩ := hg
      simpa [PushFront, Mem.assign, Mem.store, Mem.entry] using sound_promote v h hv1
    · rw [if_neg hlen] at hg
      split at hg
      · simp at hg
      · rename_i back hb
        simp only [Option.some.injEq, Prod.mk.injEq] at hg
        obtain ⟨rfl, rfl⟩ := hg
        have hbm := Back_mem hb
        have hpp : m.Value back ≠ m.Value v := fun hh =>
          h.ne_of_mem.2.2 hv1 hbm (h.inj back v (Or.inr (Or.inr hbm)) (Or.inr (Or.inl hv1)) hh).symm
        have hm := swap_mem_eq m v back hpp
        simp only at hm
        rw [hm]
        exact sound_move (sound_swap v back h hv1 hbm) (fun _ => Iff.rfl)
          (mem_MoveToFront _ v) (mem_MoveToFront _ back)
          h.nodupW (nodup_MoveToFront _ v h.nodup1) (nodup_MoveToFront _ back h.nodup2)
theorem slru_get_sized {slru slru2 : segmentedLRU} {w : List Nat} {m m2 : Mem}
    {v : Nat} (h : Sound w slru.stageOne slru.stageTwo m)
    (hv : v ∈ slru.stageOne ∨ v ∈ slru.stageTwo)
    (h2 : (slru.stageTwo.length : Int) ≤ slru.stageTowCap)
    (hg : slru.get m v = some (slru2, m2)) :
    slru2.stageOneCap = slru.stageOneCap ∧ slru2.stageTowCap = slru.stageTowCap ∧
      (slru2.stageTwo.length : Int) ≤ slru.stageTowCap ∧ slru2.Len = slru.Len := by
  simp only [segmentedLRU.get] at hg
  by_cases hst : (m.item (m.Value v)).stage = STAGE_TWO
  · rw [if_pos hst] at hg
    simp only [Option.some.injEq, Prod.mk.injEq] at hg
    obtain ⟨rfl, rfl⟩ := hg
    refine ⟨rfl, rfl, ?_, ?_⟩
    · simpa [length_MoveToFront] using h2
    · simp [segmentedLRU.Len, length_MoveToFront]
  · rw [if_neg hst] at hg
    have hv1 : v ∈ slru.stageOne := by
      rcases hv with hv | hv
      · exact hv
      · exact absurd (h.stage2 v hv) hst
    by_cases hlen : (slru.stageTwo.length : Int) < slru.stageTowCap
    · rw [if_pos hlen] at hg
      simp only [Option.some.injEq, Prod.mk.injEq] at hg
      obtain ⟨rfl, rfl⟩ := hg
      have e1 := List.length_erase_of_mem hv1
      have e2 := List.length_pos_of_mem hv1
      refine ⟨rfl, rfl, ?_, ?_⟩
      · simp only [PushFront, List.length_cons]; push_cast; omega
      · simp only [segmentedLRU.Len, PushFront, Remove, List.length_cons, e1]
        push_cast
        omega
    · rw [if_neg hlen] at hg
      split at hg
      · simp at hg
      · simp only [Option.some.injEq, Prod.mk.injEq] at hg
        obtain ⟨rfl, rfl⟩ := hg
        refine ⟨rfl, rfl, ?_, ?_⟩
        · simpa [length_MoveToFront] using h2
        · simp [segmentedLRU.Len, length_MoveToFront]

theorem slru_get_ok {slru : segmentedLRU} (m : Mem) (v : Nat)
    (hc : 1 ≤ slru.stageTowCap) : ∃ r, slru.get m v = some r := by
  simp only [segmentedLRU.get]
  split
  · exact ⟨_, rfl⟩
  · split
    · exact ⟨_, rfl⟩
    · rename_i hlt
      have : 0 < slru.stageTwo.length := by omega
      obtain ⟨x, hx⟩ := Back_isSome this
      rw [hx]
      exact ⟨_, rfl⟩

theorem window_get_sound {lru : windowLRU} {s1 s2 : List Nat} {m : Mem} (v : Nat)
    (h : Sound lru.list s1 s2 m) : Sound (lru.get v).list s1 s2 m :=
  sound_move h (mem_MoveToFront _ v) (fun _ => Iff.rfl) (fun _ => Iff.rfl)
    (nodup_MoveToFront _ v h.nodupW) h.nodup1 h.nodup2
/-- What a completed `set` did to the lists and the memory: the window `add`,
then either nothing more or the `add` of the segmented LRU on the evicted entry. -/
theorem Cache.set_shape {X : Env} {c c2 : Cache} {key : Key} {value : Value} {b : Bool}
    (hs : Cache.set X c key value = .ok (c2, b)) :
    ∃ kh ch lru mem eitem ev, keyToHash X key = some (kh, ch) ∧
      c.lru.add c.mem { stage := 0, key := kh, conflict := ch, value := value }
        = some (lru, mem, eitem, ev) ∧
      c2.lru = lru ∧ c2.t = c.t ∧ c2.threshold = c.threshold ∧
      ((c2.slru = c.slru ∧ c2.mem = mem) ∨
        (ev = true ∧ c.slru.add mem eitem = some (c2.slru, c2.mem))) := by
  simp only [Cache.set] at hs
  cases hk : keyToHash X key with
  | none => simp [hk] at hs
  | some kh =>
    obtain ⟨keyHash, conflictHash⟩ := kh
    simp only [hk] at hs
    cases ha : c.lru.add c.mem
      { stage := 0, key := keyHash, conflict := conflictHash, value := value } with
    | none => simp [ha] at hs
    | some r =>
      obtain ⟨lru, mem, eitem, evicted⟩ := r
      simp only [ha] at hs
      refine ⟨keyHash, conflictHash, lru, mem, eitem, evicted, rfl, ha, ?_⟩
      cases evicted with
      | false =>
        simp only [Bool.not_false, if_true, Except.ok.injEq, Prod.mk.injEq] at hs
        obtain ⟨rfl, -⟩ := hs
        exact ⟨rfl, rfl, rfl, Or.inl ⟨rfl, rfl⟩⟩
      | true =>
        simp only [Bool.not_true, Bool.false_eq_true, if_false] at hs
        cases hv : c.slru.victim mem with
        | none => simp [hv] at hs
        | some vic =>
          simp only [hv] at hs
          cases vic with
          | none =>
            simp only at hs
            cases hadd : c.slru.add mem eitem with
            | none => simp [hadd] at hs
            | some r2 =>
              obtain ⟨slru, mem2⟩ := r2
              simp only [hadd, Except.ok.injEq, Prod.mk.injEq] at hs
              obtain ⟨rfl, -⟩ := hs
              exact ⟨rfl, rfl, rfl, Or.inr ⟨rfl, rfl⟩⟩
          | some victim =>
            simp only at hs
            split at hs
            · simp only [Except.ok.injEq, Prod.mk.injEq] at hs
              obtain ⟨rfl, -⟩ := hs
              exact ⟨rfl, rfl, rfl, Or.inl ⟨rfl, rfl⟩⟩
            · split at hs
              · simp only [Except.ok.injEq, Prod.mk.injEq] at hs
                obtain ⟨rfl, -⟩ := hs
                exact ⟨rfl, rfl, rfl, Or.inl ⟨rfl, rfl⟩⟩
              · cases hadd : c.slru.add mem eitem with
                | none => simp [hadd] at hs
                | some r2 =>
                  obtain ⟨slru, mem2⟩ := r2
                  simp only [hadd, Except.ok.injEq, Prod.mk.injEq] at hs
                  obtain ⟨rfl, -⟩ := hs
                  exact ⟨rfl, rfl, rfl, Or.inr ⟨rfl, rfl⟩⟩

theorem Cache.tick_frame (c : Cache) :
    c.tick.lru = c.lru ∧ c.tick.slru = c.slru ∧ c.tick.mem = c.mem ∧
      c.tick.threshold = c.threshold := by
  simp only [Cache.tick]
  split <;> exact ⟨rfl, rfl, rfl, rfl⟩

/-- What a completed `get` did to the lists and the memory. -/
theorem Cache.get_shape {X : Env} {c c2 : Cache} {key : Key} {v : Value} {b : Bool}
    (hg : Cache.get X c key = .ok (c2, v, b)) :
    ∃ kh ch, keyToHash X key = some (kh, ch) ∧ c2.threshold = c.threshold ∧
      ((b = false ∧ v = none ∧ c2.lru = c.lru ∧ c2.slru = c.slru ∧ c2.mem = c.mem ∧
          (c.mem.data kh = none ∨
            ∃ val, c.mem.data kh = some val ∧ (c.mem.entry val).conflict ≠ ch)) ∨
        (∃ val, c.mem.data kh = some val ∧ (c.mem.entry val).conflict = ch ∧ b = true ∧
          v = (c.mem.entry val).value ∧
          (((c.mem.entry val).stage = 0 ∧ c2.lru = c.lru.get val ∧ c2.slru = c.slru ∧
              c2.mem = c.mem) ∨
            ((c.mem.entry val).stage ≠ 0 ∧ c2.lru = c.lru ∧
              c.slru.get c.mem val = some (c2.slru, c2.mem))))) := by
  simp only [Cache.get, Cache.miss] at hg
  obtain ⟨f1, f2, f3, f4⟩ := c.tick_frame
  cases hk : keyToHash X key with
  | none => simp [hk] at hg
  | some kh =>
    obtain ⟨keyHash, confictHash⟩ := kh
    simp only [hk, f3] at hg
    refine ⟨keyHash, confictHash, rfl, ?_⟩
    cases hd : c.mem.data keyHash with
    | none =>
      simp only [hd, Except.ok.injEq, Prod.mk.injEq] at hg
      obtain ⟨rfl, rfl, rfl⟩ := hg
      exact ⟨f4, Or.inl ⟨rfl, rfl, f1, f2, rfl, Or.inl rfl⟩⟩
    | some val =>
      simp only [hd] at hg
      by_cases hc : (c.mem.item (c.mem.Value val)).conflict = confictHash
      · simp only [hc, ne_eq, not_true_eq_false, if_false, f2] at hg
        by_cases hst : (c.mem.item (c.mem.Value val)).stage = 0
        · simp only [hst, if_true, Except.ok.injEq, Prod.mk.injEq] at hg
          obtain ⟨rfl, rfl, rfl⟩ := hg
          refine ⟨f4, Or.inr ⟨val, rfl, hc, rfl, rfl, Or.inl ⟨hst, ?_, rfl, rfl⟩⟩⟩
          simp [f1]
        · simp only [hst, if_false] at hg
          cases hgg : c.slru.get c.mem val with
          | none => simp [hgg] at hg
          | some r =>
            obtain ⟨slru, mem⟩ := r
            simp only [hgg, Except.ok.injEq, Prod.mk.injEq] at hg
            obtain ⟨rfl, rfl, rfl⟩ := hg
            exact ⟨f4, Or.inr ⟨val, rfl, hc, rfl, rfl, Or.inr ⟨hst, f1, hgg⟩⟩⟩
      · simp only [ne_eq, hc, not_false_eq_true, if_true, Except.ok.injEq, Prod.mk.injEq] at hg
        obtain ⟨rfl, rfl, rfl⟩ := hg
        exact ⟨f4, Or.inl ⟨rfl, rfl, f1, f2, rfl, Or.inr ⟨val, rfl, hc⟩⟩⟩

/-- What a completed `del` did to the lists and the memory. -/
theorem Cache.del_shape {X : Env} {c c2 : Cache} {key : Key} {r : Nat} {b : Bool}
    (hd : Cache.del X c key = .ok (c2, r, b)) :
    ∃ kh ch, keyToHash X key = some (kh, ch) ∧ c2.lru = c.lru ∧ c2.slru = c.slru ∧
      c2.threshold = c.threshold ∧
      ((b = false ∧ c2 = c) ∨
        (b = true ∧ (∃ val, c.mem.data kh = some val) ∧ c2.mem = c.mem.delete kh)) := by
  simp only [Cache.del] at hd
  cases hk : keyToHash X key with
  | none => simp [hk] at hd
  | some kh =>
    obtain ⟨keyHash, conflictHash⟩ := kh
    simp only [hk] at hd
    refine ⟨keyHash, conflictHash, rfl, ?_⟩
    cases hdd : c.mem.data keyHash with
    | none =>
      simp only [hdd, Except.ok.injEq, Prod.mk.injEq] at hd
      obtain ⟨rfl, rfl, rfl⟩ := hd
      exact ⟨rfl, rfl, rfl, Or.inl ⟨rfl, rfl⟩⟩
    | some val =>
      simp only [hdd] at hd
      split at hd
      · simp only [Except.ok.injEq, Prod.mk.injEq] at hd
        obtain ⟨rfl, rfl, rfl⟩ := hd
        exact ⟨rfl, rfl, rfl, Or.inl ⟨rfl, rfl⟩⟩
      · simp only [Except.ok.injEq, Prod.mk.injEq] at hd
        obtain ⟨rfl, rfl, rfl⟩ := hd
        exact ⟨rfl, rfl, rfl, Or.inr ⟨rfl, ⟨val, rfl⟩, rfl⟩⟩
/-- Go's truncated division followed by the clamp `if x < 1 { x = 1 }` is the
floor division followed by `max 1`. -/
theorem clamp_tdiv (a k : Int) (hk : 0 < k) :
    (if a.tdiv k < 1 then 1 else a.tdiv k) = max 1 (a / k) := by
  by_cases ha : 0 ≤ a
  · rw [Int.tdiv_eq_ediv ha (le_of_lt hk)]
    split <;> omega
  · have h1 : a.tdiv k ≤ 0 := by
      have h2 : a = -(-a) := by omega
      rw [h2, Int.neg_tdiv]
      have := Int.tdiv_nonneg (show 0 ≤ -a by omega) (le_of_lt hk)
      omega
    have h3 : a / k < 0 := Int.ediv_neg' (by omega) hk
    rw [if_pos (by omega)]
    omega

/-! ## The `float64` products -/

/-- The constants of `NewCache` are the `float64` numbers nearest to 0.99 and 0.2:
each has a 53-bit significand and lies within half a unit in the last place of the
decimal constant. -/
theorem float64_constants :
    (2 ^ 52 ≤ 2 * 4458563631096791 ∧ 2 * 4458563631096791 < 2 ^ 53 ∧
      2 * (99 * 2 ^ 53 - 100 * (2 * 4458563631096791)) ≤ 100 ∧
      100 * (2 * 4458563631096791) ≤ 99 * 2 ^ 53) ∧
    (2 ^ 52 ≤ 2 * 3602879701896397 ∧ 2 * 3602879701896397 < 2 ^ 53 ∧
      2 * (10 * (2 * 3602879701896397) - 2 * 2 ^ 55) ≤ 10 ∧
      2 * 2 ^ 55 ≤ 10 * (2 * 3602879701896397)) := by
  decide

theorem shiftOf_spec : ∀ fuel N : Nat, N ≤ fuel →
    N / 2 ^ shiftOf fuel N < 2 ^ 53 ∧ (0 < shiftOf fuel N → 2 ^ 52 ≤ N / 2 ^ shiftOf fuel N)
  | 0, N, h => by
      have : N = 0 := by omega
      subst this
      simp [shiftOf]
  | fuel + 1, N, h => by
      by_cases hN : N < 2 ^ 53
      · simp only [shiftOf, if_pos hN, pow_zero, Nat.div_one, lt_self_iff_false, false_implies,
          and_true]
        exact hN
      · simp only [shiftOf, if_neg hN]
        have h2 : N / 2 ≤ fuel := by
          norm_num at hN
          omega
        obtain ⟨a, b⟩ := shiftOf_spec fuel (N / 2) h2
        have e : N / 2 ^ (shiftOf fuel (N / 2) + 1) = N / 2 / 2 ^ shiftOf fuel (N / 2) := by
          rw [pow_succ, Nat.mul_comm, Nat.div_div_eq_div_mul]
        rw [e]
        refine ⟨a, fun _ => ?_⟩
        by_cases hs : 0 < shiftOf fuel (N / 2)
        · exact b hs
        · have hs0 : shiftOf fuel (N / 2) = 0 := by omega
          rw [hs0]
          norm_num at hN ⊢
          omega

/-- What `roundBits` returns: with `2 ^ s` the unit in the last place, the result is
a multiple of the unit at most half a unit from `N`, and `N` has exactly 53
significant bits above the unit (or fewer, when the unit is 1). -/
theorem roundBits_spec (N : Nat) :
    ∃ s : Nat, (2 ^ s = 1 ∨ 2 ^ 52 * 2 ^ s ≤ N) ∧ N < 2 ^ 53 * 2 ^ s ∧ 2 ^ s ∣ roundBits N ∧
      2 * roundBits N ≤ 2 * N + 2 ^ s ∧ 2 * N ≤ 2 * roundBits N + 2 ^ s := by
  obtain ⟨a, b⟩ := shiftOf_spec N N le_rfl
  refine ⟨shiftOf N N, ?_, ?_, ?_, ?_, ?_⟩
  all_goals try simp only [roundBits]
  all_goals generalize shiftOf N N = s at a b
  all_goals have hP : 0 < 2 ^ s := Nat.two_pow_pos s
  all_goals have hdm := Nat.div_add_mod N (2 ^ s)
  all_goals have hr := Nat.mod_lt N hP
  all_goals generalize hq : N / 2 ^ s = q at *
  all_goals generalize hrr : N % 2 ^ s = r at *
  · by_cases hs : 0 < s
    · right
      have := Nat.mul_le_mul_right (2 ^ s) (b hs)
      have e : 2 ^ s * q = q * 2 ^ s := Nat.mul_comm _ _
      omega
    · left
      have : s = 0 := by omega
      rw [this]; rfl
  · have := Nat.mul_le_mul_right (2 ^ s) (show q + 1 ≤ 2 ^ 53 by omega)
    have e : 2 ^ s * q = q * 2 ^ s := Nat.mul_comm _ _
    rw [Nat.add_mul] at this
    omega
  · split
    · exact Dvd.intro_left _ rfl
    · exact Dvd.intro_left _ rfl
  · have e : 2 ^ s * q = q * 2 ^ s := Nat.mul_comm _ _
    split
    · rw [Nat.add_mul]; omega
    · omega
  · have e : 2 ^ s * q = q * 2 ^ s := Nat.mul_comm _ _
    split
    · rw [Nat.add_mul]; omega
    · omega

/-- Integers below `2 ^ 53` are `float64` numbers. -/
theorem roundBits_small {N : Nat} (h : N < 2 ^ 53) : roundBits N = N := by
  obtain ⟨s, h1, h2, -, h4, h5⟩ := roundBits_spec N
  have hP : 2 ^ s = 1 := by
    rcases h1 with h1 | h1
    · exact h1
    · have := Nat.two_pow_pos s
      norm_num at h h1
      omega
  rw [hP] at h4 h5
  omega

/-- Rounding moves a number by at most its `2 ^ 52`-th part. -/
theorem roundBits_near (N : Nat) :
    roundBits N ≤ N + N / 2 ^ 52 ∧ N ≤ roundBits N + N / 2 ^ 52 := by
  obtain ⟨s, h1, -, -, h4, h5⟩ := roundBits_spec N
  rcases h1 with h1 | h1
  · rw [h1] at h4 h5
    omega
  · have : 2 ^ s ≤ N / 2 ^ 52 := by
      rw [Nat.le_div_iff_mul_le (by norm_num)]
      rw [Nat.mul_comm]; exact h1
    omega

/-- Two multiples of `P` less than `P` apart are in order. -/
theorem le_of_dvd_of_lt_add {P a b : Nat} (ha : P ∣ a) (hb : P ∣ b) (h : a < b + P) : a ≤ b := by
  obtain ⟨x, rfl⟩ := ha
  obtain ⟨y, rfl⟩ := hb
  have hP : 0 < P := by
    rcases Nat.eq_zero_or_pos P with h0 | h0
    · subst h0; simp at h
    · exact h0
  have : P * x < P * (y + 1) := by rw [Nat.mul_add, Nat.mul_one]; exact h
  have := Nat.lt_of_mul_lt_mul_left this
  exact Nat.mul_le_mul_left P (by omega)

/-- The integer part of a rounded quotient: when `N` lies between `k * 2 ^ e` and
`(k + 1) * 2 ^ e`, at more than half a unit in the last place from the far side of
either, the rounded `N` has the integer part `k`. -/
theorem roundBits_div {N k e : Nat} (hN : N < 2 ^ 99) (he : 46 ≤ e)
    (h : ∀ P : Nat, 0 < P → P ≤ 2 ^ 46 → N < 2 ^ 53 * P →
      2 * (k * 2 ^ e) < 2 * N + P ∧ 2 * N + P < 2 * ((k + 1) * 2 ^ e)) :
    roundBits N / 2 ^ e = k := by
  obtain ⟨s, h1, h2, h3, h4, h5⟩ := roundBits_spec N
  have hP := Nat.two_pow_pos s
  have hP2 : 2 ^ s < 2 ^ 47 := by
    norm_num at hN h1 ⊢
    omega
  have hs : s < 47 := (Nat.pow_lt_pow_iff_right (by norm_num)).1 hP2
  have hP3 : 2 ^ s ≤ 2 ^ 46 := Nat.pow_le_pow_right (by norm_num) (by omega)
  obtain ⟨a, b⟩ := h (2 ^ s) hP hP3 h2
  have hd : 2 ^ s ∣ k * 2 ^ e := Dvd.dvd.mul_left (pow_dvd_pow 2 (by omega)) k
  have hle : k * 2 ^ e ≤ roundBits N := le_of_dvd_of_lt_add hd h3 (by omega)
  exact Nat.div_eq_of_lt_le hle (by show roundBits N < (k + 1) * 2 ^ e; omega)

/-- A rounded number stays below an integer that is above the exact number. -/
theorem roundBits_div_le {N K e : Nat} (hN : N < 2 ^ 105) (he : 52 ≤ e)
    (h : N ≤ K * 2 ^ e) : roundBits N / 2 ^ e ≤ K := by
  obtain ⟨s, h1, h2, h3, h4, h5⟩ := roundBits_spec N
  have hP := Nat.two_pow_pos s
  have hP2 : 2 ^ s < 2 ^ 53 := by
    norm_num at hN h1 ⊢
    omega
  have hs : s < 53 := (Nat.pow_lt_pow_iff_right (by norm_num)).1 hP2
  have hd : 2 ^ s ∣ K * 2 ^ e := Dvd.dvd.mul_left (pow_dvd_pow 2 (by omega)) K
  have hle : roundBits N ≤ K * 2 ^ e := le_of_dvd_of_lt_add h3 hd (by omega)
  exact Nat.div_le_of_le_mul (by rw [Nat.mul_comm]; exact hle)

/-- Below `2 ^ 47` the product with the `float64` constant 0.99 has the integer part
of the exact product. -/
theorem mul99_exact {n : Nat} (hn : n < 2 ^ 47) :
    roundBits (n * 4458563631096791) / 2 ^ 52 = 99 * n / 100 := by
  apply roundBits_div
  · norm_num at hn ⊢; omega
  · norm_num
  · intro P h0 h1 h2
    norm_num at hn h1 h2 ⊢
    omega

/-- Below `2 ^ 47` the product with the `float64` constant 0.2 has the integer part
of the exact product. -/
theorem mul02_exact {n : Nat} (hn : n < 2 ^ 47) :
    roundBits (n * 3602879701896397) / 2 ^ 54 = n / 5 := by
  apply roundBits_div
  · norm_num at hn ⊢; omega
  · norm_num
  · intro P h0 h1 h2
    norm_num at hn h1 h2 ⊢
    omega

/-- Below `2 ^ 53` the product with the `float64` constant 0.99 has an integer part
of at most the exact product rounded up. -/
theorem mul99_le {n : Nat} (hn : n < 2 ^ 53) :
    roundBits (n * 4458563631096791) / 2 ^ 52 ≤ n - n / 100 := by
  apply roundBits_div_le
  · norm_num at hn ⊢; omega
  · norm_num
  · norm_num
    omega

theorem toFloat64_of_nonneg {n : Int} (h : 0 ≤ n) :
    toFloat64 n = ((roundBits n.toNat : Nat) : Int) := by
  rw [toFloat64, if_neg (by omega)]

theorem toFloat64_small {n : Int} (h : 0 ≤ n) (h2 : n < 2 ^ 53) : toFloat64 n = n := by
  rw [toFloat64_of_nonneg h, roundBits_small (by norm_num at h2 ⊢; omega)]
  omega

theorem toFloat64_nonpos {n : Int} (h : n ≤ 0) : toFloat64 n ≤ 0 := by
  rw [toFloat64]
  split
  · omega
  · have : n = 0 := by omega
    subst this
    decide

theorem mulToInt_of_nonneg {f : Int} (h : 0 ≤ f) (m e : Nat) :
    mulToInt f m e = ((roundBits (f.toNat * m) / 2 ^ e : Nat) : Int) := by
  rw [mulToInt, if_neg (by omega)]

theorem mulToInt_nonpos {f : Int} (h : f ≤ 0) (m e : Nat) : mulToInt f m e ≤ 0 := by
  rw [mulToInt]
  split
  · exact Int.neg_nonpos_of_nonneg (Int.ofNat_nonneg _)
  · have : f = 0 := by omega
    subst this
    have : roundBits 0 = 0 := by decide
    simp [this]

/-- The main capacity before the clamp, `int(float64(n) * 0.99)`, is at least 2
from size 3 on. -/
theorem main_ge_two {n : Int} (h : 3 ≤ n) :
    2 ≤ mulToInt (toFloat64 n) 4458563631096791 52 := by
  have h1 := roundBits_near n.toNat
  have hf := toFloat64_of_nonneg (show 0 ≤ n by omega)
  rw [mulToInt_of_nonneg (by rw [hf]; omega), hf]
  have h2 := roundBits_near ((((roundBits n.toNat : Nat) : Int)).toNat * 4458563631096791)
  rw [Int.toNat_ofNat] at h2 ⊢
  have : 2 ≤ roundBits (roundBits n.toNat * 4458563631096791) / 2 ^ 52 := by
    rw [Nat.le_div_iff_mul_le (by norm_num)]
    norm_num at h1 h2 ⊢
    omega
  exact_mod_cast this

/-- The main capacity before the clamp is at most 1 up to size 2. -/
theorem main_le_one {n : Int} (h : n ≤ 2) :
    mulToInt (toFloat64 n) 4458563631096791 52 ≤ 1 := by
  by_cases h0 : n ≤ 0
  · have := mulToInt_nonpos (toFloat64_nonpos h0) 4458563631096791 52
    omega
  · have : n = 1 ∨ n = 2 := by omega
    rcases this with rfl | rfl <;> decide

/-- The probation capacity before the clamp, `int(0.2 * float64(s))`, is below the
main capacity `s`. -/
theorem probation_lt {s : Int} (h : 2 ≤ s) :
    mulToInt (toFloat64 s) 3602879701896397 54 ≤ s - 1 := by
  have h1 := roundBits_near s.toNat
  have hf := toFloat64_of_nonneg (show 0 ≤ s by omega)
  rw [mulToInt_of_nonneg (by rw [hf]; omega), hf]
  have h2 := roundBits_near ((((roundBits s.toNat : Nat) : Int)).toNat * 3602879701896397)
  rw [Int.toNat_ofNat] at h2 ⊢
  have : roundBits (roundBits s.toNat * 3602879701896397) / 2 ^ 54 < s.toNat := by
    rw [Nat.div_lt_iff_lt_mul (by norm_num)]
    norm_num at h1 h2 ⊢
    omega
  omega

/-- The capacities as `NewCache` computes them. -/
theorem NewCache_caps_def (X : Env) (size : Int) :
    (NewCache X size).lru.cap = max 1 (size / 100) ∧
      (NewCache X size).slru.stageOneCap
        = max 1 (mulToInt (toFloat64 (max 1 (mulToInt (toFloat64 size) 4458563631096791 52)))
            3602879701896397 54) ∧
      (NewCache X size).slru.stageTowCap
        = max 1 (mulToInt (toFloat64 size) 4458563631096791 52)
          - max 1 (mulToInt (toFloat64 (max 1 (mulToInt (toFloat64 size) 4458563631096791 52)))
              3602879701896397 54) := by
  have e1 := clamp_tdiv (1 * size) 100 (by norm_num)
  simp only [one_mul] at e1
  have e2 : ∀ x : Int, (if x < 1 then 1 else x) = max 1 x := by
    intro x; split <;> omega
  simp only [NewCache, newWindowLRU, newSLRU, one_mul, e1, e2]
  refine ⟨?_, ?_, ?_⟩ <;> trivial

/-- Bounds on the capacities of `NewCache` that hold for every size. -/
theorem NewCache_caps_bound (X : Env) (size : Int) :
    1 ≤ (NewCache X size).lru.cap ∧ 1 ≤ (NewCache X size).slru.stageOneCap ∧
      0 ≤ (NewCache X size).slru.stageTowCap ∧
      (1 ≤ (NewCache X size).slru.stageTowCap ↔ 3 ≤ size) := by
  obtain ⟨c1, c2, c3⟩ := NewCache_caps_def X size
  rw [c1, c2, c3]
  generalize hm : mulToInt (toFloat64 size) 4458563631096791 52 = main
  by_cases h3 : 3 ≤ size
  · have a := main_ge_two h3
    rw [hm] at a
    have b := probation_lt (show 2 ≤ max 1 main by omega)
    refine ⟨by omega, by omega, by omega, ?_⟩
    constructor
    · intro; exact h3
    · intro; omega
  · have a := main_le_one (show size ≤ 2 by omega)
    rw [hm] at a
    have e : max 1 main = 1 := by omega
    rw [e]
    have b : mulToInt (toFloat64 1) 3602879701896397 54 = 0 := by decide
    rw [b]
    refine ⟨by omega, by omega, by omega, ?_⟩
    constructor
    · intro h; omega
    · intro h; omega

/-- Below `2 ^ 47` the capacities `NewCache` computes are those of the exact
products. -/
theorem NewCache_caps (X : Env) (size : Int) (h : size < 2 ^ 47) :
    (NewCache X size).lru.cap = max 1 (size / 100) ∧
      (NewCache X size).slru.stageOneCap = max 1 (max 1 (99 * size / 100) / 5) ∧
      (NewCache X size).slru.stageTowCap =
        max 1 (99 * size / 100) - max 1 (max 1 (99 * size / 100) / 5) := by
  obtain ⟨c1, c2, c3⟩ := NewCache_caps_def X size
  have em : max 1 (mulToInt (toFloat64 size) 4458563631096791 52) = max 1 (99 * size / 100) := by
    by_cases h0 : 0 ≤ size
    · rw [toFloat64_small h0 (by norm_num at h ⊢; omega), mulToInt_of_nonneg h0,
        mul99_exact (by norm_num at h ⊢; omega)]
      have : ((99 * size.toNat / 100 : Nat) : Int) = 99 * size / 100 := by omega
      rw [this]
    · have := mulToInt_nonpos (toFloat64_nonpos (show size ≤ 0 by omega)) 4458563631096791 52
      omega
  have hs : max 1 (99 * size / 100) < 2 ^ 47 := by norm_num at h ⊢; omega
  generalize max 1 (99 * size / 100) = s at em hs
  have hs0 : 1 ≤ s := by
    rw [← em]; omega
  have ep : mulToInt (toFloat64 s) 3602879701896397 54 = s / 5 := by
    rw [toFloat64_small (by omega) (by norm_num at hs ⊢; omega), mulToInt_of_nonneg (by omega),
      mul02_exact (by norm_num at hs ⊢; omega)]
    omega
  rw [c1, c2, c3, em, ep]
  exact ⟨rfl, rfl, rfl⟩
/-! ## The invariant along runs -/

theorem Cache.set_wf {X : Env} {c c2 : Cache} {key : Key} {value : Value} {b : Bool}
    (h : c.WF) (hs : Cache.set X c key value = .ok (c2, b)) :
    c2.WF ∧ c2.lru.cap = c.lru.cap ∧ c2.slru.stageOneCap = c.slru.stageOneCap ∧
      c2.slru.stageTowCap = c.slru.stageTowCap := by
  obtain ⟨hS, hZ⟩ := h
  obtain ⟨kh, ch, lru, mem, eitem, ev, -, ha, hl, -, -, hcase⟩ := Cache.set_shape hs
  have hS1 := window_add_sound hS rfl ha
  obtain ⟨z1, z2, -, -⟩ := window_add_sized hZ.capW hZ.lenW ha
  rcases hcase with ⟨e1, e2⟩ | ⟨-, hadd⟩
  · refine ⟨⟨?_, ?_⟩, ?_, ?_, ?_⟩
    · rw [hl, e1, e2]; exact hS1
    · rw [e1, hl]
      exact ⟨by rw [z1]; exact hZ.capW, hZ.cap1, by rw [z1]; exact z2, hZ.len2, hZ.lenS⟩
    · rw [hl, z1]
    · rw [e1]
    · rw [e1]
  · have hS2 := slru_add_sound hS1 hadd
    obtain ⟨y1, y2, y3, y4, -⟩ := slru_add_sized hZ.len2 hZ.lenS hadd
    refine ⟨⟨?_, ?_⟩, ?_, y1, y2⟩
    · rw [hl]; exact hS2
    · rw [hl]
      exact ⟨by rw [z1]; exact hZ.capW, by rw [y1]; exact hZ.cap1, by rw [z1]; exact z2,
        by rw [y2, y3]; exact hZ.len2, by rw [y1, y2]; exact y4⟩
    · rw [hl, z1]

theorem Cache.get_wf {X : Env} {c c2 : Cache} {key : Key} {v : Value} {b : Bool}
    (h : c.WF) (hg : Cache.get X c key = .ok (c2, v, b)) :
    c2.WF ∧ c2.lru.cap = c.lru.cap ∧ c2.slru.stageOneCap = c.slru.stageOneCap ∧
      c2.slru.stageTowCap = c.slru.stageTowCap := by
  obtain ⟨hS, hZ⟩ := h
  obtain ⟨kh, ch, -, -, hcase⟩ := Cache.get_shape hg
  rcases hcase with ⟨-, -, e1, e2, e3, -⟩ | ⟨val, hd, -, -, -, hcase⟩
  · refine ⟨⟨?_, ?_⟩, ?_, ?_, ?_⟩
    · rw [e1, e2, e3]; exact hS
    · rw [e1, e2]; exact hZ
    · rw [e1]
    · rw [e2]
    · rw [e2]
  · obtain ⟨hlink, -⟩ := hS.index kh val hd
    rcases hcase with ⟨-, e1, e2, e3⟩ | ⟨hst, e1, hgg⟩
    · refine ⟨⟨?_, ?_⟩, ?_, ?_, ?_⟩
      · rw [e1, e2, e3]; exact window_get_sound val hS
      · rw [e1, e2]
        exact ⟨hZ.capW, hZ.cap1, by simpa [windowLRU.get, length_MoveToFront] using hZ.lenW,
          hZ.len2, hZ.lenS⟩
      · rw [e1]; rfl
      · rw [e2]
      · rw [e2]
    · have hv : val ∈ c.slru.stageOne ∨ val ∈ c.slru.stageTwo := by
        rcases hlink with hw | hw
        · exact absurd (hS.stage0 val hw) hst
        · exact hw
      have hS2 := slru_get_sound hS hv hgg
      obtain ⟨y1, y2, y3, y4⟩ := slru_get_sized hS hv hZ.len2 hgg
      refine ⟨⟨?_, ?_⟩, ?_, y1, y2⟩
      · rw [e1]; exact hS2
      · rw [e1]
        exact ⟨hZ.capW, by rw [y1]; exact hZ.cap1, hZ.lenW, by rw [y2]; exact y3,
          by rw [y1, y2, y4]; exact hZ.lenS⟩
      · rw [e1]

theorem Cache.del_wf {X : Env} {c c2 : Cache} {key : Key} {r : Nat} {b : Bool}
    (h : c.WF) (hd : Cache.del X c key = .ok (c2, r, b)) :
    c2.WF ∧ c2.lru.cap = c.lru.cap ∧ c2.slru.stageOneCap = c.slru.stageOneCap ∧
      c2.slru.stageTowCap = c.slru.stageTowCap := by
  obtain ⟨hS, hZ⟩ := h
  obtain ⟨kh, ch, -, e1, e2, -, hcase⟩ := Cache.del_shape hd
  refine ⟨⟨?_, ?_⟩, ?_, ?_, ?_⟩
  · rcases hcase with ⟨-, rfl⟩ | ⟨-, -, e3⟩
    · exact hS
    · rw [e1, e2, e3]; exact sound_delete kh hS
  · rw [e1, e2]; exact hZ
  · rw [e1]
  · rw [e2]
  · rw [e2]

theorem step_wf {X : Env} {c c2 : Cache} {op : Op} (h : c.WF) (hs : step X c op = .ok c2) :
    c2.WF ∧ c2.lru.cap = c.lru.cap ∧ c2.slru.stageOneCap = c.slru.stageOneCap ∧
      c2.slru.stageTowCap = c.slru.stageTowCap := by
  cases op with
  | Set key value =>
    simp only [step] at hs
    cases hr : Cache.set X c key value with
    | error e => simp [hr, Except.map] at hs
    | ok r =>
      simp only [hr, Except.map, Except.ok.injEq] at hs
      subst hs
      exact Cache.set_wf h hr
  | Get key =>
    simp only [step] at hs
    cases hr : Cache.get X c key with
    | error e => simp [hr, Except.map] at hs
    | ok r =>
      simp only [hr, Except.map, Except.ok.injEq] at hs
      subst hs
      exact Cache.get_wf h hr
  | Del key =>
    simp only [step] at hs
    cases hr : Cache.del X c key with
    | error e => simp [hr, Except.map] at hs
    | ok r =>
      simp only [hr, Except.map, Except.ok.injEq] at hs
      subst hs
      exact Cache.del_wf h hr

theorem run_cons_ok {X : Env} {c c2 : Cache} {op : Op} {ops : List Op}
    (h : run X c (op :: ops) = .ok c2) : ∃ c1, step X c op = .ok c1 ∧ run X c1 ops = .ok c2 := by
  simp only [run] at h
  cases hs : step X c op with
  | error e => simp [hs] at h
  | ok c1 => simp only [hs] at h; exact ⟨c1, rfl, h⟩

theorem run_wf {X : Env} {ops : List Op} : ∀ {c c2 : Cache}, c.WF → run X c ops = .ok c2 →
    c2.WF ∧ c2.lru.cap = c.lru.cap ∧ c2.slru.stageOneCap = c.slru.stageOneCap ∧
      c2.slru.stageTowCap = c.slru.stageTowCap := by
  induction ops with
  | nil =>
    intro c c2 h hr
    simp only [run, Except.ok.injEq] at hr
    subst hr
    exact ⟨h, rfl, rfl, rfl⟩
  | cons op ops ih =>
    intro c c2 h hr
    obtain ⟨c1, hs, hr1⟩ := run_cons_ok hr
    obtain ⟨w1, a1, a2, a3⟩ := step_wf h hs
    obtain ⟨w2, b1, b2, b3⟩ := ih w1 hr1
    exact ⟨w2, by rw [b1, a1], by rw [b2, a2], by rw [b3, a3]⟩

theorem NewCache_wf (X : Env) (size : Int) : (NewCache X size).WF := by
  refine ⟨⟨List.nodup_nil, List.nodup_nil, List.nodup_nil, ?_, ?_, ?_, ?_, ?_, ?_⟩, ?_⟩
  · intro e he; simp [Linked, NewCache, newWindowLRU, newSLRU] at he
  · intro e e2 he; simp [Linked, NewCache, newWindowLRU, newSLRU] at he
  · intro e he; simp [NewCache, newWindowLRU] at he
  · intro e he; simp [NewCache, newSLRU] at he
  · intro e he; simp [NewCache, newSLRU] at he
  · intro k e hk; simp [NewCache] at hk
  · obtain ⟨b1, b2, b3, -⟩ := NewCache_caps_bound X size
    have l1 : (NewCache X size).lru.list = [] := rfl
    have l2 : (NewCache X size).slru.stageOne = [] := rfl
    have l3 : (NewCache X size).slru.stageTwo = [] := rfl
    refine ⟨b1, b2, ?_, ?_, ?_⟩
    · rw [l1]; simp only [List.length_nil, Nat.cast_zero]; omega
    · rw [l3]; simp only [List.length_nil, Nat.cast_zero]; exact b3
    · simp only [segmentedLRU.Len, l2, l3, List.length_nil, Nat.cast_zero]; omega

/-! ## Absence of faults -/

theorem Cache.set_ok {X : Env} {c : Cache} {key : Key} (value : Value) (h : c.WF)
    (hk : key.supported X) : ∃ r, Cache.set X c key value = .ok r := by
  obtain ⟨hS, hZ⟩ := h
  simp only [Cache.set]
  cases hkk : keyToHash X key with
  | none => simp [Key.supported, hkk] at hk
  | some kh =>
    obtain ⟨keyHash, conflictHash⟩ := kh
    simp only
    obtain ⟨⟨lru, mem, eitem, ev⟩, ha⟩ := window_add_ok c.mem
      { stage := 0, key := keyHash, conflict := conflictHash, value := value } hZ.capW
    simp only [ha]
    cases ev with
    | false => exact ⟨_, rfl⟩
    | true =>
      simp only [Bool.not_true, Bool.false_eq_true, if_false]
      obtain ⟨vic, hv⟩ := slru_victim_ok mem hZ.cap1 hZ.len2
      obtain ⟨⟨slru, mem2⟩, hadd⟩ := slru_add_ok mem eitem hZ.cap1
      simp only [hv]
      cases vic with
      | none =>
        simp only [hadd]
        exact ⟨_, rfl⟩
      | some victim =>
        simp only
        split
        · exact ⟨_, rfl⟩
        · split
          · exact ⟨_, rfl⟩
          · simp only [hadd]
            exact ⟨_, rfl⟩

theorem Cache.get_ok {X : Env} {c : Cache} {key : Key} (hc : 1 ≤ c.slru.stageTowCap)
    (hk : key.supported X) : ∃ r, Cache.get X c key = .ok r := by
  obtain ⟨f1, f2, f3, f4⟩ := c.tick_frame
  simp only [Cache.get]
  cases hkk : keyToHash X key with
  | none => simp [Key.supported, hkk] at hk
  | some kh =>
    obtain ⟨keyHash, conflictHash⟩ := kh
    simp only
    cases hd : c.tick.mem.data keyHash with
    | none => exact ⟨_, rfl⟩
    | some val =>
      simp only
      split
      · exact ⟨_, rfl⟩
      · split
        · exact ⟨_, rfl⟩
        · have hc2 : 1 ≤ c.tick.slru.stageTowCap := by rw [f2]; exact hc
          obtain ⟨⟨slru, mem⟩, hg⟩ := slru_get_ok c.tick.mem val hc2
          simp only [hg]
          exact ⟨_, rfl⟩

theorem Cache.del_ok {X : Env} (c : Cache) {key : Key}
    (hk : key.supported X) : ∃ r, Cache.del X c key = .ok r := by
  simp only [Cache.del]
  cases hkk : keyToHash X key with
  | none => simp [Key.supported, hkk] at hk
  | some kh =>
    obtain ⟨keyHash, conflictHash⟩ := kh
    simp only
    cases hd : c.mem.data keyHash with
    | none => exact ⟨_, rfl⟩
    | some val =>
      simp only
      split <;> exact ⟨_, rfl⟩

theorem step_ok {X : Env} {c : Cache} {op : Op} (h : c.WF) (hc : 1 ≤ c.slru.stageTowCap)
    (hk : op.supported X) : ∃ c2, step X c op = .ok c2 := by
  cases op with
  | Set key value =>
    obtain ⟨r, hr⟩ := Cache.set_ok value h hk
    exact ⟨r.1, by simp [step, hr, Except.map]⟩
  | Get key =>
    obtain ⟨r, hr⟩ := Cache.get_ok hc hk
    exact ⟨r.1, by simp [step, hr, Except.map]⟩
  | Del key =>
    obtain ⟨r, hr⟩ := Cache.del_ok c hk
    exact ⟨r.1, by simp [step, hr, Except.map]⟩

theorem run_ok {X : Env} {ops : List Op} : ∀ {c : Cache}, c.WF → 1 ≤ c.slru.stageTowCap →
    (∀ op ∈ ops, op.supported X) → ∃ c2, run X c ops = .ok c2 := by
  induction ops with
  | nil => intro c _ _ _; exact ⟨c, rfl⟩
  | cons op ops ih =>
    intro c h hc hk
    obtain ⟨c1, hs⟩ := step_ok h hc (hk op (List.mem_cons_self _ _))
    obtain ⟨w1, -, -, a3⟩ := step_wf h hs
    obtain ⟨c2, hr⟩ := ih w1 (by rw [a3]; exact hc) (fun o ho => hk o (List.mem_cons_of_mem _ ho))
    exact ⟨c2, by simp [run, hs, hr]⟩

/-! ## The claims -/

/-- C1 (deleted keys stay deleted) fails on the code.  On `NewCache(100)`, after
`Set(1, 10)`, the call `Del(1)` reports found; after the further call `Set(2, 20)`,
which contains no `Set` of key 1, `Get(1)` returns the deleted value 10 as found:
`del` removes only the map entry, the element stays in the window list, and the
window eviction hands it to `segmentedLRU.add`, which indexes it again. -/
theorem C1_deleted_key_returns :
    delAfter Env.sample 100 [.Set (.int 1) (some 10)] (.int 1) = some (0, true) ∧
      getAfter Env.sample 100
        [.Set (.int 1) (some 10), .Del (.int 1), .Set (.int 2) (some 20)] (.int 1)
        = some (some 10, true) := by
  decide

/-- C3, as stated, fails at capacity 1: after two `Set` calls on `NewCache(1)` the
lists hold two entries. -/
theorem C3_capacity_one_holds_two :
    ∃ c, run Env.sample (NewCache Env.sample 1)
        [.Set (.int 1) (some 10), .Set (.int 2) (some 20)] = .ok c ∧ ¬ c.total ≤ 1 :=
  ⟨_, rfl, by decide⟩

/-- C3, amended: after every sequence of calls on `NewCache(n)` that completes,
the three lists together hold at most the window capacity plus the main capacity
that `NewCache` builds, `max 1 (n / 100) + max 1 (int(float64(n) * 0.99))`; for
`2 ≤ n < 2 ^ 53` this is at most `n`. -/
theorem C3_capacity_bound (X : Env) (n : Int) (ops : List Op) (c : Cache)
    (hr : run X (NewCache X n) ops = .ok c) :
    (c.total : Int)
        ≤ max 1 (n / 100) + max 1 (mulToInt (toFloat64 n) 4458563631096791 52) ∧
      (2 ≤ n → n < 2 ^ 53 → (c.total : Int) ≤ n) := by
  obtain ⟨⟨-, hZ⟩, a1, a2, a3⟩ := run_wf (NewCache_wf X n) hr
  obtain ⟨c1, c2, c3⟩ := NewCache_caps_def X n
  have hW := hZ.lenW
  have hS := hZ.lenS
  rw [a1, c1] at hW
  rw [a2, a3, c2, c3] at hS
  simp only [segmentedLRU.Len] at hS
  have ht : (c.total : Int) = c.lru.list.length + c.slru.stageOne.length
      + c.slru.stageTwo.length := by
    simp [Cache.total]
  refine ⟨by omega, fun hn hn2 => ?_⟩
  have hm : mulToInt (toFloat64 n) 4458563631096791 52 ≤ n - n / 100 := by
    rw [toFloat64_small (by omega) hn2, mulToInt_of_nonneg (by omega)]
    have := @mul99_le n.toNat (by norm_num at hn2 ⊢; omega)
    omega
  by_cases h47 : n < 2 ^ 47
  · obtain ⟨-, d2, d3⟩ := NewCache_caps X n h47
    rw [c2] at d2
    rw [c3] at d3
    omega
  · norm_num at h47
    omega

theorem C3_capacity_bound_witness :
    ((stateAfter Env.sample 3 [.Set (.int 1) (some 10), .Get (.int 1)]).total : Int)
        ≤ max 1 ((3 : Int) / 100) + max 1 (mulToInt (toFloat64 3) 4458563631096791 52) ∧
      ((stateAfter Env.sample 3 [.Set (.int 1) (some 10), .Get (.int 1)]).total : Int) ≤ 3 :=
  ⟨(C3_capacity_bound Env.sample 3 [.Set (.int 1) (some 10), .Get (.int 1)] _ rfl).1,
    (C3_capacity_bound Env.sample 3 [.Set (.int 1) (some 10), .Get (.int 1)] _ rfl).2
      (by decide) (by decide)⟩

/-- The bound `2 ^ 53` of C3 is where `float64(n)` starts to round: for
`n = 2 ^ 53 + 11` the window and main capacities that `NewCache` builds add up to
`n + 1`. -/
theorem NewCache_caps_exceed :
    (NewCache Env.sample 9007199254741003).lru.cap
      + ((NewCache Env.sample 9007199254741003).slru.stageOneCap
        + (NewCache Env.sample 9007199254741003).slru.stageTowCap) = 9007199254741003 + 1 := by
  decide

/-- C10, as stated, fails for large sizes, where the `float64` product
`float64(n) * 0.99` is rounded up across an integer: at `n = 142159079146801` the
code builds a probation capacity of 28147497671066 and a protected capacity of
112589990684267, a main capacity of 140737488355333, whereas
`floor(99 * n / 100)` is 140737488355332 and the protected capacity by the stated
arithmetic is 112589990684266. -/
theorem C10_float_rounding :
    (NewCache Env.sample 142159079146801).slru.stageOneCap = 28147497671066 ∧
      (NewCache Env.sample 142159079146801).slru.stageTowCap = 112589990684267 ∧
      (NewCache Env.sample 142159079146801).slru.stageOneCap
        + (NewCache Env.sample 142159079146801).slru.stageTowCap
        ≠ max 1 (99 * 142159079146801 / 100) ∧
      (NewCache Env.sample 142159079146801).slru.stageTowCap
        ≠ max 1 (99 * 142159079146801 / 100)
          - max 1 (max 1 (99 * 142159079146801 / 100) / 5) := by
  decide

/-- C10, amended: `NewCache(100)` builds a window of capacity 1, a probation capacity
of 19 and a protected capacity of 80 (main capacity 99).  For every size `n` the
window capacity is `max 1 (n / 100)`, the main capacity is
`max 1 (int(float64(n) * 0.99))`, the probation capacity is
`max 1 (int(0.2 * float64(main)))` and the protected capacity is main minus
probation, with the products in `float64` arithmetic; for every `n < 2 ^ 47` the two
products have the values of exact arithmetic, `floor(99 * n / 100)` and
`floor(main / 5)`. -/
theorem C10_capacity_split (X : Env) :
    ((NewCache X 100).lru.cap = 1 ∧ (NewCache X 100).slru.stageOneCap = 19 ∧
      (NewCache X 100).slru.stageTowCap = 80 ∧
      (NewCache X 100).slru.stageOneCap + (NewCache X 100).slru.stageTowCap = 99) ∧
    (∀ n : Int,
      (NewCache X n).lru.cap = max 1 (n / 100) ∧
      (NewCache X n).slru.stageOneCap + (NewCache X n).slru.stageTowCap
        = max 1 (mulToInt (toFloat64 n) 4458563631096791 52) ∧
      (NewCache X n).slru.stageOneCap
        = max 1 (mulToInt (toFloat64 (max 1 (mulToInt (toFloat64 n) 4458563631096791 52)))
            3602879701896397 54) ∧
      (NewCache X n).slru.stageTowCap
        = max 1 (mulToInt (toFloat64 n) 4458563631096791 52)
          - (NewCache X n).slru.stageOneCap) ∧
    ∀ n : Int, n < 2 ^ 47 →
      (NewCache X n).lru.cap = max 1 (n / 100) ∧
      (NewCache X n).slru.stageOneCap + (NewCache X n).slru.stageTowCap
        = max 1 (99 * n / 100) ∧
      (NewCache X n).slru.stageOneCap = max 1 (max 1 (99 * n / 100) / 5) ∧
      (NewCache X n).slru.stageTowCap =
        max 1 (99 * n / 100) - (NewCache X n).slru.stageOneCap := by
  refine ⟨⟨rfl, rfl, rfl, rfl⟩, fun n => ?_, fun n hn => ?_⟩
  · obtain ⟨c1, c2, c3⟩ := NewCache_caps_def X n
    refine ⟨c1, ?_, c2, ?_⟩
    · rw [c2, c3]; omega
    · rw [c2, c3]
  · obtain ⟨c1, c2, c3⟩ := NewCache_caps X n hn
    refine ⟨c1, ?_, c2, ?_⟩
    · rw [c2, c3]; omega
    · rw [c2, c3]

theorem C10_capacity_split_witness :
    (NewCache Env.sample 1000).lru.cap = max 1 ((1000 : Int) / 100) ∧
      (NewCache Env.sample 1000).slru.stageOneCap + (NewCache Env.sample 1000).slru.stageTowCap
        = max 1 (99 * 1000 / 100) ∧
      (NewCache Env.sample 1000).slru.stageOneCap = max 1 (max 1 (99 * 1000 / 100) / 5) ∧
      (NewCache Env.sample 1000).slru.stageTowCap =
        max 1 (99 * 1000 / 100) - (NewCache Env.sample 1000).slru.stageOneCap :=
  (C10_capacity_split Env.sample).2.2 1000 (by decide)

/-- C6 (collision guard on lookup): when the index holds an entry under primary
hash `h` whose conflict hash differs from the conflict hash `ch` of the looked-up
key, `get` completes with `(nil, false)` and leaves the index, the elements, the
records (with their tier tags) and the three lists as they were. -/
theorem C6_collision_guard (X : Env) (c : Cache) (key : Key) (h ch val : Nat)
    (hk : keyToHash X key = some (h, ch)) (hd : c.mem.data h = some val)
    (hc : (c.mem.entry val).conflict ≠ ch) :
    ∃ c2, Cache.get X c key = .ok (c2, none, false) ∧ c2.mem = c.mem ∧
      c2.lru = c.lru ∧ c2.slru = c.slru := by
  obtain ⟨f1, f2, f3, -⟩ := c.tick_frame
  refine ⟨c.tick.miss h, ?_, f3, f1, f2⟩
  simp only [Cache.get, hk, f3, hd]
  exact if_pos hc

theorem C6_collision_guard_witness :
    ∃ c2, Cache.get Env.sample (stateAfter Env.sample 100 [.Set (.string "a") (some 10)])
        (.string "bb") = .ok (c2, none, false) ∧
      c2.mem = (stateAfter Env.sample 100 [.Set (.string "a") (some 10)]).mem ∧
      c2.lru = (stateAfter Env.sample 100 [.Set (.string "a") (some 10)]).lru ∧
      c2.slru = (stateAfter Env.sample 100 [.Set (.string "a") (some 10)]).slru :=
  C6_collision_guard Env.sample (stateAfter Env.sample 100 [.Set (.string "a") (some 10)])
    (.string "bb") 7 2 0 rfl rfl (by decide)

/-- The admission branch of `set`: once the window has evicted `eitem` and the
segmented LRU has reported a victim, the call is decided by the filter and the
two estimates. -/
theorem Cache.set_admission {X : Env} {c : Cache} {key : Key} {value : Value} {kh ch : Nat}
    {lru : windowLRU} {mem : Mem} {eitem : storeItem} {victim : Nat}
    (hk : keyToHash X key = some (kh, ch))
    (ha : c.lru.add c.mem { stage := 0, key := kh, conflict := ch, value := value }
      = some (lru, mem, eitem, true))
    (hv : c.slru.victim mem = some (some victim)) :
    Cache.set X c key value =
      if c.door.seen (toUint32 eitem.key) = false ∨
          c.c.Estimate eitem.key < c.c.Estimate (mem.item victim).key then
        .ok ({ c with lru := lru, mem := mem, door := (c.door.Allow (toUint32 eitem.key)).1 }, true)
      else
        match c.slru.add mem eitem with
        | none => .error { c with lru := lru, mem := mem,
                                  door := (c.door.Allow (toUint32 eitem.key)).1 }
        | some (slru, mem2) =>
          .ok ({ c with lru := lru, mem := mem2, slru := slru,
                        door := (c.door.Allow (toUint32 eitem.key)).1 }, true) := by
  simp only [Cache.set, hk, ha, hv, Bool.not_true, Bool.false_eq_true, if_false,
    BloomFilter.Allow]
  cases hs : c.door.seen (toUint32 eitem.key) with
  | false => simp
  | true =>
    simp only [Bool.not_true, Bool.false_eq_true, if_false, false_or]
    by_cases hlt : c.c.Estimate eitem.key < c.c.Estimate (mem.item victim).key
    · rw [if_pos hlt, if_pos (Or.inr hlt)]
    · rw [if_neg hlt, if_neg (by simp [hlt])]

/-- When a victim is reported and the protected list is within its capacity,
`segmentedLRU.add` overwrites the record of the least-recently-used probation
element and moves that element to the front. -/
theorem slru_add_full {slru : segmentedLRU} {m : Mem} {victim : Nat} (i : storeItem)
    (hv : slru.victim m = some (some victim))
    (h2 : (slru.stageTwo.length : Int) ≤ slru.stageTowCap) :
    ∃ e, Back slru.stageOne = some e ∧ m.Value e = victim ∧
      slru.add m i = some ({ slru with stageOne := MoveToFront slru.stageOne e },
        ((m.delete (m.item victim).key).assign victim { i with stage := 1 }).store i.key e) := by
  simp only [segmentedLRU.victim] at hv
  split at hv
  · simp at hv
  · rename_i hlen
    cases hb : Back slru.stageOne with
    | none => simp [hb] at hv
    | some e =>
      simp only [hb, Option.some.injEq] at hv
      subst hv
      refine ⟨e, rfl, rfl, ?_⟩
      have hcond : ¬ ((slru.stageOne.length : Int) < slru.stageOneCap ∨
          slru.Len < slru.stageOneCap + slru.stageTowCap) := by
        simp only [segmentedLRU.Len] at hlen ⊢
        omega
      simp only [segmentedLRU.add, if_neg hcond, hb, Mem.assign, Mem.delete, Mem.store, upd_same]

/-- C4, as stated, fails on a tie.  On `NewCache(3)` (window 1, probation 1,
protected 1), after `Set` of 10, 11, 12, 13, 12 the probation list holds the keys
11, 10 and the window holds 12; the filter has marked 12 (at its first eviction)
and both estimates are 0.  The call `Set(14)` evicts 12, the victim is 10, the
estimates tie, and afterwards the probation list holds 12, 11: the candidate was
admitted and the victim displaced. -/
theorem C4_tie_admits_candidate :
    run Env.sample (NewCache Env.sample 3) tieOps = .ok tieState ∧
    tieState.mem.keys tieState.lru.list = [12] ∧
    tieState.mem.keys tieState.slru.stageOne = [11, 10] ∧
    tieState.slru.stageTwo = [] ∧
    tieState.door.seen (toUint32 12) = true ∧
    tieState.c.Estimate 10 = 0 ∧ tieState.c.Estimate 12 = 0 ∧
    (stateAfter Env.sample 3 (tieOps ++ [.Set (.int 14) none])).mem.keys
      (stateAfter Env.sample 3 (tieOps ++ [.Set (.int 14) none])).slru.stageOne = [12, 11] :=
  ⟨rfl, by decide, by decide, by decide, by decide, by decide, by decide, by decide⟩

/-- The window `add` does not touch the records of the elements of the segmented
LRU. -/
theorem window_add_frame {lru lru2 : windowLRU} {s1 s2 : List Nat} {m m2 : Mem}
    {i eitem : storeItem} {ev : Bool} (h : Sound lru.list s1 s2 m)
    (ha : lru.add m i = some (lru2, m2, eitem, ev)) :
    ∀ x, x ∈ s1 ∨ x ∈ s2 → m2.Value x = m.Value x ∧ m2.item (m.Value x) = m.item (m.Value x) := by
  intro x hx
  obtain ⟨h1, h2⟩ := h.alloc x (Or.inr hx)
  have e1 : x ≠ m.elems := by omega
  have e2 : m.Value x ≠ m.items := by omega
  unfold windowLRU.add at ha
  split at ha
  · simp only [Option.some.injEq, Prod.mk.injEq] at ha
    obtain ⟨-, rfl, -, -⟩ := ha
    simp [PushFront, Mem.alloc, Mem.store, upd_apply, e1, e2]
  · split at ha
    · simp at ha
    · simp only [Option.some.injEq, Prod.mk.injEq] at ha
      obtain ⟨-, rfl, -, -⟩ := ha
      simp [PushFront, Mem.alloc, Mem.store, Mem.delete, upd_apply, e1, e2]

/-- C4, amended: when a `Set` makes the window evict an entry `eitem`, the
segmented LRU reports the victim record `victim`, and the filter has seen the
key of `eitem`, the entry is dropped exactly when its estimate is strictly below
the victim's: then the segmented LRU and the records of its elements are as
before the call.  When the victim's estimate is at most the entry's, a tie
included, the entry is admitted: the record of the least-recently-used probation
element (the victim) is overwritten with the entry tagged probation, the
element moves to the front of the probation list, the index maps the entry's key
to it, the protected list and the records of the other elements are as before. -/
theorem C4_admission_by_estimate (X : Env) (c : Cache) (key : Key) (value : Value)
    (kh ch : Nat) (lru : windowLRU) (mem : Mem) (eitem : storeItem) (victim : Nat)
    (hwf : c.WF) (hk : keyToHash X key = some (kh, ch))
    (ha : c.lru.add c.mem { stage := 0, key := kh, conflict := ch, value := value }
      = some (lru, mem, eitem, true))
    (hv : c.slru.victim mem = some (some victim))
    (hseen : c.door.seen (toUint32 eitem.key) = true) :
    (c.c.Estimate eitem.key < c.c.Estimate (mem.item victim).key →
      ∃ c2, Cache.set X c key value = .ok (c2, true) ∧ c2.lru = lru ∧ c2.slru = c.slru ∧
        c2.mem = mem ∧
        ∀ x, x ∈ c.slru.stageOne ∨ x ∈ c.slru.stageTwo → c2.mem.entry x = c.mem.entry x) ∧
    (c.c.Estimate (mem.item victim).key ≤ c.c.Estimate eitem.key →
      ∃ c2 e, Cache.set X c key value = .ok (c2, true) ∧ c2.lru = lru ∧
        Back c.slru.stageOne = some e ∧ c.mem.Value e = victim ∧
        c2.slru.stageOne = MoveToFront c.slru.stageOne e ∧
        c2.slru.stageOne.head? = some e ∧
        c2.slru.stageTwo = c.slru.stageTwo ∧
        c2.mem.entry e = { eitem with stage := 1 } ∧
        c2.mem.data eitem.key = some e ∧
        ∀ x, x ∈ c.slru.stageOne ∨ x ∈ c.slru.stageTwo → x ≠ e →
          c2.mem.entry x = c.mem.entry x) := by
  obtain ⟨hS, hZ⟩ := hwf
  have hset := Cache.set_admission hk ha hv
  have hfr := window_add_frame hS ha
  have hS1 := window_add_sound hS rfl ha
  constructor
  · intro hlt
    rw [if_pos (Or.inr hlt)] at hset
    refine ⟨_, hset, rfl, rfl, rfl, fun x hx => ?_⟩
    obtain ⟨f1, f2⟩ := hfr x hx
    simp only [Mem.entry, f1, f2]
  · intro hle
    obtain ⟨e, hb, hval, hadd⟩ := slru_add_full eitem hv hZ.len2
    have hcond : ¬ (c.door.seen (toUint32 eitem.key) = false ∨
        c.c.Estimate eitem.key < c.c.Estimate (mem.item victim).key) := by
      rw [hseen]; simp; omega
    rw [if_neg hcond, hadd] at hset
    have hem := Back_mem hb
    have hval0 : c.mem.Value e = victim := by rw [← (hfr e (Or.inl hem)).1]; exact hval
    refine ⟨_, e, hset, rfl, hb, hval0, rfl, ?_, rfl, ?_, ?_, fun x hx hxe => ?_⟩
    · simp [MoveToFront, hem]
    · simp [Mem.entry, Mem.store, Mem.assign, Mem.delete, hval]
    · simp [Mem.store]
    · obtain ⟨f1, f2⟩ := hfr x hx
      have hne : mem.Value x ≠ victim := by
        rw [← hval]
        intro hh
        exact hxe (hS1.inj x e (Or.inr hx) (Or.inr (Or.inl hem)) hh)
      simp only [Mem.entry, Mem.store, Mem.assign, Mem.delete, upd_ne _ _ hne]
      rw [f1, f2]

theorem C4_admission_by_estimate_witness :
    tieState.c.Estimate (12 : Nat) ≤ tieState.c.Estimate (10 : Nat) ∧
    ∃ c2 e, Cache.set Env.sample tieState (.int 14) none = .ok (c2, true) ∧
      c2.lru = (tieState.lru.added tieState.mem
        { stage := 0, key := 14, conflict := 0, value := none }).1 ∧
      Back tieState.slru.stageOne = some e ∧ tieState.mem.Value e = 2 ∧
      c2.slru.stageOne = MoveToFront tieState.slru.stageOne e ∧
      c2.slru.stageOne.head? = some e ∧
      c2.slru.stageTwo = tieState.slru.stageTwo ∧
      c2.mem.entry e = { stage := 1, key := 12, conflict := 0, value := none } ∧
      c2.mem.data 12 = some e ∧
      ∀ x, x ∈ tieState.slru.stageOne ∨ x ∈ tieState.slru.stageTwo → x ≠ e →
        c2.mem.entry x = tieState.mem.entry x :=
  ⟨by decide,
    (C4_admission_by_estimate Env.sample tieState (.int 14) none 14 0
      (tieState.lru.added tieState.mem { stage := 0, key := 14, conflict := 0, value := none }).1
      (tieState.lru.added tieState.mem { stage := 0, key := 14, conflict := 0, value := none }).2.1
      { stage := 0, key := 12, conflict := 0, value := none } 2
      (run_wf (NewCache_wf Env.sample 3)
        (rfl : run Env.sample (NewCache Env.sample 3) tieOps = .ok tieState)).1
      rfl rfl rfl rfl).2 (by decide)⟩

/-- C5, as stated for the 64-bit primary hash, fails on the code.  On `NewCache(3)`
the calls `Get(1)`, `Set(10)`, `Set(11)`, `Set(2 ^ 32 + 1)` leave the window holding
key `2 ^ 32 + 1`, the probation list holding 11 and 10, no reset taken, and a
filter whose only mark is the fingerprint 1 given by `Get(1)`: the primary hash
`2 ^ 32 + 1` was never presented.  The call `Set(12)` evicts `2 ^ 32 + 1` while the
victim 10 is reported; the filter is asked about `uint32(2 ^ 32 + 1) = 1`, answers
seen, the estimates tie at 0, and afterwards the probation list holds
`2 ^ 32 + 1` and 11: the entry was admitted and the victim displaced. -/
theorem C5_truncated_fingerprint_admits :
    run Env.sample (NewCache Env.sample 3) truncOps = .ok truncState ∧
    truncState.mem.keys truncState.lru.list = [4294967297] ∧
    truncState.mem.keys truncState.slru.stageOne = [11, 10] ∧
    truncState.slru.stageTwo = [] ∧
    truncState.door.seen = upd (fun _ => false) 1 true ∧
    truncState.door.seen 4294967297 = false ∧
    truncState.t = 1 ∧ truncState.threshold = 0 ∧
    (stateAfter Env.sample 3 (truncOps ++ [.Set (.int 12) none])).mem.keys
      (stateAfter Env.sample 3 (truncOps ++ [.Set (.int 12) none])).slru.stageOne
        = [4294967297, 11] :=
  ⟨rfl, by decide, by decide, by decide, rfl, by decide, by decide, by decide, by decide⟩

/-- C5, amended to the fingerprint the code gives the filter: when a `Set` makes
the window evict an entry `eitem`, the segmented LRU reports a victim, and the
filter has no mark for `uint32(eitem.key)`, the entry is dropped: the call
completes, the segmented LRU and the records of its elements are as before the
call, the victim is still the record of the least-recently-used probation
element, the fingerprint is marked, and the outcome is the same whatever the
frequency sketch holds. -/
theorem C5_doorkeeper_gate (X : Env) (c : Cache) (key : Key) (value : Value)
    (kh ch : Nat) (lru : windowLRU) (mem : Mem) (eitem : storeItem) (victim : Nat)
    (hwf : c.WF) (hk : keyToHash X key = some (kh, ch))
    (ha : c.lru.add c.mem { stage := 0, key := kh, conflict := ch, value := value }
      = some (lru, mem, eitem, true))
    (hv : c.slru.victim mem = some (some victim))
    (hunseen : c.door.seen (toUint32 eitem.key) = false) :
    ∃ c2 e, Cache.set X c key value = .ok (c2, true) ∧ c2.lru = lru ∧ c2.slru = c.slru ∧
      c2.mem = mem ∧
      (∀ x, x ∈ c.slru.stageOne ∨ x ∈ c.slru.stageTwo → c2.mem.entry x = c.mem.entry x) ∧
      Back c2.slru.stageOne = some e ∧ c2.mem.Value e = victim ∧
      c2.door.seen (toUint32 eitem.key) = true ∧
      ∀ sk : cmSketch, ∃ c3, Cache.set X { c with c := sk } key value = .ok (c3, true) ∧
        c3.lru = c2.lru ∧ c3.slru = c2.slru ∧ c3.mem = c2.mem ∧ c3.door = c2.door := by
  obtain ⟨hS, hZ⟩ := hwf
  have hset := Cache.set_admission hk ha hv
  have hfr := window_add_frame hS ha
  rw [if_pos (Or.inl hunseen)] at hset
  have hv2 := hv
  simp only [segmentedLRU.victim] at hv2
  split at hv2
  · simp at hv2
  · cases hb : Back c.slru.stageOne with
    | none => simp [hb] at hv2
    | some e =>
      simp only [hb, Option.some.injEq] at hv2
      refine ⟨_, e, hset, rfl, rfl, rfl, fun x hx => ?_, hb, hv2, ?_, fun sk => ?_⟩
      · obtain ⟨f1, f2⟩ := hfr x hx
        simp only [Mem.entry, f1, f2]
      · simp [BloomFilter.Allow]
      · have hset2 := @Cache.set_admission X { c with c := sk } key value kh ch lru mem eitem
          victim hk ha hv
        rw [if_pos (Or.inl hunseen)] at hset2
        exact ⟨_, hset2, rfl, rfl, rfl, rfl⟩

theorem C5_doorkeeper_gate_witness :
    unseenState.door.seen (toUint32 13) = false ∧
    ∃ c2 e, Cache.set Env.sample unseenState (.int 12) none = .ok (c2, true) ∧
      c2.lru = (unseenState.lru.added unseenState.mem
        { stage := 0, key := 12, conflict := 0, value := none }).1 ∧
      c2.slru = unseenState.slru ∧
      c2.mem = (unseenState.lru.added unseenState.mem
        { stage := 0, key := 12, conflict := 0, value := none }).2.1 ∧
      (∀ x, x ∈ unseenState.slru.stageOne ∨ x ∈ unseenState.slru.stageTwo →
        c2.mem.entry x = unseenState.mem.entry x) ∧
      Back c2.slru.stageOne = some e ∧ c2.mem.Value e = 2 ∧
      c2.door.seen (toUint32 13) = true ∧
      ∀ sk : cmSketch, ∃ c3,
        Cache.set Env.sample { unseenState with c := sk } (.int 12) none = .ok (c3, true) ∧
        c3.lru = c2.lru ∧ c3.slru = c2.slru ∧ c3.mem = c2.mem ∧ c3.door = c2.door :=
  ⟨by decide,
    C5_doorkeeper_gate Env.sample unseenState (.int 12) none 12 0
      (unseenState.lru.added unseenState.mem
        { stage := 0, key := 12, conflict := 0, value := none }).1
      (unseenState.lru.added unseenState.mem
        { stage := 0, key := 12, conflict := 0, value := none }).2.1
      { stage := 0, key := 13, conflict := 0, value := none } 2
      (run_wf (NewCache_wf Env.sample 3)
        (rfl : run Env.sample (NewCache Env.sample 3) unseenOps = .ok unseenState)).1
      rfl rfl rfl rfl⟩

/-- C9, as stated, fails on the code: after `Set` of the 100 distinct integer keys
0, ..., 99 on `NewCache(100)` the window holds 1 entry and the protected list is
empty, but the probation list holds 99 entries, not at most 19. -/
theorem C9_probation_holds_99 :
    (List.range 100).Nodup ∧
    run Env.sample (NewCache Env.sample 100) hundredSets
      = .ok (stateAfter Env.sample 100 hundredSets) ∧
    (stateAfter Env.sample 100 hundredSets).lru.list.length = 1 ∧
    (stateAfter Env.sample 100 hundredSets).slru.stageOne.length = 99 ∧
    (stateAfter Env.sample 100 hundredSets).slru.stageTwo = [] ∧
    ¬ (stateAfter Env.sample 100 hundredSets).slru.stageOne.length ≤ 19 :=
  ⟨by decide, rfl, by decide, by decide, by decide, by decide⟩
/-- A `set` whose window `add` evicts nothing is that `add` alone. -/
theorem Cache.set_no_evict {X : Env} {c : Cache} {key : Key} {value : Value} {kh ch : Nat}
    {lru : windowLRU} {mem : Mem} {eitem : storeItem}
    (hk : keyToHash X key = some (kh, ch))
    (ha : c.lru.add c.mem { stage := 0, key := kh, conflict := ch, value := value }
      = some (lru, mem, eitem, false)) :
    Cache.set X c key value = .ok ({ c with lru := lru, mem := mem }, true) := by
  simp [Cache.set, hk, ha]

/-- A `set` whose window `add` evicts an entry while the segmented LRU is below
its combined capacity hands the entry to `segmentedLRU.add`. -/
theorem Cache.set_no_victim {X : Env} {c : Cache} {key : Key} {value : Value} {kh ch : Nat}
    {lru : windowLRU} {mem : Mem} {eitem : storeItem}
    (hk : keyToHash X key = some (kh, ch))
    (ha : c.lru.add c.mem { stage := 0, key := kh, conflict := ch, value := value }
      = some (lru, mem, eitem, true))
    (hlen : c.slru.Len < c.slru.stageOneCap + c.slru.stageTowCap) :
    Cache.set X c key value =
      match c.slru.add mem eitem with
      | none => .error { c with lru := lru, mem := mem }
      | some (slru, mem2) => .ok ({ c with lru := lru, mem := mem2, slru := slru }, true) := by
  simp only [Cache.set, hk, ha, segmentedLRU.victim, if_pos hlen, Bool.not_true,
    Bool.false_eq_true, if_false]

/-- The shape of the lists along a run of `Set` calls on `NewCache(100)`, after
`j` calls: one window entry, `j - 1` probation entries, no protected entry. -/
theorem set_fill_step (X : Env) (c : Cache) (k : Int) (v : Value) (j : Nat) (hj : j < 100)
    (hwf : c.WF) (h1 : c.lru.cap = 1) (h2 : c.slru.stageOneCap + c.slru.stageTowCap = 99)
    (h3 : c.slru.stageTwo = [])
    (h4 : c.lru.list.length = min j 1 ∧ c.slru.stageOne.length = j - 1) :
    ∃ c2, step X c (.Set (.int k) v) = .ok c2 ∧ c2.WF ∧ c2.lru.cap = 1 ∧
      c2.slru.stageOneCap + c2.slru.stageTowCap = 99 ∧ c2.slru.stageTwo = [] ∧
      c2.lru.list.length = min (j + 1) 1 ∧ c2.slru.stageOne.length = j + 1 - 1 := by
  obtain ⟨r, hr⟩ := @Cache.set_ok X c (.int k) v hwf rfl
  obtain ⟨c2, b⟩ := r
  obtain ⟨w2, a1, a2, a3⟩ := Cache.set_wf hwf hr
  refine ⟨c2, by simp [step, hr, Except.map], w2, by rw [a1, h1], by rw [a2, a3, h2], ?_⟩
  obtain ⟨hS, hZ⟩ := hwf
  obtain ⟨⟨lru, mem, eitem, ev⟩, ha⟩ := window_add_ok c.mem
    { stage := 0, key := toUint64 k, conflict := 0, value := v } hZ.capW
  obtain ⟨z1, z2, z3, z4⟩ := window_add_sized hZ.capW hZ.lenW ha
  have hk : keyToHash X (.int k) = some (toUint64 k, 0) := rfl
  cases ev with
  | false =>
    have hset := Cache.set_no_evict hk ha
    rw [hr] at hset
    simp only [Except.ok.injEq, Prod.mk.injEq] at hset
    obtain ⟨rfl, -⟩ := hset
    have hlen := z3 rfl
    simp only at hlen z2 ⊢
    rw [h1] at z2
    refine ⟨h3, ?_, ?_⟩ <;> omega
  | true =>
    have hlen := z4 rfl
    rw [h1] at hlen
    have hLen : c.slru.Len < c.slru.stageOneCap + c.slru.stageTowCap := by
      simp only [segmentedLRU.Len, h3, List.length_nil]
      omega
    have hset := Cache.set_no_victim hk ha hLen
    cases hadd : c.slru.add mem eitem with
    | none => rw [hr, hadd] at hset; simp at hset
    | some r2 =>
      obtain ⟨slru, mem2⟩ := r2
      rw [hr, hadd] at hset
      simp only [Except.ok.injEq, Prod.mk.injEq] at hset
      obtain ⟨rfl, -⟩ := hset
      obtain ⟨y1, y2, y3, y4, y5⟩ := slru_add_sized hZ.len2 hZ.lenS hadd
      have := y5 hLen
      simp only
      refine ⟨by rw [y3, h3], ?_, ?_⟩ <;> omega

theorem set_fill_run (X : Env) : ∀ (kvs : List (Int × Value)) (c : Cache) (j : Nat),
    j + kvs.length ≤ 100 → c.WF → c.lru.cap = 1 →
    c.slru.stageOneCap + c.slru.stageTowCap = 99 → c.slru.stageTwo = [] →
    (c.lru.list.length = min j 1 ∧ c.slru.stageOne.length = j - 1) →
    ∃ c2, run X c (setAll kvs) = .ok c2 ∧ c2.slru.stageTwo = [] ∧
      c2.lru.list.length = min (j + kvs.length) 1 ∧
      c2.slru.stageOne.length = j + kvs.length - 1 := by
  intro kvs
  induction kvs with
  | nil =>
    intro c j _ _ _ _ h3 h4
    exact ⟨c, rfl, h3, by simpa using h4.1, by simpa using h4.2⟩
  | cons kv kvs ih =>
    intro c j hj hwf h1 h2 h3 h4
    simp only [List.length_cons] at hj
    obtain ⟨c1, hs, w1, b1, b2, b3, b4⟩ :=
      set_fill_step X c kv.1 kv.2 j (by omega) hwf h1 h2 h3 h4
    obtain ⟨c2, hr, d1, d2, d3⟩ := ih c1 (j + 1) (by omega) w1 b1 b2 b3 b4
    refine ⟨c2, ?_, d1, ?_, ?_⟩
    · simp only [setAll, List.map_cons, run, hs]
      exact hr
    · simp only [List.length_cons]; rw [d2]; congr 1; omega
    · simp only [List.length_cons]; rw [d3]; omega

/-- C9, amended: on `NewCache(100)`, one `Set` for each of 100 integer keys
(pairwise distinct or not), with no `Get` or `Del` in between, completes and
leaves exactly 1 entry in the window list, 99 entries in the probation list
(`stageOne`), which borrows the unused protected capacity, and an empty
protected list (`stageTwo`). -/
theorem C9_hundred_sets (X : Env) (kvs : List (Int × Value)) (hlen : kvs.length = 100) :
    ∃ c, run X (NewCache X 100) (setAll kvs) = .ok c ∧ c.lru.list.length = 1 ∧
      c.slru.stageOne.length = 99 ∧ c.slru.stageTwo = [] := by
  obtain ⟨c, hr, h1, h2, h3⟩ := set_fill_run X kvs (NewCache X 100) 0 (by omega)
    (NewCache_wf X 100) rfl rfl rfl ⟨rfl, rfl⟩
  refine ⟨c, hr, ?_, ?_, h1⟩
  · rw [h2, hlen]; rfl
  · rw [h3, hlen]

theorem C9_hundred_sets_witness :
    ((List.range 100).map (fun k => ((k : Int), (none : Value)))).length = 100 ∧
    ∃ c, run Env.sample (NewCache Env.sample 100)
        (setAll ((List.range 100).map (fun k => ((k : Int), (none : Value))))) = .ok c ∧
      c.lru.list.length = 1 ∧ c.slru.stageOne.length = 99 ∧ c.slru.stageTwo = [] :=
  ⟨by decide, C9_hundred_sets Env.sample _ (by decide)⟩

/-! ## The effect of each list method on the records and the index -/

/-- A fresh element holding a fresh record leaves the records of the linked
elements alone. -/
theorem entry_push {w s1 s2 : List Nat} {m : Mem} (h : Sound w s1 s2 m) (i : storeItem)
    (data : Nat → Option Nat) :
    (∀ x, Linked w s1 s2 x →
      ({ data := data, Value := upd m.Value m.elems m.items, elems := m.elems + 1,
         item := upd m.item m.items i, items := m.items + 1 } : Mem).entry x = m.entry x) ∧
    ({ data := data, Value := upd m.Value m.elems m.items, elems := m.elems + 1,
       item := upd m.item m.items i, items := m.items + 1 } : Mem).entry m.elems = i ∧
    ¬ Linked w s1 s2 m.elems := by
  refine ⟨fun x hx => ?_, by simp [Mem.entry], fun hl => ?_⟩
  · obtain ⟨a1, a2⟩ := h.alloc x hx
    have e1 : x ≠ m.elems := by omega
    have e2 : m.Value x ≠ m.items := by omega
    simp [Mem.entry, upd_apply, e1, e2]
  · have := (h.alloc _ hl).1
    omega

/-- The effect of `windowLRU.add`. -/
theorem window_add_effect {lru lru2 : windowLRU} {s1 s2 : List Nat} {m m2 : Mem}
    {i eitem : storeItem} {ev : Bool} (h : Sound lru.list s1 s2 m)
    (ha : lru.add m i = some (lru2, m2, eitem, ev)) :
    ¬ Linked lru.list s1 s2 m.elems ∧ m2.entry m.elems = i ∧
    (∀ x, Linked lru.list s1 s2 x → m2.entry x = m.entry x) ∧
    (ev = false → lru2.list = m.elems :: lru.list ∧ m2.data = upd m.data i.key (some m.elems)) ∧
    (ev = true → ∃ x, Back lru.list = some x ∧ eitem = m.entry x ∧
      lru2.list = m.elems :: lru.list.erase x ∧
      m2.data = upd (upd m.data (m.entry x).key none) i.key (some m.elems)) := by
  unfold windowLRU.add at ha
  split at ha
  · simp only [Option.some.injEq, Prod.mk.injEq] at ha
    obtain ⟨rfl, rfl, -, rfl⟩ := ha
    obtain ⟨p1, p2, p3⟩ := entry_push h i (upd m.data i.key (some m.elems))
    exact ⟨p3, p2, p1, fun _ => ⟨rfl, rfl⟩, fun hf => by simp at hf⟩
  · split at ha
    · simp at ha
    · rename_i x hx
      simp only [Option.some.injEq, Prod.mk.injEq] at ha
      obtain ⟨rfl, rfl, rfl, rfl⟩ := ha
      obtain ⟨p1, p2, p3⟩ := entry_push h i
        (upd (upd m.data (m.entry x).key none) i.key (some m.elems))
      exact ⟨p3, p2, p1, fun hf => by simp at hf, fun _ => ⟨x, hx, rfl, rfl, rfl⟩⟩

/-- The effect of `segmentedLRU.add`. -/
theorem slru_add_effect {slru slru2 : segmentedLRU} {w : List Nat} {m m2 : Mem}
    {i : storeItem} (h : Sound w slru.stageOne slru.stageTwo m)
    (ha : slru.add m i = some (slru2, m2)) :
    slru2.stageTwo = slru.stageTwo ∧
    ((¬ Linked w slru.stageOne slru.stageTwo m.elems ∧
        slru2.stageOne = m.elems :: slru.stageOne ∧
        m2.entry m.elems = { i with stage := 1 } ∧
        (∀ x, Linked w slru.stageOne slru.stageTwo x → m2.entry x = m.entry x) ∧
        m2.data = upd m.data i.key (some m.elems)) ∨
      (∃ e, Back slru.stageOne = some e ∧ slru2.stageOne = MoveToFront slru.stageOne e ∧
        m2.entry e = { i with stage := 1 } ∧
        (∀ x, Linked w slru.stageOne slru.stageTwo x → x ≠ e → m2.entry x = m.entry x) ∧
        m2.data = upd (upd m.data (m.entry e).key none) i.key (some e))) := by
  unfold segmentedLRU.add at ha
  split at ha
  · simp only [Option.some.injEq, Prod.mk.injEq] at ha
    obtain ⟨rfl, rfl⟩ := ha
    obtain ⟨p1, p2, p3⟩ := entry_push h { i with stage := 1 } (upd m.data i.key (some m.elems))
    exact ⟨rfl, Or.inl ⟨p3, rfl, p2, p1, rfl⟩⟩
  · split at ha
    · simp at ha
    · rename_i e he
      simp only [Option.some.injEq, Prod.mk.injEq] at ha
      obtain ⟨rfl, rfl⟩ := ha
      have hm := Back_mem he
      refine ⟨rfl, Or.inr ⟨e, he, rfl, ?_, fun x hx hxe => ?_, ?_⟩⟩
      · simp [Mem.entry, Mem.store, Mem.assign, Mem.delete]
      · have : m.Value x ≠ m.Value e := fun hh =>
          hxe (h.inj x e hx (Or.inr (Or.inl hm)) hh)
        simp [Mem.entry, Mem.store, Mem.assign, Mem.delete, upd_apply, this]
      · simp [Mem.entry, Mem.store, Mem.assign, Mem.delete]

/-- The effect of `segmentedLRU.get` on an element of the segmented LRU. -/
theorem slru_get_effect {slru slru2 : segmentedLRU} {w : List Nat} {m m2 : Mem}
    {v : Nat} (h : Sound w slru.stageOne slru.stageTwo m)
    (hv : v ∈ slru.stageOne ∨ v ∈ slru.stageTwo)
    (hg : slru.get m v = some (slru2, m2)) :
    (v ∈ slru.stageTwo ∧ slru2.stageOne = slru.stageOne ∧
        slru2.stageTwo = MoveToFront slru.stageTwo v ∧ m2 = m) ∨
      (v ∈ slru.stageOne ∧ ¬ Linked w slru.stageOne slru.stageTwo m.elems ∧
        slru2.stageOne = slru.stageOne.erase v ∧ slru2.stageTwo = m.elems :: slru.stageTwo ∧
        m2.entry m.elems = { m.entry v with stage := 2 } ∧
        (∀ x, Linked w slru.stageOne slru.stageTwo x → x ≠ v → m2.entry x = m.entry x) ∧
        m2.data = upd m.data (m.entry v).key (some m.elems)) ∨
      (v ∈ slru.stageOne ∧ ∃ back, Back slru.stageTwo = some back ∧
        slru2.stageOne = MoveToFront slru.stageOne v ∧
        slru2.stageTwo = MoveToFront slru.stageTwo back ∧
        m2.entry v = { m.entry back with stage := 1 } ∧
        m2.entry back = { m.entry v with stage := 2 } ∧
        (∀ x, Linked w slru.stageOne slru.stageTwo x → x ≠ v → x ≠ back →
          m2.entry x = m.entry x) ∧
        m2.data = upd (upd m.data (m.entry back).key (some v)) (m.entry v).key (some back)) := by
  simp only [segmentedLRU.get] at hg
  by_cases hst : (m.item (m.Value v)).stage = STAGE_TWO
  · rw [if_pos hst] at hg
    simp only [Option.some.injEq, Prod.mk.injEq] at hg
    obtain ⟨rfl, rfl⟩ := hg
    refine Or.inl ⟨?_, rfl, rfl, rfl⟩
    rcases hv with hv | hv
    · have := h.stage1 v hv
      simp only [Mem.entry, STAGE_TWO] at this hst
      omega
    · exact hv
  · rw [if_neg hst] at hg
    have hv1 : v ∈ slru.stageOne := by
      rcases hv with hv | hv
      · exact hv
      · exact absurd (h.stage2 v hv) hst
    have hlv : Linked w slru.stageOne slru.stageTwo v := Or.inr (Or.inl hv1)
    by_cases hlen : (slru.stageTwo.length : Int) < slru.stageTowCap
    · rw [if_pos hlen] at hg
      simp only [Option.some.injEq, Prod.mk.injEq] at hg
      obtain ⟨rfl, rfl⟩ := hg
      have hfresh : ¬ Linked w slru.stageOne slru.stageTwo m.elems := fun hl => by
        have := (h.alloc _ hl).1
        omega
      refine Or.inr (Or.inl ⟨hv1, hfresh, rfl, rfl, ?_, fun x hx hxv => ?_, ?_⟩)
      · simp [Mem.entry, Mem.store, Mem.assign, PushFront, STAGE_TWO]
      · have e1 : x ≠ m.elems := by
          have := (h.alloc x hx).1
          omega
        have e2 : m.Value x ≠ m.Value v := fun hh => hxv (h.inj x v hx hlv hh)
        simp [Mem.entry, Mem.store, Mem.assign, PushFront, upd_apply, e1, e2]
      · simp [Mem.entry, Mem.store, Mem.assign, PushFront]
    · rw [if_neg hlen] at hg
      split at hg
      · simp at hg
      · rename_i back hb
        simp only [Option.some.injEq, Prod.mk.injEq] at hg
        obtain ⟨rfl, rfl⟩ := hg
        have hbm := Back_mem hb
        have hlb : Linked w slru.stageOne slru.stageTwo back := Or.inr (Or.inr hbm)
        have hpp : m.Value back ≠ m.Value v := fun hh =>
          h.ne_of_mem.2.2 hv1 hbm (h.inj back v hlb hlv hh).symm
        have hm := swap_mem_eq m v back hpp
        simp only at hm
        rw [hm]
        refine Or.inr (Or.inr ⟨hv1, back, hb, rfl, rfl, ?_, ?_, fun x hx hxv hxb => ?_, rfl⟩)
        · simp [Mem.entry, STAGE_ONE]
        · simp [Mem.entry, upd_apply, hpp, STAGE_TWO]
        · have e1 : m.Value x ≠ m.Value v := fun hh => hxv (h.inj x v hx hlv hh)
          have e2 : m.Value x ≠ m.Value back := fun hh => hxb (h.inj x back hx hlb hh)
          simp [Mem.entry, upd_apply, e1, e2]

/-! ## Keys of the linked records along runs -/

theorem Cache.set_keys {X : Env} {c c2 : Cache} {key : Key} {value : Value} {b : Bool}
    {P : Nat → Prop} (h : c.WF) (hp : c.KeysIn P)
    (hs : Cache.set X c key value = .ok (c2, b))
    (hk : ∀ kh ch, keyToHash X key = some (kh, ch) → P kh) : c2.KeysIn P := by
  obtain ⟨hS, hZ⟩ := h
  obtain ⟨kh, ch, lru, mem, eitem, ev, hkk, ha, hl, -, -, hcase⟩ := Cache.set_shape hs
  have hS1 := window_add_sound hS rfl ha
  obtain ⟨w1, w2, w3, w4, w5⟩ := window_add_effect hS ha
  have hmid : ∀ e, Linked lru.list c.slru.stageOne c.slru.stageTwo e → P (mem.entry e).key := by
    intro e he
    have hcases : e = c.mem.elems ∨ Linked c.lru.list c.slru.stageOne c.slru.stageTwo e := by
      cases ev with
      | false =>
        rw [(w4 rfl).1] at he
        rcases he with he | he | he
        · rcases List.mem_cons.mp he with he | he
          · exact Or.inl he
          · exact Or.inr (Or.inl he)
        · exact Or.inr (Or.inr (Or.inl he))
        · exact Or.inr (Or.inr (Or.inr he))
      | true =>
        obtain ⟨x, -, -, hx, -⟩ := w5 rfl
        rw [hx] at he
        rcases he with he | he | he
        · rcases List.mem_cons.mp he with he | he
          · exact Or.inl he
          · exact Or.inr (Or.inl (List.mem_of_mem_erase he))
        · exact Or.inr (Or.inr (Or.inl he))
        · exact Or.inr (Or.inr (Or.inr he))
    rcases hcases with rfl | hl2
    · rw [w2]; exact hk kh ch hkk
    · rw [w3 e hl2]; exact hp e hl2
  rcases hcase with ⟨e1, e2⟩ | ⟨hev, hadd⟩
  · intro e he
    rw [hl, e1] at he
    rw [e2]
    exact hmid e he
  · obtain ⟨x, hx, hxe, -, -⟩ := w5 hev
    have hpe : P eitem.key := by
      rw [hxe]; exact hp x (Or.inl (Back_mem hx))
    obtain ⟨t1, t2⟩ := slru_add_effect hS1 hadd
    intro e he
    rw [hl] at he
    rcases t2 with ⟨-, u2, u3, u4, -⟩ | ⟨y, hy, u2, u3, u4, -⟩
    · rw [u2, t1] at he
      have hcases : e = mem.elems ∨ Linked lru.list c.slru.stageOne c.slru.stageTwo e := by
        rcases he with he | he | he
        · exact Or.inr (Or.inl he)
        · rcases List.mem_cons.mp he with he | he
          · exact Or.inl he
          · exact Or.inr (Or.inr (Or.inl he))
        · exact Or.inr (Or.inr (Or.inr he))
      rcases hcases with rfl | hl2
      · rw [u3]; exact hpe
      · rw [u4 e hl2]; exact hmid e hl2
    · rw [u2, t1] at he
      have hl2 : Linked lru.list c.slru.stageOne c.slru.stageTwo e := by
        rcases he with he | he | he
        · exact Or.inl he
        · exact Or.inr (Or.inl ((mem_MoveToFront _ _ _).mp he))
        · exact Or.inr (Or.inr he)
      by_cases hey : e = y
      · subst hey; rw [u3]; exact hpe
      · rw [u4 e hl2 hey]; exact hmid e hl2

theorem Cache.get_keys {X : Env} {c c2 : Cache} {key : Key} {v : Value} {b : Bool}
    {P : Nat → Prop} (h : c.WF) (hp : c.KeysIn P)
    (hg : Cache.get X c key = .ok (c2, v, b)) : c2.KeysIn P := by
  obtain ⟨hS, hZ⟩ := h
  obtain ⟨kh, ch, -, -, hcase⟩ := Cache.get_shape hg
  rcases hcase with ⟨-, -, e1, e2, e3, -⟩ | ⟨val, hd, -, -, -, hcase⟩
  · intro e he
    rw [e1, e2] at he
    rw [e3]
    exact hp e he
  · obtain ⟨hlink, -⟩ := hS.index kh val hd
    rcases hcase with ⟨-, e1, e2, e3⟩ | ⟨hst, e1, hgg⟩
    · intro e he
      rw [e1, e2] at he
      rw [e3]
      refine hp e ?_
      rcases he with he | he | he
      · exact Or.inl ((mem_MoveToFront _ _ _).mp he)
      · exact Or.inr (Or.inl he)
      · exact Or.inr (Or.inr he)
    · have hv : val ∈ c.slru.stageOne ∨ val ∈ c.slru.stageTwo := by
        rcases hlink with hw | hw
        · exact absurd (hS.stage0 val hw) hst
        · exact hw
      have hlv : Linked c.lru.list c.slru.stageOne c.slru.stageTwo val := Or.inr hv
      intro e he
      rw [e1] at he
      rcases slru_get_effect hS hv hgg with ⟨-, u1, u2, u3⟩ | ⟨hv1, -, u1, u2, u3, u4, -⟩ |
          ⟨hv1, back, hb, u1, u2, u3, u4, u5, -⟩
      · rw [u1, u2] at he
        rw [u3]
        refine hp e ?_
        rcases he with he | he | he
        · exact Or.inl he
        · exact Or.inr (Or.inl he)
        · exact Or.inr (Or.inr ((mem_MoveToFront _ _ _).mp he))
      · rw [u1, u2] at he
        rcases he with he | he | he
        · have hne : e ≠ val := hS.ne_of_mem.1 he hv1
          rw [u4 e (Or.inl he) hne]; exact hp e (Or.inl he)
        · have hne : e ≠ val := fun hh => by
            subst hh
            exact ((List.Nodup.mem_erase_iff hS.nodup1).mp he).1 rfl
          have hm := List.mem_of_mem_erase he
          rw [u4 e (Or.inr (Or.inl hm)) hne]; exact hp e (Or.inr (Or.inl hm))
        · rcases List.mem_cons.mp he with rfl | he
          · rw [u3]; exact hp val hlv
          · have hne : e ≠ val := fun hh => hS.ne_of_mem.2.2 hv1 he hh.symm
            rw [u4 e (Or.inr (Or.inr he)) hne]; exact hp e (Or.inr (Or.inr he))
      · have hlb : Linked c.lru.list c.slru.stageOne c.slru.stageTwo back :=
          Or.inr (Or.inr (Back_mem hb))
        rw [u1, u2] at he
        have hl2 : Linked c.lru.list c.slru.stageOne c.slru.stageTwo e := by
          rcases he with he | he | he
          · exact Or.inl he
          · exact Or.inr (Or.inl ((mem_MoveToFront _ _ _).mp he))
          · exact Or.inr (Or.inr ((mem_MoveToFront _ _ _).mp he))
        by_cases h1 : e = val
        · subst h1; rw [u3]; exact hp back hlb
        · by_cases h2 : e = back
          · subst h2; rw [u4]; exact hp val hlv
          · rw [u5 e hl2 h1 h2]; exact hp e hl2

theorem Cache.del_keys {X : Env} {c c2 : Cache} {key : Key} {r : Nat} {b : Bool}
    {P : Nat → Prop} (hp : c.KeysIn P)
    (hd : Cache.del X c key = .ok (c2, r, b)) : c2.KeysIn P := by
  obtain ⟨kh, ch, -, e1, e2, -, hcase⟩ := Cache.del_shape hd
  rcases hcase with ⟨-, rfl⟩ | ⟨-, -, e3⟩
  · exact hp
  · intro e he
    rw [e1, e2] at he
    rw [e3]
    exact hp e he

theorem step_keys {X : Env} {c c2 : Cache} {op : Op} {h : Nat} (hwf : c.WF)
    (hp : c.KeysIn (fun k => k ≠ h)) (hs : step X c op = .ok c2)
    (hno : ¬ op.setsHash X h) : c2.KeysIn (fun k => k ≠ h) := by
  cases op with
  | Set key value =>
    simp only [step] at hs
    cases hr : Cache.set X c key value with
    | error e => simp [hr, Except.map] at hs
    | ok r =>
      simp only [hr, Except.map, Except.ok.injEq] at hs
      subst hs
      refine Cache.set_keys hwf hp hr (fun kh ch hk hkh => hno ?_)
      subst hkh
      exact ⟨ch, hk⟩
  | Get key =>
    simp only [step] at hs
    cases hr : Cache.get X c key with
    | error e => simp [hr, Except.map] at hs
    | ok r =>
      simp only [hr, Except.map, Except.ok.injEq] at hs
      subst hs
      exact Cache.get_keys hwf hp hr
  | Del key =>
    simp only [step] at hs
    cases hr : Cache.del X c key with
    | error e => simp [hr, Except.map] at hs
    | ok r =>
      simp only [hr, Except.map, Except.ok.injEq] at hs
      subst hs
      exact Cache.del_keys hp hr

theorem run_keys {X : Env} {h : Nat} {ops : List Op} : ∀ {c c2 : Cache}, c.WF →
    c.KeysIn (fun k => k ≠ h) → run X c ops = .ok c2 → (∀ op ∈ ops, ¬ op.setsHash X h) →
    c2.KeysIn (fun k => k ≠ h) := by
  induction ops with
  | nil =>
    intro c c2 _ hp hr _
    simp only [run, Except.ok.injEq] at hr
    subst hr
    exact hp
  | cons op ops ih =>
    intro c c2 hwf hp hr hno
    obtain ⟨c1, hs, hr1⟩ := run_cons_ok hr
    exact ih (step_wf hwf hs).1 (step_keys hwf hp hs (hno op (List.mem_cons_self _ _))) hr1
      (fun o ho => hno o (List.mem_cons_of_mem _ ho))

/-- C7 (Get on a never-inserted key): take a sequence of calls on `NewCache(n)` in
which no `Set` uses a key with primary hash `h`.  After every completed prefix of
the sequence the index has no entry for `h`, no element of the three lists holds
a record with key `h`, and a `Get` for a key with primary hash `h` completes with
`(nil, false)`, leaving the index, the records and the lists as they are. -/
theorem C7_get_never_inserted (X : Env) (n : Int) (ops pre : List Op) (h : Nat) (c : Cache)
    (hno : ∀ op ∈ ops, ¬ op.setsHash X h) (hpre : pre <+: ops)
    (hr : run X (NewCache X n) pre = .ok c) :
    c.mem.data h = none ∧
    (∀ e, Linked c.lru.list c.slru.stageOne c.slru.stageTwo e → (c.mem.entry e).key ≠ h) ∧
    ∀ key ch, keyToHash X key = some (h, ch) →
      ∃ c2, Cache.get X c key = .ok (c2, none, false) ∧ c2.mem = c.mem ∧ c2.lru = c.lru ∧
        c2.slru = c.slru := by
  have hwf := (run_wf (NewCache_wf X n) hr).1
  have h0 : (NewCache X n).KeysIn (fun k => k ≠ h) := by
    intro e he
    simp [Linked, NewCache, newWindowLRU, newSLRU] at he
  have hkeys := run_keys (NewCache_wf X n) h0 hr (fun o ho => hno o (hpre.subset ho))
  have hdata : c.mem.data h = none := by
    cases hd : c.mem.data h with
    | none => rfl
    | some e =>
      obtain ⟨hl, hk⟩ := hwf.1.index h e hd
      exact absurd hk (hkeys e hl)
  refine ⟨hdata, hkeys, fun key ch hk => ?_⟩
  obtain ⟨f1, f2, f3, -⟩ := c.tick_frame
  refine ⟨c.tick.miss h, ?_, f3, f1, f2⟩
  simp only [Cache.get, hk, f3, hdata]

theorem C7_get_never_inserted_witness :
    (∀ op ∈ [Op.Set (.int 1) (some 10), Op.Get (.int 5), Op.Get (.int 1), Op.Del (.int 5)],
      ¬ op.setsHash Env.sample 5) ∧
    (stateAfter Env.sample 100
      [Op.Set (.int 1) (some 10), Op.Get (.int 5), Op.Get (.int 1)]).mem.data 5 = none ∧
    (∀ e, Linked
        (stateAfter Env.sample 100
          [Op.Set (.int 1) (some 10), Op.Get (.int 5), Op.Get (.int 1)]).lru.list
        (stateAfter Env.sample 100
          [Op.Set (.int 1) (some 10), Op.Get (.int 5), Op.Get (.int 1)]).slru.stageOne
        (stateAfter Env.sample 100
          [Op.Set (.int 1) (some 10), Op.Get (.int 5), Op.Get (.int 1)]).slru.stageTwo e →
      ((stateAfter Env.sample 100
          [Op.Set (.int 1) (some 10), Op.Get (.int 5), Op.Get (.int 1)]).mem.entry e).key ≠ 5) ∧
    ∀ key ch, keyToHash Env.sample key = some (5, ch) →
      ∃ c2, Cache.get Env.sample (stateAfter Env.sample 100
          [Op.Set (.int 1) (some 10), Op.Get (.int 5), Op.Get (.int 1)]) key
            = .ok (c2, none, false) ∧
        c2.mem = (stateAfter Env.sample 100
          [Op.Set (.int 1) (some 10), Op.Get (.int 5), Op.Get (.int 1)]).mem ∧
        c2.lru = (stateAfter Env.sample 100
          [Op.Set (.int 1) (some 10), Op.Get (.int 5), Op.Get (.int 1)]).lru ∧
        c2.slru = (stateAfter Env.sample 100
          [Op.Set (.int 1) (some 10), Op.Get (.int 5), Op.Get (.int 1)]).slru :=
  have hno : ∀ op ∈ [Op.Set (.int 1) (some 10), Op.Get (.int 5), Op.Get (.int 1),
      Op.Del (.int 5)], ¬ op.setsHash Env.sample 5 := by
    intro op hop
    simp only [List.mem_cons, List.mem_singleton, List.not_mem_nil, or_false] at hop
    rcases hop with rfl | rfl | rfl | rfl
    · rintro ⟨ch, hk⟩
      simp [keyToHash, toUint64] at hk
    · exact id
    · exact id
    · exact id
  ⟨hno, C7_get_never_inserted Env.sample 100
    [Op.Set (.int 1) (some 10), Op.Get (.int 5), Op.Get (.int 1), Op.Del (.int 5)]
    [Op.Set (.int 1) (some 10), Op.Get (.int 5), Op.Get (.int 1)] 5 _ hno
    ⟨[Op.Del (.int 5)], rfl⟩ rfl⟩

/-- C8 (promotion monotonicity): in a state reached on `NewCache(n)` whose protected
capacity is at least 1, let the index map the primary hash of `key` to the element
`e`, whose record has the conflict hash of `key`.  Then `Get(key)` completes as a
hit with the value of that record, and afterwards the index maps the hash to an
element `e2` holding the same key, conflict hash and value in a tier that is not
lower: a window record stays in the window, a probation record ends in the
protected list, a protected record stays protected.  Every other linked element
keeps its list and its record, except the least-recently-used protected element
when the protected list is full: its record is the one swapped down into `e`,
tagged probation. -/
theorem C8_promotion_monotone (X : Env) (n : Int) (ops : List Op) (c : Cache) (key : Key)
    (kh ch e : Nat) (hr : run X (NewCache X n) ops = .ok c)
    (hcap : 1 ≤ (NewCache X n).slru.stageTowCap)
    (hk : keyToHash X key = some (kh, ch)) (hd : c.mem.data kh = some e)
    (hc : (c.mem.entry e).conflict = ch) :
    ∃ c2 e2, Cache.get X c key = .ok (c2, (c.mem.entry e).value, true) ∧
      c2.mem.data kh = some e2 ∧
      (c2.mem.entry e2).key = kh ∧ (c2.mem.entry e2).conflict = (c.mem.entry e).conflict ∧
      (c2.mem.entry e2).value = (c.mem.entry e).value ∧
      (c.mem.entry e).stage ≤ (c2.mem.entry e2).stage ∧
      ((c.mem.entry e).stage = 0 ∧ e ∈ c.lru.list ∧
          (c2.mem.entry e2).stage = 0 ∧ e2 ∈ c2.lru.list ∨
        (c.mem.entry e).stage = 1 ∧ e ∈ c.slru.stageOne ∧
          (c2.mem.entry e2).stage = 2 ∧ e2 ∈ c2.slru.stageTwo ∨
        (c.mem.entry e).stage = 2 ∧ e ∈ c.slru.stageTwo ∧
          (c2.mem.entry e2).stage = 2 ∧ e2 ∈ c2.slru.stageTwo) ∧
      ∀ x, Linked c.lru.list c.slru.stageOne c.slru.stageTwo x → x ≠ e →
        (c2.mem.entry x = c.mem.entry x ∧ (x ∈ c.lru.list → x ∈ c2.lru.list) ∧
          (x ∈ c.slru.stageOne → x ∈ c2.slru.stageOne) ∧
          (x ∈ c.slru.stageTwo → x ∈ c2.slru.stageTwo)) ∨
        (Back c.slru.stageTwo = some x ∧ (c.mem.entry e).stage = 1 ∧
          (c.slru.stageTwo.length : Int) = c.slru.stageTowCap ∧
          e ∈ c2.slru.stageOne ∧ c2.mem.entry e = { c.mem.entry x with stage := 1 }) := by
  obtain ⟨hwf, -, -, a3⟩ := run_wf (NewCache_wf X n) hr
  have hcap2 : 1 ≤ c.slru.stageTowCap := by rw [a3]; exact hcap
  obtain ⟨⟨c2, v, b⟩, hg⟩ := @Cache.get_ok X c key hcap2 (by simp [Key.supported, hk])
  obtain ⟨hS, hZ⟩ := hwf
  obtain ⟨hle, hkey⟩ := hS.index kh e hd
  obtain ⟨kh2, ch2, hk2, -, hcase⟩ := Cache.get_shape hg
  rw [hk] at hk2
  simp only [Option.some.injEq, Prod.mk.injEq] at hk2
  obtain ⟨rfl, rfl⟩ := hk2
  rcases hcase with ⟨-, -, -, -, -, hmiss⟩ | ⟨val, hd2, -, hb, hv, hcase⟩
  · rcases hmiss with hnone | ⟨val, hd2, hne⟩
    · rw [hd] at hnone; simp at hnone
    · rw [hd] at hd2
      simp only [Option.some.injEq] at hd2
      subst hd2
      exact absurd hc hne
  · rw [hd] at hd2
    simp only [Option.some.injEq] at hd2
    subst hd2 hb hv
    rcases hcase with ⟨hst, e1, e2, e3⟩ | ⟨hst, e1, hgg⟩
    · have hew : e ∈ c.lru.list := by
        rcases hle with hw | hw | hw
        · exact hw
        · have := hS.stage1 e hw; omega
        · have := hS.stage2 e hw; omega
      refine ⟨c2, e, hg, by rw [e3]; exact hd, by rw [e3]; exact hkey, by rw [e3], by rw [e3],
        by rw [e3], Or.inl ⟨hst, hew, by rw [e3]; exact hst, ?_⟩, fun x hx hxe => Or.inl ?_⟩
      · rw [e1]; exact (mem_MoveToFront _ _ _).mpr hew
      · refine ⟨by rw [e3], fun hm => ?_, fun hm => by rw [e2]; exact hm,
          fun hm => by rw [e2]; exact hm⟩
        rw [e1]; exact (mem_MoveToFront _ _ _).mpr hm
    · have hv : e ∈ c.slru.stageOne ∨ e ∈ c.slru.stageTwo := by
        rcases hle with hw | hw
        · exact absurd (hS.stage0 e hw) hst
        · exact hw
      rcases slru_get_effect hS hv hgg with ⟨hv2, u1, u2, u3⟩ | ⟨hv1, -, u1, u2, u3, u4, u5⟩ |
          ⟨hv1, back, hbk, u1, u2, u3, u4, u5, u6⟩
      · have hs2 := hS.stage2 e hv2
        refine ⟨c2, e, hg, by rw [u3]; exact hd, by rw [u3]; exact hkey, by rw [u3],
          by rw [u3], by rw [u3], Or.inr (Or.inr ⟨hs2, hv2, by rw [u3]; exact hs2, ?_⟩),
          fun x hx hxe => Or.inl ?_⟩
        · rw [u2]; exact (mem_MoveToFront _ _ _).mpr hv2
        · refine ⟨by rw [u3], fun hm => by rw [e1]; exact hm, fun hm => by rw [u1]; exact hm,
            fun hm => ?_⟩
          rw [u2]; exact (mem_MoveToFront _ _ _).mpr hm
      · have hs1 := hS.stage1 e hv1
        refine ⟨c2, c.mem.elems, hg, ?_, ?_, ?_, ?_, ?_,
          Or.inr (Or.inl ⟨hs1, hv1, ?_, ?_⟩), fun x hx hxe => Or.inl ?_⟩
        · rw [u5, hkey]; simp
        · rw [u3]; exact hkey
        · rw [u3]
        · rw [u3]
        · rw [u3, hs1]; simp
        · rw [u3]
        · rw [u2]; exact List.mem_cons_self _ _
        · refine ⟨u4 x hx hxe, fun hm => by rw [e1]; exact hm, fun hm => ?_, fun hm => ?_⟩
          · rw [u1]; exact (List.mem_erase_of_ne hxe).mpr hm
          · rw [u2]; exact List.mem_cons_of_mem _ hm
      · have hs1 := hS.stage1 e hv1
        have hbm := Back_mem hbk
        have hfull : (c.slru.stageTwo.length : Int) = c.slru.stageTowCap := by
          have hlt : ¬ (c.slru.stageTwo.length : Int) < c.slru.stageTowCap := by
            intro hlt
            simp only [segmentedLRU.get] at hgg
            have hne2 : ¬ (c.mem.item (c.mem.Value e)).stage = STAGE_TWO := by
              simp only [Mem.entry, STAGE_TWO] at hs1 ⊢
              omega
            rw [if_neg hne2, if_pos hlt] at hgg
            simp only [Option.some.injEq, Prod.mk.injEq] at hgg
            have hl := congrArg segmentedLRU.stageTwo hgg.1
            simp only [PushFront] at hl
            rw [u2] at hl
            have := congrArg List.length hl
            simp [length_MoveToFront] at this
          have := hZ.len2
          omega
        refine ⟨c2, back, hg, ?_, ?_, ?_, ?_, ?_,
          Or.inr (Or.inl ⟨hs1, hv1, ?_, ?_⟩), fun x hx hxe => ?_⟩
        · rw [u6, hkey]; simp
        · rw [u4]; exact hkey
        · rw [u4]
        · rw [u4]
        · rw [u4, hs1]; simp
        · rw [u4]
        · rw [u2]; exact (mem_MoveToFront _ _ _).mpr hbm
        · by_cases hxb : x = back
          · subst hxb
            refine Or.inr ⟨hbk, hs1, hfull, ?_, u3⟩
            rw [u1]; exact (mem_MoveToFront _ _ _).mpr hv1
          · refine Or.inl ⟨u5 x hx hxe hxb, fun hm => by rw [e1]; exact hm, fun hm => ?_,
              fun hm => ?_⟩
            · rw [u1]; exact (mem_MoveToFront _ _ _).mpr hm
            · rw [u2]; exact (mem_MoveToFront _ _ _).mpr hm

theorem C8_promotion_monotone_witness :
    ∃ c2 e2, Cache.get Env.sample twoState (.int 1) = .ok (c2, (twoState.mem.entry 2).value, true) ∧
      c2.mem.data 1 = some e2 ∧
      (c2.mem.entry e2).key = 1 ∧ (c2.mem.entry e2).conflict = (twoState.mem.entry 2).conflict ∧
      (c2.mem.entry e2).value = (twoState.mem.entry 2).value ∧
      (twoState.mem.entry 2).stage ≤ (c2.mem.entry e2).stage ∧
      ((twoState.mem.entry 2).stage = 0 ∧ 2 ∈ twoState.lru.list ∧
          (c2.mem.entry e2).stage = 0 ∧ e2 ∈ c2.lru.list ∨
        (twoState.mem.entry 2).stage = 1 ∧ 2 ∈ twoState.slru.stageOne ∧
          (c2.mem.entry e2).stage = 2 ∧ e2 ∈ c2.slru.stageTwo ∨
        (twoState.mem.entry 2).stage = 2 ∧ 2 ∈ twoState.slru.stageTwo ∧
          (c2.mem.entry e2).stage = 2 ∧ e2 ∈ c2.slru.stageTwo) ∧
      ∀ x, Linked twoState.lru.list twoState.slru.stageOne twoState.slru.stageTwo x → x ≠ 2 →
        (c2.mem.entry x = twoState.mem.entry x ∧ (x ∈ twoState.lru.list → x ∈ c2.lru.list) ∧
          (x ∈ twoState.slru.stageOne → x ∈ c2.slru.stageOne) ∧
          (x ∈ twoState.slru.stageTwo → x ∈ c2.slru.stageTwo)) ∨
        (Back twoState.slru.stageTwo = some x ∧ (twoState.mem.entry 2).stage = 1 ∧
          (twoState.slru.stageTwo.length : Int) = twoState.slru.stageTowCap ∧
          2 ∈ c2.slru.stageOne ∧ c2.mem.entry 2 = { twoState.mem.entry x with stage := 1 }) :=
  C8_promotion_monotone Env.sample 3 twoSets twoState (.int 1) 1 0 2 rfl (by decide) rfl rfl rfl

/-! ## Full index/list consistency along runs without `Del` and without repeated keys -/

theorem FullIdx.key_inj {w s1 s2 : List Nat} {m : Mem} (h : FullIdx w s1 s2 m) {a b : Nat}
    (ha : Linked w s1 s2 a) (hb : Linked w s1 s2 b)
    (hk : (m.entry a).key = (m.entry b).key) : a = b := by
  have h1 := h a ha
  have h2 := h b hb
  rw [hk, h2] at h1
  exact (Option.some.inj h1).symm

/-- Dropping the element `x` together with the index entry of its key. -/
theorem full_of_evict {w s1 s2 w2 t1 t2 : List Nat} {m m2 : Mem} {x : Nat}
    (h : FullIdx w s1 s2 m) (hx : Linked w s1 s2 x)
    (hsub : ∀ e, Linked w2 t1 t2 e → Linked w s1 s2 e ∧ e ≠ x)
    (hent : ∀ e, Linked w s1 s2 e → m2.entry e = m.entry e)
    (hdata : m2.data = upd m.data (m.entry x).key none) : FullIdx w2 t1 t2 m2 := by
  intro e he
  obtain ⟨hl, hne⟩ := hsub e he
  have hk : (m.entry e).key ≠ (m.entry x).key := fun hh => hne (h.key_inj hl hx hh)
  rw [hent e hl, hdata, upd_ne _ _ hk]
  exact h e hl

/-- Linking the element `e0` with a record whose key `k` no linked record has. -/
theorem full_of_push {w s1 s2 w2 t1 t2 : List Nat} {m m2 : Mem} {e0 k : Nat}
    (h : FullIdx w s1 s2 m) (hfresh : ∀ e, Linked w s1 s2 e → (m.entry e).key ≠ k)
    (hsub : ∀ e, Linked w2 t1 t2 e → e = e0 ∨ Linked w s1 s2 e)
    (hent : ∀ e, Linked w s1 s2 e → e ≠ e0 → m2.entry e = m.entry e)
    (hkey : (m2.entry e0).key = k)
    (hdata : m2.data = upd m.data k (some e0)) : FullIdx w2 t1 t2 m2 := by
  intro e he
  by_cases he0 : e = e0
  · subst he0
    rw [hkey, hdata, upd_same]
  · rcases hsub e he with hh | hl
    · exact absurd hh he0
    · rw [hent e hl he0, hdata, upd_ne _ _ (hfresh e hl)]
      exact h e hl

theorem linked_erase {w s1 s2 : List Nat} {x e : Nat} (hw : w.Nodup)
    (he : Linked (w.erase x) s1 s2 e) (hd : ∀ a, a ∈ s1 ∨ a ∈ s2 → a ≠ x) :
    Linked w s1 s2 e ∧ e ≠ x := by
  rcases he with he | he | he
  · exact ⟨Or.inl (List.mem_of_mem_erase he),
      fun hh => ((List.Nodup.mem_erase_iff hw).mp he).1 hh⟩
  · exact ⟨Or.inr (Or.inl he), hd e (Or.inl he)⟩
  · exact ⟨Or.inr (Or.inr he), hd e (Or.inr he)⟩

/-- The window `add` of a key that no linked record has keeps the index full, and
the key of an evicted entry is then the key of no linked record. -/
theorem window_add_full {lru lru2 : windowLRU} {s1 s2 : List Nat} {m m2 : Mem}
    {i eitem : storeItem} {ev : Bool} (h : Sound lru.list s1 s2 m)
    (hf : FullIdx lru.list s1 s2 m)
    (hfresh : ∀ e, Linked lru.list s1 s2 e → (m.entry e).key ≠ i.key)
    (ha : lru.add m i = some (lru2, m2, eitem, ev)) :
    FullIdx lru2.list s1 s2 m2 ∧
      (ev = true → ∀ e, Linked lru2.list s1 s2 e → (m2.entry e).key ≠ eitem.key) := by
  obtain ⟨w1, w2, w3, w4, w5⟩ := window_add_effect h ha
  cases ev with
  | false =>
    obtain ⟨hl, hd⟩ := w4 rfl
    refine ⟨?_, fun hf => by simp at hf⟩
    refine full_of_push hf hfresh (fun e he => ?_) (fun e he _ => w3 e he) (by rw [w2]) hd
    rw [hl] at he
    rcases he with he | he | he
    · rcases List.mem_cons.mp he with he | he
      · exact Or.inl he
      · exact Or.inr (Or.inl he)
    · exact Or.inr (Or.inr (Or.inl he))
    · exact Or.inr (Or.inr (Or.inr he))
  | true =>
    obtain ⟨x, hx, hxe, hl, hd⟩ := w5 rfl
    have hxm := Back_mem hx
    have hdis : ∀ a, a ∈ s1 ∨ a ∈ s2 → a ≠ x := fun a ha haa => by
      subst haa
      exact h.not_mem_window ha hxm
    have hA : FullIdx (lru.list.erase x) s1 s2 (m.delete (m.entry x).key) :=
      full_of_evict hf (Or.inl hxm) (fun e he => linked_erase h.nodupW he hdis)
        (fun e _ => rfl) rfl
    have hsub : ∀ e, Linked lru2.list s1 s2 e → e = m.elems ∨ Linked (lru.list.erase x) s1 s2 e := by
      intro e he
      rw [hl] at he
      rcases he with he | he | he
      · rcases List.mem_cons.mp he with he | he
        · exact Or.inl he
        · exact Or.inr (Or.inl he)
      · exact Or.inr (Or.inr (Or.inl he))
      · exact Or.inr (Or.inr (Or.inr he))
    refine ⟨?_, fun _ e he => ?_⟩
    · refine full_of_push hA (fun e he => ?_) hsub (fun e he _ => ?_) (by rw [w2]) hd
      · exact hfresh e (linked_erase h.nodupW he hdis).1
      · exact w3 e (linked_erase h.nodupW he hdis).1
    · rw [hxe]
      rcases hsub e he with rfl | hle
      · rw [w2]
        exact fun hh => hfresh x (Or.inl hxm) hh.symm
      · obtain ⟨hl2, hne⟩ := linked_erase h.nodupW hle hdis
        rw [w3 e hl2]
        exact fun hh => hne (hf.key_inj hl2 (Or.inl hxm) hh)

/-- `segmentedLRU.add` of an entry whose key no linked record has keeps the index
full. -/
theorem slru_add_full_idx {slru slru2 : segmentedLRU} {w : List Nat} {m m2 : Mem}
    {i : storeItem} (h : Sound w slru.stageOne slru.stageTwo m)
    (hf : FullIdx w slru.stageOne slru.stageTwo m)
    (hfresh : ∀ e, Linked w slru.stageOne slru.stageTwo e → (m.entry e).key ≠ i.key)
    (ha : slru.add m i = some (slru2, m2)) :
    FullIdx w slru2.stageOne slru2.stageTwo m2 := by
  obtain ⟨t1, t2⟩ := slru_add_effect h ha
  rcases t2 with ⟨-, u2, u3, u4, u5⟩ | ⟨y, hy, u2, u3, u4, u5⟩
  · refine full_of_push hf hfresh (fun e he => ?_) (fun e he _ => u4 e he) (by rw [u3]) u5
    rw [u2, t1] at he
    rcases he with he | he | he
    · exact Or.inr (Or.inl he)
    · rcases List.mem_cons.mp he with he | he
      · exact Or.inl he
      · exact Or.inr (Or.inr (Or.inl he))
    · exact Or.inr (Or.inr (Or.inr he))
  · have hym := Back_mem hy
    have hly : Linked w slru.stageOne slru.stageTwo y := Or.inr (Or.inl hym)
    have hsubA : ∀ e, Linked w (slru.stageOne.erase y) slru.stageTwo e →
        Linked w slru.stageOne slru.stageTwo e ∧ e ≠ y := by
      intro e he
      rcases he with he | he | he
      · exact ⟨Or.inl he, fun hh => h.not_mem_window (Or.inl hym) (hh ▸ he)⟩
      · exact ⟨Or.inr (Or.inl (List.mem_of_mem_erase he)),
          fun hh => ((List.Nodup.mem_erase_iff h.nodup1).mp he).1 hh⟩
      · exact ⟨Or.inr (Or.inr he), fun hh => h.ne_of_mem.2.2 hym he hh.symm⟩
    have hA : FullIdx w (slru.stageOne.erase y) slru.stageTwo (m.delete (m.entry y).key) :=
      full_of_evict hf hly hsubA (fun e _ => rfl) rfl
    refine full_of_push hA (fun e he => hfresh e (hsubA e he).1) (fun e he => ?_)
      (fun e he hne => u4 e (hsubA e he).1 hne) (by rw [u3]) u5
    rw [u2, t1] at he
    by_cases hey : e = y
    · exact Or.inl hey
    · rcases he with he | he | he
      · exact Or.inr (Or.inl he)
      · exact Or.inr (Or.inr (Or.inl
          ((List.mem_erase_of_ne hey).mpr ((mem_MoveToFront _ _ _).mp he))))
      · exact Or.inr (Or.inr (Or.inr he))
/-- `segmentedLRU.get` keeps the index full. -/
theorem slru_get_full_idx {slru slru2 : segmentedLRU} {w : List Nat} {m m2 : Mem}
    {v : Nat} (h : Sound w slru.stageOne slru.stageTwo m)
    (hf : FullIdx w slru.stageOne slru.stageTwo m)
    (hv : v ∈ slru.stageOne ∨ v ∈ slru.stageTwo)
    (hg : slru.get m v = some (slru2, m2)) :
    FullIdx w slru2.stageOne slru2.stageTwo m2 := by
  rcases slru_get_effect h hv hg with ⟨-, u1, u2, u3⟩ | ⟨hv1, -, u1, u2, u3, u4, u5⟩ |
      ⟨hv1, back, hbk, u1, u2, u3, u4, u5, u6⟩
  · intro e he
    rw [u1, u2] at he
    rw [u3]
    refine hf e ?_
    rcases he with he | he | he
    · exact Or.inl he
    · exact Or.inr (Or.inl he)
    · exact Or.inr (Or.inr ((mem_MoveToFront _ _ _).mp he))
  · have hlv : Linked w slru.stageOne slru.stageTwo v := Or.inr (Or.inl hv1)
    have hsubA : ∀ e, Linked w (slru.stageOne.erase v) slru.stageTwo e →
        Linked w slru.stageOne slru.stageTwo e ∧ e ≠ v := by
      intro e he
      rcases he with he | he | he
      · exact ⟨Or.inl he, fun hh => h.not_mem_window (Or.inl hv1) (hh ▸ he)⟩
      · exact ⟨Or.inr (Or.inl (List.mem_of_mem_erase he)),
          fun hh => ((List.Nodup.mem_erase_iff h.nodup1).mp he).1 hh⟩
      · exact ⟨Or.inr (Or.inr he), fun hh => h.ne_of_mem.2.2 hv1 he hh.symm⟩
    have hA : FullIdx w (slru.stageOne.erase v) slru.stageTwo (m.delete (m.entry v).key) :=
      full_of_evict hf hlv hsubA (fun e _ => rfl) rfl
    have hne0 : ∀ e, Linked w slru.stageOne slru.stageTwo e → e ≠ m.elems := by
      intro e he
      have := (h.alloc e he).1
      omega
    refine full_of_push hA (fun e he hh => (hsubA e he).2 (hf.key_inj (hsubA e he).1 hlv hh))
      (fun e he => ?_) (fun e he _ => u4 e (hsubA e he).1 (hsubA e he).2) (by rw [u3]) ?_
    · rw [u1, u2] at he
      rcases he with he | he | he
      · exact Or.inr (Or.inl he)
      · exact Or.inr (Or.inr (Or.inl he))
      · rcases List.mem_cons.mp he with he | he
        · exact Or.inl he
        · exact Or.inr (Or.inr (Or.inr he))
    · rw [u5]
      funext q
      simp only [Mem.delete, upd_apply]
      split <;> rfl
  · have hbm := Back_mem hbk
    have hlv : Linked w slru.stageOne slru.stageTwo v := Or.inr (Or.inl hv1)
    have hlb : Linked w slru.stageOne slru.stageTwo back := Or.inr (Or.inr hbm)
    have hvb : v ≠ back := h.ne_of_mem.2.2 hv1 hbm
    have hkk : (m.entry back).key ≠ (m.entry v).key := fun hh => hvb (hf.key_inj hlb hlv hh).symm
    intro e he
    rw [u1, u2] at he
    have hl2 : Linked w slru.stageOne slru.stageTwo e := by
      rcases he with he | he | he
      · exact Or.inl he
      · exact Or.inr (Or.inl ((mem_MoveToFront _ _ _).mp he))
      · exact Or.inr (Or.inr ((mem_MoveToFront _ _ _).mp he))
    by_cases h1 : e = v
    · subst h1
      rw [u3, u6]
      simp [upd_apply, hkk]
    · by_cases h2 : e = back
      · subst h2
        rw [u4, u6]
        simp [upd_apply]
      · have k1 : (m.entry e).key ≠ (m.entry v).key := fun hh => h1 (hf.key_inj hl2 hlv hh)
        have k2 : (m.entry e).key ≠ (m.entry back).key := fun hh => h2 (hf.key_inj hl2 hlb hh)
        rw [u5 e hl2 h1 h2, u6, upd_ne _ _ k1, upd_ne _ _ k2]
        exact hf e hl2

theorem Cache.set_full {X : Env} {c c2 : Cache} {key : Key} {value : Value} {b : Bool}
    {kh ch : Nat} (h : c.WF) (hf : c.ListsIndexed) (hk : keyToHash X key = some (kh, ch))
    (hfresh : c.KeysIn (fun k => k ≠ kh))
    (hs : Cache.set X c key value = .ok (c2, b)) : c2.ListsIndexed := by
  obtain ⟨hS, hZ⟩ := h
  obtain ⟨kh2, ch2, lru, mem, eitem, ev, hkk, ha, hl, -, -, hcase⟩ := Cache.set_shape hs
  rw [hk] at hkk
  simp only [Option.some.injEq, Prod.mk.injEq] at hkk
  obtain ⟨rfl, rfl⟩ := hkk
  have hS1 := window_add_sound hS rfl ha
  obtain ⟨g1, g2⟩ := window_add_full hS hf (fun e he => hfresh e he) ha
  rcases hcase with ⟨e1, e2⟩ | ⟨hev, hadd⟩
  · simp only [Cache.ListsIndexed]
    rw [hl, e1, e2]
    exact g1
  · simp only [Cache.ListsIndexed]
    rw [hl]
    exact slru_add_full_idx hS1 g1 (g2 hev) hadd

theorem Cache.get_full {X : Env} {c c2 : Cache} {key : Key} {v : Value} {b : Bool}
    (h : c.WF) (hf : c.ListsIndexed) (hg : Cache.get X c key = .ok (c2, v, b)) :
    c2.ListsIndexed := by
  obtain ⟨hS, hZ⟩ := h
  obtain ⟨kh, ch, -, -, hcase⟩ := Cache.get_shape hg
  rcases hcase with ⟨-, -, e1, e2, e3, -⟩ | ⟨val, hd, -, -, -, hcase⟩
  · simp only [Cache.ListsIndexed]
    rw [e1, e2, e3]
    exact hf
  · obtain ⟨hlink, -⟩ := hS.index kh val hd
    rcases hcase with ⟨-, e1, e2, e3⟩ | ⟨hst, e1, hgg⟩
    · simp only [Cache.ListsIndexed]
      rw [e1, e2, e3]
      intro e he
      refine hf e ?_
      rcases he with he | he | he
      · exact Or.inl ((mem_MoveToFront _ _ _).mp he)
      · exact Or.inr (Or.inl he)
      · exact Or.inr (Or.inr he)
    · have hv : val ∈ c.slru.stageOne ∨ val ∈ c.slru.stageTwo := by
        rcases hlink with hw | hw
        · exact absurd (hS.stage0 val hw) hst
        · exact hw
      simp only [Cache.ListsIndexed]
      rw [e1]
      exact slru_get_full_idx hS hf hv hgg

/-- Along a run without `Del` whose `Set` keys have pairwise distinct primary
hashes, none of them the key of a linked record at the start, the index stays
full. -/
theorem run_full {X : Env} {ops : List Op} : ∀ {c c2 : Cache}, c.WF → c.ListsIndexed →
    c.KeysIn (fun k => k ∉ setHashes X ops) → (setHashes X ops).Nodup →
    (∀ op ∈ ops, op.isDel = false) → run X c ops = .ok c2 → c2.ListsIndexed := by
  induction ops with
  | nil =>
    intro c c2 _ hf _ _ _ hr
    simp only [run, Except.ok.injEq] at hr
    subst hr
    exact hf
  | cons op ops ih =>
    intro c c2 hwf hf hkeys hnd hdel hr
    obtain ⟨c1, hs, hr1⟩ := run_cons_ok hr
    have hwf1 := (step_wf hwf hs).1
    have hdel1 : ∀ o ∈ ops, o.isDel = false := fun o ho => hdel o (List.mem_cons_of_mem _ ho)
    cases op with
    | Set key value =>
      simp only [step] at hs
      cases hr2 : Cache.set X c key value with
      | error e => simp [hr2, Except.map] at hs
      | ok r =>
        simp only [hr2, Except.map, Except.ok.injEq] at hs
        subst hs
        obtain ⟨kh, ch, -, -, -, -, hk, -⟩ := Cache.set_shape hr2
        have hsh : setHashes X (Op.Set key value :: ops) = kh :: setHashes X ops := by
          simp [setHashes, hk]
        rw [hsh] at hkeys hnd
        have hfresh : c.KeysIn (fun k => k ≠ kh) := fun e he hh =>
          hkeys e he (hh ▸ List.mem_cons_self _ _)
        have hrest : c.KeysIn (fun k => k ∉ setHashes X ops) := fun e he hh =>
          hkeys e he (List.mem_cons_of_mem _ hh)
        refine ih hwf1 (Cache.set_full hwf hf hk hfresh hr2) ?_ (List.nodup_cons.mp hnd).2
          hdel1 hr1
        refine Cache.set_keys hwf hrest hr2 (fun kh2 ch2 hk2 => ?_)
        rw [hk] at hk2
        simp only [Option.some.injEq, Prod.mk.injEq] at hk2
        rw [← hk2.1]
        exact (List.nodup_cons.mp hnd).1
    | Get key =>
      simp only [step] at hs
      cases hr2 : Cache.get X c key with
      | error e => simp [hr2, Except.map] at hs
      | ok r =>
        simp only [hr2, Except.map, Except.ok.injEq] at hs
        subst hs
        exact ih hwf1 (Cache.get_full hwf hf hr2) (Cache.get_keys hwf hkeys hr2) hnd hdel1 hr1
    | Del key =>
      have := hdel (Op.Del key) (List.mem_cons_self _ _)
      simp [Op.isDel] at this
/-- C2, as stated, fails on the code, in both halves.  On `NewCache(100)`, after
`Set(1, 10); Del(1)` the window list still holds the element with key 1 while the
index has no entry for 1 (second half).  After `Set(1, 10); Set(1, 20)` the index
has an entry for key 1 and both the window list and the probation list hold a
record with key 1 (first half). -/
theorem C2_stale_and_duplicate_entries :
    run Env.sample (NewCache Env.sample 100) [.Set (.int 1) (some 10), .Del (.int 1)]
      = .ok (stateAfter Env.sample 100 [.Set (.int 1) (some 10), .Del (.int 1)]) ∧
    ¬ (stateAfter Env.sample 100 [.Set (.int 1) (some 10), .Del (.int 1)]).ListsIndexed ∧
    run Env.sample (NewCache Env.sample 100) [.Set (.int 1) (some 10), .Set (.int 1) (some 20)]
      = .ok (stateAfter Env.sample 100 [.Set (.int 1) (some 10), .Set (.int 1) (some 20)]) ∧
    ¬ (stateAfter Env.sample 100
        [.Set (.int 1) (some 10), .Set (.int 1) (some 20)]).IndexInOneList := by
  refine ⟨rfl, fun h => ?_, rfl, fun h => ?_⟩
  · exact absurd (h 0 (Or.inl (by decide))) (by decide)
  · have hw : (stateAfter Env.sample 100
        [.Set (.int 1) (some 10), .Set (.int 1) (some 20)]).mem.holds
        (stateAfter Env.sample 100
          [.Set (.int 1) (some 10), .Set (.int 1) (some 20)]).lru.list 1 :=
      ⟨1, by decide, by decide⟩
    have h1 : (stateAfter Env.sample 100
        [.Set (.int 1) (some 10), .Set (.int 1) (some 20)]).mem.holds
        (stateAfter Env.sample 100
          [.Set (.int 1) (some 10), .Set (.int 1) (some 20)]).slru.stageOne 1 :=
      ⟨2, by decide, by decide⟩
    rcases h 1 (by decide) with ⟨-, n1, -⟩ | ⟨nw, -, -⟩ | ⟨nw, -, -⟩
    · exact n1 h1
    · exact nw hw
    · exact nw hw

/-- C2, amended.  After every completed sequence of calls on `NewCache(n)`, every
index entry `k -> e` points to an element that holds a record with key `k` and is
linked in exactly one of the three lists.  The converse half (every list element
is indexed under its key) and the statement by keys (a key of the index is the key
of a record in exactly one list) hold for the sequences that contain no `Del` and
no two `Set` calls with the same primary hash. -/
theorem C2_index_list_consistency (X : Env) (n : Int) (ops : List Op) (c : Cache)
    (hr : run X (NewCache X n) ops = .ok c) :
    (∀ k e, c.mem.data k = some e → (c.mem.entry e).key = k ∧
      ((e ∈ c.lru.list ∧ e ∉ c.slru.stageOne ∧ e ∉ c.slru.stageTwo) ∨
        (e ∉ c.lru.list ∧ e ∈ c.slru.stageOne ∧ e ∉ c.slru.stageTwo) ∨
        (e ∉ c.lru.list ∧ e ∉ c.slru.stageOne ∧ e ∈ c.slru.stageTwo))) ∧
    ((∀ op ∈ ops, op.isDel = false) → (setHashes X ops).Nodup →
      c.IndexInOneList ∧ c.ListsIndexed) := by
  obtain ⟨⟨hS, hZ⟩, -, -, -⟩ := run_wf (NewCache_wf X n) hr
  have hone : ∀ e, Linked c.lru.list c.slru.stageOne c.slru.stageTwo e →
      ((e ∈ c.lru.list ∧ e ∉ c.slru.stageOne ∧ e ∉ c.slru.stageTwo) ∨
        (e ∉ c.lru.list ∧ e ∈ c.slru.stageOne ∧ e ∉ c.slru.stageTwo) ∨
        (e ∉ c.lru.list ∧ e ∉ c.slru.stageOne ∧ e ∈ c.slru.stageTwo)) := by
    intro e he
    rcases he with he | he | he
    · exact Or.inl ⟨he, fun h1 => hS.ne_of_mem.1 he h1 rfl, fun h2 => hS.ne_of_mem.2.1 he h2 rfl⟩
    · exact Or.inr (Or.inl ⟨fun hw => hS.ne_of_mem.1 hw he rfl, he,
        fun h2 => hS.ne_of_mem.2.2 he h2 rfl⟩)
    · exact Or.inr (Or.inr ⟨fun hw => hS.ne_of_mem.2.1 hw he rfl,
        fun h1 => hS.ne_of_mem.2.2 h1 he rfl, he⟩)
  refine ⟨fun k e hd => ⟨(hS.index k e hd).2, hone e (hS.index k e hd).1⟩, fun hdel hnd => ?_⟩
  have h0f : (NewCache X n).ListsIndexed := by
    intro e he
    simp [Linked, NewCache, newWindowLRU, newSLRU] at he
  have h0k : (NewCache X n).KeysIn (fun k => k ∉ setHashes X ops) := by
    intro e he
    simp [Linked, NewCache, newWindowLRU, newSLRU] at he
  have hfull : c.ListsIndexed := run_full (NewCache_wf X n) h0f h0k hnd hdel hr
  refine ⟨fun k hk => ?_, hfull⟩
  cases hd : c.mem.data k with
  | none => rw [hd] at hk; simp at hk
  | some e =>
    obtain ⟨hl, hkey⟩ := hS.index k e hd
    have huniq : ∀ l, (∀ x, x ∈ l → Linked c.lru.list c.slru.stageOne c.slru.stageTwo x) →
        e ∉ l → ¬ c.mem.holds l k := by
      rintro l hsub hnot ⟨x, hx, hxk⟩
      have : x = e := hfull.key_inj (hsub x hx) hl (by rw [hxk, hkey])
      exact hnot (this ▸ hx)
    have hW := huniq c.lru.list (fun x hx => Or.inl hx)
    have h1 := huniq c.slru.stageOne (fun x hx => Or.inr (Or.inl hx))
    have h2 := huniq c.slru.stageTwo (fun x hx => Or.inr (Or.inr hx))
    rcases hone e hl with ⟨a, b, d⟩ | ⟨a, b, d⟩ | ⟨a, b, d⟩
    · exact Or.inl ⟨⟨e, a, hkey⟩, h1 b, h2 d⟩
    · exact Or.inr (Or.inl ⟨hW a, ⟨e, b, hkey⟩, h2 d⟩)
    · exact Or.inr (Or.inr ⟨hW a, h1 b, ⟨e, d, hkey⟩⟩)

theorem C2_index_list_consistency_witness :
    (∀ k e, twoState.mem.data k = some e → (twoState.mem.entry e).key = k ∧
      ((e ∈ twoState.lru.list ∧ e ∉ twoState.slru.stageOne ∧ e ∉ twoState.slru.stageTwo) ∨
        (e ∉ twoState.lru.list ∧ e ∈ twoState.slru.stageOne ∧ e ∉ twoState.slru.stageTwo) ∨
        (e ∉ twoState.lru.list ∧ e ∉ twoState.slru.stageOne ∧ e ∈ twoState.slru.stageTwo))) ∧
    (twoState.IndexInOneList ∧ twoState.ListsIndexed) :=
  ⟨(C2_index_list_consistency Env.sample 3 twoSets twoState rfl).1,
    (C2_index_list_consistency Env.sample 3 twoSets twoState rfl).2 (by decide) (by decide)⟩

/-- C11 fails for the protected tier.  `NewCache` clamps the window, the main and
the probation capacity to 1, but the protected capacity is the difference
`slruSize - slru0`, which no clamp follows: `NewCache(1)` and `NewCache(2)` have
protected capacity 0.  For every size the window and probation capacities are at
least 1, and the protected capacity is at least 1 exactly for sizes from 3 on. -/
theorem C11_protected_capacity_zero (X : Env) :
    ((NewCache X 1).lru.cap = 1 ∧ (NewCache X 1).slru.stageOneCap = 1 ∧
      (NewCache X 1).slru.stageTowCap = 0) ∧
    ((NewCache X 2).lru.cap = 1 ∧ (NewCache X 2).slru.stageOneCap = 1 ∧
      (NewCache X 2).slru.stageTowCap = 0) ∧
    ∀ n : Int, 1 ≤ (NewCache X n).lru.cap ∧ 1 ≤ (NewCache X n).slru.stageOneCap ∧
      (1 ≤ (NewCache X n).slru.stageTowCap ↔ 3 ≤ n) := by
  refine ⟨⟨rfl, rfl, rfl⟩, ⟨rfl, rfl, rfl⟩, fun n => ?_⟩
  obtain ⟨b1, b2, -, b4⟩ := NewCache_caps_bound X n
  exact ⟨b1, b2, b4⟩

/-- C12 fails for the capacities 1 and 2.  On `NewCache(1)` the calls `Set(1, 10)`,
`Set(2, 20)` complete and leave key 1 in the probation list, tagged probation, with
an empty protected list of capacity 0; the call `Get(1)` then reaches
`stageTwo.Back()` in `segmentedLRU.get`, which is nil, and dereferences it.  The same
calls fault on `NewCache(2)`. -/
theorem C12_small_capacity_faults :
    runFaults Env.sample 1 [.Set (.int 1) (some 10), .Set (.int 2) (some 20)] = false ∧
    (stateAfter Env.sample 1 [.Set (.int 1) (some 10), .Set (.int 2) (some 20)]).mem.data 1
      = some 2 ∧
    ((stateAfter Env.sample 1 [.Set (.int 1) (some 10), .Set (.int 2) (some 20)]).mem.entry
      2).stage = 1 ∧
    (stateAfter Env.sample 1 [.Set (.int 1) (some 10), .Set (.int 2) (some 20)]).slru.stageTowCap
      = 0 ∧
    Back (stateAfter Env.sample 1
      [.Set (.int 1) (some 10), .Set (.int 2) (some 20)]).slru.stageTwo = none ∧
    (stateAfter Env.sample 1 [.Set (.int 1) (some 10), .Set (.int 2) (some 20)]).slru.get
      (stateAfter Env.sample 1 [.Set (.int 1) (some 10), .Set (.int 2) (some 20)]).mem 2
        = none ∧
    runFaults Env.sample 1
      [.Set (.int 1) (some 10), .Set (.int 2) (some 20), .Get (.int 1)] = true ∧
    runFaults Env.sample 2
      [.Set (.int 1) (some 10), .Set (.int 2) (some 20), .Get (.int 1)] = true :=
  ⟨by decide, by decide, by decide, by decide, by decide, rfl, by decide, by decide⟩

/-- C13, as stated, fails for the absent key: `keyToHash(nil)` does not abort, it
returns the pair `(0, 0)`, which is also the pair of the integer key 0. -/
theorem C13_nil_key_hashes_like_zero :
    keyToHash Env.sample .nil = some (0, 0) ∧
    keyToHash Env.sample (.uint64 0) = some (0, 0) ∧
    keyToHash Env.sample (.int 0) = some (0, 0) := by
  decide

/-- C13, amended: `keyToHash` aborts exactly for the keys whose type the type
switch does not list, and then `Set`, `Get` and `Del` abort; it returns a hash pair
exactly for the nil key and the keys of a listed type (`uint64`, `string`,
`[]byte`, `byte`, `int`, `int32`, `uint32`, `int64`); the nil key is mapped to
`(0, 0)`. -/
theorem C13_unsupported_keys_abort (X : Env) :
    (∀ key, keyToHash X key = none ↔ key = Key.other) ∧
    (∀ key, (∃ p, keyToHash X key = some p) ↔ key ≠ Key.other) ∧
    keyToHash X .nil = some (0, 0) ∧
    (∀ c value, ∃ c2, Cache.set X c .other value = .error c2) ∧
    (∀ c, ∃ c2, Cache.get X c .other = .error c2) ∧
    (∀ c, ∃ c2, Cache.del X c .other = .error c2) := by
  refine ⟨fun key => ?_, fun key => ?_, rfl, fun c value => ⟨c, rfl⟩, fun c => ⟨c.tick, rfl⟩,
    fun c => ⟨c, rfl⟩⟩
  · cases key <;> simp [keyToHash]
  · cases key <;> simp [keyToHash]

/-- C14 fails for `Get`.  A `Set` or a `Del` on a key of an unsupported type aborts
before any update, in the state it was called in.  A `Get` on such a key aborts
after the counter step (`c.t++` and the comparison with the threshold): on
`NewCache(100)`, where `t = 0`, the state at the abort has `t = 1`. -/
theorem C14_get_abort_changes_counter (X : Env) :
    (∀ c value, Cache.set X c .other value = .error c) ∧
    (∀ c, Cache.del X c .other = .error c) ∧
    (∀ c, Cache.get X c .other = .error c.tick) ∧
    (NewCache X 100).t = 0 ∧ (NewCache X 100).tick.t = 1 :=
  ⟨fun _ _ => rfl, fun _ => rfl, fun _ => rfl, rfl, rfl⟩

/-! ## The operation counter -/

/-- From size 3 on the protected capacity is at least 1. -/
theorem NewCache_protected_pos (X : Env) {n : Int} (hn : 3 ≤ n) :
    1 ≤ (NewCache X n).slru.stageTowCap := by
  exact (NewCache_caps_bound X n).2.2.2.2 hn

/-- C20 (handle soundness): for every size `n ≥ 3` and every sequence of calls with
supported keys on `NewCache(n)`, every prefix of the sequence completes, and in the
state after it every index entry `h -> e` points to an element whose record has
key `h` and whose stage tag names the one list in which the element is linked
(0 the window, 1 `stageOne`, 2 `stageTwo`); no list links an element twice, distinct
index keys map to distinct elements, and a `Get` with a supported key completes:
its dispatch on the stage tag hands the element to the list that holds it. -/
theorem C20_handle_soundness (X : Env) (n : Int) (ops pre : List Op) (hn : 3 ≤ n)
    (hsup : ∀ op ∈ ops, op.supported X) (hpre : pre <+: ops) :
    ∃ c, run X (NewCache X n) pre = .ok c ∧
      (∀ h e, c.mem.data h = some e → (c.mem.entry e).key = h ∧
        (((c.mem.entry e).stage = 0 ∧ e ∈ c.lru.list ∧ e ∉ c.slru.stageOne ∧
            e ∉ c.slru.stageTwo) ∨
          ((c.mem.entry e).stage = 1 ∧ e ∉ c.lru.list ∧ e ∈ c.slru.stageOne ∧
            e ∉ c.slru.stageTwo) ∨
          ((c.mem.entry e).stage = 2 ∧ e ∉ c.lru.list ∧ e ∉ c.slru.stageOne ∧
            e ∈ c.slru.stageTwo))) ∧
      (c.lru.list.Nodup ∧ c.slru.stageOne.Nodup ∧ c.slru.stageTwo.Nodup) ∧
      (∀ h h2 e, c.mem.data h = some e → c.mem.data h2 = some e → h = h2) ∧
      (∀ key, key.supported X → ∃ r, Cache.get X c key = .ok r) := by
  have hcap := NewCache_protected_pos X hn
  obtain ⟨c, hr⟩ := @run_ok X pre (NewCache X n) (NewCache_wf X n) hcap
    (fun op hop => hsup op (hpre.subset hop))
  obtain ⟨⟨hS, hZ⟩, -, -, a3⟩ := run_wf (NewCache_wf X n) hr
  refine ⟨c, hr, fun h e hd => ?_, ⟨hS.nodupW, hS.nodup1, hS.nodup2⟩, fun h h2 e hd hd2 => ?_,
    fun key hk => Cache.get_ok (by rw [a3]; exact hcap) hk⟩
  · obtain ⟨hl, hkey⟩ := hS.index h e hd
    refine ⟨hkey, ?_⟩
    rcases hl with he | he | he
    · exact Or.inl ⟨hS.stage0 e he, he, fun h1 => hS.ne_of_mem.1 he h1 rfl,
        fun h2 => hS.ne_of_mem.2.1 he h2 rfl⟩
    · exact Or.inr (Or.inl ⟨hS.stage1 e he, fun hw => hS.ne_of_mem.1 hw he rfl, he,
        fun h2 => hS.ne_of_mem.2.2 he h2 rfl⟩)
    · exact Or.inr (Or.inr ⟨hS.stage2 e he, fun hw => hS.ne_of_mem.2.1 hw he rfl,
        fun h1 => hS.ne_of_mem.2.2 h1 he rfl, he⟩)
  · rw [← (hS.index h e hd).2, ← (hS.index h2 e hd2).2]

theorem C20_handle_soundness_witness :
    ∃ c, run Env.sample (NewCache Env.sample 3) twoSets = .ok c ∧
      (∀ h e, c.mem.data h = some e → (c.mem.entry e).key = h ∧
        (((c.mem.entry e).stage = 0 ∧ e ∈ c.lru.list ∧ e ∉ c.slru.stageOne ∧
            e ∉ c.slru.stageTwo) ∨
          ((c.mem.entry e).stage = 1 ∧ e ∉ c.lru.list ∧ e ∈ c.slru.stageOne ∧
            e ∉ c.slru.stageTwo) ∨
          ((c.mem.entry e).stage = 2 ∧ e ∉ c.lru.list ∧ e ∉ c.slru.stageOne ∧
            e ∈ c.slru.stageTwo))) ∧
      (c.lru.list.Nodup ∧ c.slru.stageOne.Nodup ∧ c.slru.stageTwo.Nodup) ∧
      (∀ h h2 e, c.mem.data h = some e → c.mem.data h2 = some e → h = h2) ∧
      (∀ key, key.supported Env.sample → ∃ r, Cache.get Env.sample c key = .ok r) :=
  C20_handle_soundness Env.sample 3 (twoSets ++ [.Get (.int 1)]) twoSets (by decide)
    (fun op hop => by
      simp only [twoSets, List.cons_append, List.nil_append, List.mem_cons, List.mem_singleton,
        List.not_mem_nil, or_false] at hop
      rcases hop with rfl | rfl | rfl <;> rfl)
    ⟨[.Get (.int 1)], rfl⟩

/-! ## Postconditions of the segmented LRU -/

/-- C17 (`segmentedLRU.add`): in a well-formed state with `stageOneCap ≥ 1`, `add(e)`
completes; afterwards the front element `x` of `stageOne` holds `e` tagged
probation, the index maps `e.key` to `x`, and `stageTwo` and the capacities are
as before.  If `stageOne.Len() < stageOneCap` or `Len() < stageOneCap + stageTowCap`
held before the call, `x` is a new element in front of the old `stageOne`, no
record of a linked element changes and the index changes only at `e.key`.
Otherwise `x` is the previous last element of `stageOne`, moved to the front, so
the lengths are unchanged; only its record changes, and the index loses the key
of the replaced record (unless it is `e.key`) and changes nowhere else. -/
theorem C17_add_postcondition (slru : segmentedLRU) (w : List Nat) (m : Mem) (e : storeItem)
    (hS : Sound w slru.stageOne slru.stageTwo m) (hc : 1 ≤ slru.stageOneCap) :
    ∃ slru2 m2 x, slru.add m e = some (slru2, m2) ∧
      slru2.stageOne.head? = some x ∧ m2.entry x = { e with stage := 1 } ∧
      m2.data e.key = some x ∧ slru2.stageTwo = slru.stageTwo ∧
      slru2.stageOneCap = slru.stageOneCap ∧ slru2.stageTowCap = slru.stageTowCap ∧
      (((slru.stageOne.length : Int) < slru.stageOneCap ∨
            slru.Len < slru.stageOneCap + slru.stageTowCap) →
          slru2.stageOne = x :: slru.stageOne ∧ ¬ Linked w slru.stageOne slru.stageTwo x ∧
          (∀ y, Linked w slru.stageOne slru.stageTwo y → m2.entry y = m.entry y) ∧
          (∀ k, k ≠ e.key → m2.data k = m.data k)) ∧
      (¬ ((slru.stageOne.length : Int) < slru.stageOneCap ∨
            slru.Len < slru.stageOneCap + slru.stageTowCap) →
          Back slru.stageOne = some x ∧ slru2.stageOne = x :: slru.stageOne.erase x ∧
          slru2.stageOne.length = slru.stageOne.length ∧
          (∀ y, Linked w slru.stageOne slru.stageTwo y → y ≠ x → m2.entry y = m.entry y) ∧
          (∀ k, k ≠ e.key → (m.entry x).key = k → m2.data k = none) ∧
          (∀ k, k ≠ e.key → (m.entry x).key ≠ k → m2.data k = m.data k)) := by
  by_cases hcond : (slru.stageOne.length : Int) < slru.stageOneCap ∨
      slru.Len < slru.stageOneCap + slru.stageTowCap
  · obtain ⟨p1, p2, p3⟩ := entry_push hS { e with stage := 1 } (upd m.data e.key (some m.elems))
    refine ⟨{ slru with stageOne := m.elems :: slru.stageOne }, _, m.elems, ?_, rfl, p2, ?_, rfl,
      rfl, rfl, fun _ => ⟨rfl, p3, p1, fun k hk => ?_⟩, fun hn => absurd hcond hn⟩
    · simp only [segmentedLRU.add, if_pos hcond, PushFront, Mem.alloc, Mem.store]
    · simp
    · simp [upd_apply, hk]
  · have hpos : 0 < slru.stageOne.length := by
      have : ¬ (slru.stageOne.length : Int) < slru.stageOneCap := fun h => hcond (Or.inl h)
      omega
    obtain ⟨x, hx⟩ := Back_isSome hpos
    have hxm := Back_mem hx
    have hadd : slru.add m e = some ({ slru with stageOne := MoveToFront slru.stageOne x },
        ((m.delete (m.entry x).key).assign (m.Value x) { e with stage := 1 }).store e.key x) := by
      simp only [segmentedLRU.add, if_neg hcond, hx, Mem.assign, Mem.delete, Mem.store, upd_same,
        Mem.entry]
    have hmv : MoveToFront slru.stageOne x = x :: slru.stageOne.erase x := by
      simp [MoveToFront, hxm]
    refine ⟨_, _, x, hadd, ?_, ?_, ?_, rfl, rfl, rfl, fun hy => absurd hy hcond,
      fun _ => ⟨hx, hmv, length_MoveToFront _ _, fun y hy hyx => ?_, fun k hk hkx => ?_,
        fun k hk hkx => ?_⟩⟩
    · simp [hmv]
    · simp [Mem.entry, Mem.store, Mem.assign, Mem.delete]
    · simp [Mem.store]
    · have : m.Value y ≠ m.Value x := fun hh =>
        hyx (hS.inj y x hy (Or.inr (Or.inl hxm)) hh)
      simp [Mem.entry, Mem.store, Mem.assign, Mem.delete, upd_apply, this]
    · subst hkx
      simp [Mem.store, Mem.assign, Mem.delete, upd_apply, hk]
    · simp [Mem.store, Mem.assign, Mem.delete, upd_apply, hk, Ne.symm hkx]

theorem C17_add_postcondition_witness :
    ¬ ((tieState.slru.stageOne.length : Int) < tieState.slru.stageOneCap ∨
        tieState.slru.Len < tieState.slru.stageOneCap + tieState.slru.stageTowCap) ∧
    ∃ slru2 m2 x,
      tieState.slru.add tieState.mem { stage := 0, key := 9, conflict := 0, value := some 90 }
        = some (slru2, m2) ∧
      slru2.stageOne.head? = some x ∧
      m2.entry x = { stage := 1, key := 9, conflict := 0, value := some 90 } ∧
      m2.data 9 = some x ∧ slru2.stageTwo = tieState.slru.stageTwo ∧
      Back tieState.slru.stageOne = some x ∧
      slru2.stageOne = x :: tieState.slru.stageOne.erase x ∧
      slru2.stageOne.length = tieState.slru.stageOne.length ∧
      (∀ y, Linked tieState.lru.list tieState.slru.stageOne tieState.slru.stageTwo y →
        y ≠ x → m2.entry y = tieState.mem.entry y) ∧
      (∀ k, k ≠ 9 → (tieState.mem.entry x).key = k → m2.data k = none) ∧
      (∀ k, k ≠ 9 → (tieState.mem.entry x).key ≠ k → m2.data k = tieState.mem.data k) :=
  ⟨by decide,
    match C17_add_postcondition tieState.slru tieState.lru.list tieState.mem
      { stage := 0, key := 9, conflict := 0, value := some 90 }
      (run_wf (NewCache_wf Env.sample 3)
        (rfl : run Env.sample (NewCache Env.sample 3) tieOps = .ok tieState)).1.1
      (by decide) with
    | ⟨slru2, m2, x, h1, h2, h3, h4, h5, _, _, _, hB⟩ =>
      ⟨slru2, m2, x, h1, h2, h3, h4, h5, hB (by decide)⟩⟩

/-- C16, as stated, fails when the two swapped records have the same key.  In the
state after `Set(5, 50); Set(6, 60); Get(5); Set(5, 51); Set(7, 70)` on `NewCache(3)`
the protected list is full (capacity 1) and holds element 3 with key 5 and value 50;
the probation list holds element 5 with key 5 and value 51, tagged probation.
After `get` of element 5 the front of `stageOne` is element 5, holding the protected
record (key 5, value 50), but the index maps key 5 to element 3, the front of
`stageTwo`, not to the `stageOne` front element. -/
theorem C16_swap_same_key_index :
    run Env.sample (NewCache Env.sample 3) dupOps = .ok dupState ∧
    (1 : Int) ≤ dupState.slru.stageTowCap ∧
    (dupState.slru.stageTwo.length : Int) = dupState.slru.stageTowCap ∧
    dupState.slru.stageOne = [5] ∧ dupState.slru.stageTwo = [3] ∧
    dupState.mem.entry 5 = { stage := 1, key := 5, conflict := 0, value := some 51 } ∧
    dupState.mem.entry 3 = { stage := 2, key := 5, conflict := 0, value := some 50 } ∧
    (dupState.slru.get dupState.mem 5).map
        (fun r => (r.1.stageOne, r.1.stageTwo, r.2.entry 5, r.2.entry 3, r.2.data 5))
      = some ([5], [3], { stage := 1, key := 5, conflict := 0, value := some 50 },
          { stage := 2, key := 5, conflict := 0, value := some 51 }, some 3) :=
  ⟨rfl, by decide, by decide, by decide, by decide, by decide, by decide, by decide⟩

/-- C16, amended: in a well-formed state with `stageTowCap ≥ 1` and a full protected
list, let `v` be an element of `stageOne` and `back` the last element of `stageTwo`.
Then `get(v)` completes; afterwards `back` is at the front of `stageTwo` and holds
the key, conflict hash and value that `v` held, tagged protected; `v` is at the
front of `stageOne` and holds those that `back` held, tagged probation; the index
maps the key that `v` held to `back` and, when the key that `back` held is a
different one, maps that key to `v`; both lists keep their lengths and the order of
their other elements, and no other record and no other index entry changes. -/
theorem C16_protected_swap (slru : segmentedLRU) (w : List Nat) (m : Mem) (v : Nat)
    (hS : Sound w slru.stageOne slru.stageTwo m) (hv : v ∈ slru.stageOne)
    (hcap : 1 ≤ slru.stageTowCap)
    (hfull : (slru.stageTwo.length : Int) = slru.stageTowCap) :
    ∃ slru2 m2 back, Back slru.stageTwo = some back ∧ slru.get m v = some (slru2, m2) ∧
      slru2.stageTwo = back :: slru.stageTwo.erase back ∧
      slru2.stageOne = v :: slru.stageOne.erase v ∧
      m2.entry back = { m.entry v with stage := 2 } ∧
      m2.entry v = { m.entry back with stage := 1 } ∧
      m2.data (m.entry v).key = some back ∧
      ((m.entry back).key ≠ (m.entry v).key → m2.data (m.entry back).key = some v) ∧
      slru2.stageOne.length = slru.stageOne.length ∧
      slru2.stageTwo.length = slru.stageTwo.length ∧
      (∀ y, Linked w slru.stageOne slru.stageTwo y → y ≠ v → y ≠ back →
        m2.entry y = m.entry y) ∧
      (∀ k, k ≠ (m.entry v).key → k ≠ (m.entry back).key → m2.data k = m.data k) := by
  have hpos : 0 < slru.stageTwo.length := by omega
  obtain ⟨back, hb⟩ := Back_isSome hpos
  have hbm := Back_mem hb
  have hlv : Linked w slru.stageOne slru.stageTwo v := Or.inr (Or.inl hv)
  have hlb : Linked w slru.stageOne slru.stageTwo back := Or.inr (Or.inr hbm)
  have hpp : m.Value back ≠ m.Value v := fun hh =>
    hS.ne_of_mem.2.2 hv hbm (hS.inj back v hlb hlv hh).symm
  have hst : ¬ (m.item (m.Value v)).stage = STAGE_TWO := by
    have := hS.stage1 v hv
    simp only [Mem.entry] at this
    rw [this]
    decide
  have hlen : ¬ (slru.stageTwo.length : Int) < slru.stageTowCap := by omega
  have hm := swap_mem_eq m v back hpp
  simp only at hm
  have hget : slru.get m v = some
      ({ slru with
          stageOne := MoveToFront slru.stageOne v
          stageTwo := MoveToFront slru.stageTwo back },
      { data := upd (upd m.data (m.entry back).key (some v)) (m.entry v).key (some back)
        Value := m.Value
        elems := m.elems
        item := upd (upd m.item (m.Value back) { m.entry v with stage := STAGE_TWO })
          (m.Value v) { m.entry back with stage := STAGE_ONE }
        items := m.items }) := by
    simp only [segmentedLRU.get, if_neg hst, if_neg hlen, hb]
    rw [hm]
  have hmv1 : MoveToFront slru.stageOne v = v :: slru.stageOne.erase v := by
    simp [MoveToFront, hv]
  have hmv2 : MoveToFront slru.stageTwo back = back :: slru.stageTwo.erase back := by
    simp [MoveToFront, hbm]
  refine ⟨_, _, back, hb, hget, hmv2, hmv1, ?_, ?_, ?_, fun hne => ?_,
    length_MoveToFront _ _, length_MoveToFront _ _, fun y hy hyv hyb => ?_,
    fun k hk1 hk2 => ?_⟩
  · simp [Mem.entry, upd_apply, hpp, STAGE_TWO]
  · simp [Mem.entry, STAGE_ONE]
  · simp
  · simp [upd_apply, hne]
  · have e1 : m.Value y ≠ m.Value v := fun hh => hyv (hS.inj y v hy hlv hh)
    have e2 : m.Value y ≠ m.Value back := fun hh => hyb (hS.inj y back hy hlb hh)
    simp [Mem.entry, upd_apply, e1, e2]
  · simp [upd_apply, hk1, hk2]

theorem C16_protected_swap_witness :
    ∃ slru2 m2, swapState.slru.get swapState.mem 5 = some (slru2, m2) ∧
      Back swapState.slru.stageTwo = some 3 ∧
      slru2.stageTwo = 3 :: swapState.slru.stageTwo.erase 3 ∧
      slru2.stageOne = 5 :: swapState.slru.stageOne.erase 5 ∧
      m2.entry 3 = { swapState.mem.entry 5 with stage := 2 } ∧
      m2.entry 5 = { swapState.mem.entry 3 with stage := 1 } ∧
      m2.data (swapState.mem.entry 5).key = some 3 ∧
      m2.data (swapState.mem.entry 3).key = some 5 ∧
      slru2.stageOne.length = swapState.slru.stageOne.length ∧
      slru2.stageTwo.length = swapState.slru.stageTwo.length ∧
      (∀ y, Linked swapState.lru.list swapState.slru.stageOne swapState.slru.stageTwo y →
        y ≠ 5 → y ≠ 3 → m2.entry y = swapState.mem.entry y) ∧
      (∀ k, k ≠ (swapState.mem.entry 5).key → k ≠ (swapState.mem.entry 3).key →
        m2.data k = swapState.mem.data k) := by
  obtain ⟨slru2, m2, back, hb, hg, h1, h2, h3, h4, h5, h6, h7, h8, h9, h10⟩ :=
    C16_protected_swap swapState.slru swapState.lru.list swapState.mem 5
      (run_wf (NewCache_wf Env.sample 3)
        (rfl : run Env.sample (NewCache Env.sample 3) swapOps = .ok swapState)).1.1
      (by decide) (by decide) (by decide)
  have hb3 : Back swapState.slru.stageTwo = some 3 := by decide
  have hback : back = 3 := by
    rw [hb3] at hb
    exact (Option.some.inj hb).symm
  subst hback
  exact ⟨slru2, m2, hg, hb3, h1, h2, h3, h4, h5, h6 (by decide), h7, h8, h9, h10⟩

/-! ## Reading back a key that was just set -/

/-- C19 (read-your-write) fails on the code when the key is already resident.  On
`NewCache(100)`, after `Set(1, 10); Set(1, 20)` the call `Get(1)` returns the older
value 10: the second `Set` evicts the first entry from the window and
`segmentedLRU.add` indexes key 1 to that evicted entry.  On `NewCache(3)`, after
`Set(5, 50); Set(6, 60); Set(8, 80); Get(8); Set(5, 51)` the call `Get(5)` returns
not-found: the last `Set` admits the evicted key 8 in place of the probation
victim with key 5, and `segmentedLRU.add` deletes the index entry of key 5, which
the window had just written.  A `Set` of a fresh key is read back. -/
theorem C19_set_then_get_stale :
    getAfter Env.sample 100 [.Set (.int 1) (some 10), .Set (.int 1) (some 20)] (.int 1)
      = some (some 10, true) ∧
    getAfter Env.sample 3 [.Set (.int 5) (some 50), .Set (.int 6) (some 60),
        .Set (.int 8) (some 80), .Get (.int 8), .Set (.int 5) (some 51)] (.int 5)
      = some (none, false) ∧
    getAfter Env.sample 100 [.Set (.int 1) (some 10), .Set (.int 2) (some 20)] (.int 2)
      = some (some 20, true) := by
  decide

/-- When neither the least-recently-used window element nor the least-recently-used
probation element holds the primary hash of `key`, a `Set(key, value)` completes and
the `Get(key)` that follows it returns `(value, true)`. -/
theorem set_then_get (X : Env) (c : Cache) (key : Key) (value : Value) (kh ch : Nat)
    (hwf : c.WF) (hk : keyToHash X key = some (kh, ch))
    (hw : ∀ x, Back c.lru.list = some x → (c.mem.entry x).key ≠ kh)
    (h1 : ∀ y, Back c.slru.stageOne = some y → (c.mem.entry y).key ≠ kh) :
    ∃ c2 c3, Cache.set X c key value = .ok (c2, true) ∧
      Cache.get X c2 key = .ok (c3, value, true) := by
  obtain ⟨⟨c2, b⟩, hs⟩ := @Cache.set_ok X c key value hwf (by simp [Key.supported, hk])
  obtain ⟨hS, hZ⟩ := hwf
  obtain ⟨kh2, ch2, lru, mem, eitem, ev, hkk, ha, hl, -, -, hcase⟩ := Cache.set_shape hs
  rw [hk] at hkk
  simp only [Option.some.injEq, Prod.mk.injEq] at hkk
  obtain ⟨rfl, rfl⟩ := hkk
  have hb : b = true := by
    simp only [Cache.set, hk, ha] at hs
    revert hs
    cases ev <;> simp only [Bool.not_false, Bool.not_true, if_true, Bool.false_eq_true, if_false]
    · intro hs
      simp only [Except.ok.injEq, Prod.mk.injEq] at hs
      exact hs.2.symm
    · intro hs
      split at hs
      · simp at hs
      · split at hs
        · simp at hs
        · simp only [Except.ok.injEq, Prod.mk.injEq] at hs
          exact hs.2.symm
      · split at hs
        · simp only [Except.ok.injEq, Prod.mk.injEq] at hs
          exact hs.2.symm
        · split at hs
          · simp only [Except.ok.injEq, Prod.mk.injEq] at hs
            exact hs.2.symm
          · split at hs
            · simp at hs
            · simp only [Except.ok.injEq, Prod.mk.injEq] at hs
              exact hs.2.symm
  subst hb
  have hS1 := window_add_sound hS rfl ha
  obtain ⟨w1, w2, w3, w4, w5⟩ := window_add_effect hS ha
  have hmem0 : c.mem.elems ∈ lru.list := by
    cases ev with
    | false => rw [(w4 rfl).1]; exact List.mem_cons_self _ _
    | true =>
      obtain ⟨x, -, -, hx, -⟩ := w5 rfl
      rw [hx]; exact List.mem_cons_self _ _
  have hdata0 : mem.data kh = some c.mem.elems := by
    cases ev with
    | false => rw [(w4 rfl).2]; simp
    | true =>
      obtain ⟨x, -, -, -, hx⟩ := w5 rfl
      rw [hx]; simp
  have hfin : c2.mem.data kh = some c.mem.elems ∧
      c2.mem.entry c.mem.elems = { stage := 0, key := kh, conflict := ch, value := value } := by
    rcases hcase with ⟨e1, e2⟩ | ⟨hev, hadd⟩
    · rw [e2]; exact ⟨hdata0, w2⟩
    · obtain ⟨x, hx, hxe, -, -⟩ := w5 hev
      have hek : eitem.key ≠ kh := by rw [hxe]; exact hw x hx
      obtain ⟨-, t2⟩ := slru_add_effect hS1 hadd
      rcases t2 with ⟨-, -, -, u4, u5⟩ | ⟨y, hy, -, -, u4, u5⟩
      · refine ⟨?_, ?_⟩
        · rw [u5, upd_ne _ _ (Ne.symm hek)]; exact hdata0
        · rw [u4 _ (Or.inl hmem0)]; exact w2
      · have hym := Back_mem hy
        have hyk : (mem.entry y).key ≠ kh := by
          rw [w3 y (Or.inr (Or.inl hym))]; exact h1 y hy
        refine ⟨?_, ?_⟩
        · rw [u5, upd_ne _ _ (Ne.symm hek), upd_ne _ _ (Ne.symm hyk)]; exact hdata0
        · rw [u4 _ (Or.inl hmem0) (hS1.ne_of_mem.1 hmem0 hym)]; exact w2
  obtain ⟨hd, he⟩ := hfin
  obtain ⟨f1, f2, f3, -⟩ := c2.tick_frame
  simp only [Mem.entry] at he
  have hget : ∃ c3, Cache.get X c2 key = .ok (c3, value, true) := by
    simp only [Cache.get, hk, f3, hd, he, ne_eq, not_true_eq_false, if_false, if_true]
    exact ⟨_, rfl⟩
  obtain ⟨c3, hg⟩ := hget
  exact ⟨c2, c3, hs, hg⟩


/-! ## The lock -/

theorem countP_set {α : Type} (p : α → Bool) :
    ∀ (l : List α) (i : Nat) (x y : α), l.get? i = some y →
      (l.set i x).countP p + (if p y then 1 else 0) = l.countP p + (if p x then 1 else 0)
  | [], i, x, y, h => by simp at h
  | a :: l, 0, x, y, h => by
      simp only [List.get?_cons_zero, Option.some.injEq] at h
      subst h
      simp only [List.set_cons_zero, List.countP_cons]
      omega
  | a :: l, i + 1, x, y, h => by
      simp only [List.get?_cons_succ] at h
      have := countP_set p l i x y h
      simp only [List.set_cons_succ, List.countP_cons]
      omega

theorem start_locked (c : Cache) (ops : List Op) : (Shared.start c ops).Locked := by
  have h : ∀ g, (Shared.start c ops).bodies g = 0 := by
    intro g
    simp [Shared.bodies, Shared.start, List.countP_eq_zero, runs]
  refine ⟨?_, ?_, ?_, ?_⟩
  · rw [h]; rfl
  · rw [h]; simp [Shared.start]
  · rw [h]; omega
  · intro _; exact h true

theorem move_locked {X : Env} {s s2 : Shared} {i : Nat} (h : s.Locked)
    (hm : s.move X i = some s2) : s2.Locked := by
  obtain ⟨h1, h2, h3, h4⟩ := h
  simp only [Shared.move] at hm
  simp only [Shared.bodies] at h1 h2 h3 h4
  cases hg : s.calls.get? i with
  | none => rw [hg] at hm; simp at hm
  | some p =>
    rw [hg] at hm
    obtain ⟨op, ph⟩ := p
    have cT := fun x => countP_set (runs true) s.calls i x _ hg
    have cF := fun x => countP_set (runs false) s.calls i x _ hg
    cases ph with
    | returned => simp at hm
    | called =>
      simp only at hm
      have cT := cT (op, Phase.inBody)
      have cF := cF (op, Phase.inBody)
      cases ha : op.acquire s.m with
      | none => rw [ha] at hm; simp at hm
      | some m =>
        rw [ha] at hm
        simp only [Option.some.injEq] at hm
        subst hm
        cases hw : s.m.writer with
        | true =>
          cases op <;> simp [Op.acquire, RWMutex.RLock, RWMutex.Lock, hw] at ha
        | false =>
          rw [hw] at h2
          have hW : List.countP (runs false) s.calls = 0 := by
            by_contra hne
            exact Bool.false_ne_true (h2.2 (by omega))
          cases op with
          | Get k =>
            simp only [Op.acquire, RWMutex.RLock, hw, Bool.false_eq_true, if_false,
              Option.some.injEq] at ha
            subst ha
            simp only [runs, Op.isGet] at cT cF
            simp at cT cF
            refine ⟨?_, ?_, ?_, ?_⟩ <;> simp only [Shared.bodies]
            · rw [cT, h1]
            · rw [cF]; exact h2
            · rw [cF]; exact h3
            · rw [cF]; intro h; omega
          | Set k v =>
            simp only [Op.acquire, RWMutex.Lock, hw, Bool.false_eq_true, false_or] at ha
            split at ha
            · simp at ha
            · rename_i hr
              simp only [Option.some.injEq] at ha
              subst ha
              simp only [runs, Op.isGet] at cT cF
              simp at cT cF
              refine ⟨?_, ?_, ?_, ?_⟩ <;> simp only [Shared.bodies]
              · rw [cT, h1]
              · rw [cF]; simp
              · rw [cF]; omega
              · rw [cT]; intro _; omega
          | Del k =>
            simp only [Op.acquire, RWMutex.Lock, hw, Bool.false_eq_true, false_or] at ha
            split at ha
            · simp at ha
            · rename_i hr
              simp only [Option.some.injEq] at ha
              subst ha
              simp only [runs, Op.isGet] at cT cF
              simp at cT cF
              refine ⟨?_, ?_, ?_, ?_⟩ <;> simp only [Shared.bodies]
              · rw [cT, h1]
              · rw [cF]; simp
              · rw [cF]; omega
              · rw [cT]; intro _; omega
    | inBody =>
      simp only [Option.some.injEq] at hm
      subst hm
      have cT := cT (op, Phase.returned)
      have cF := cF (op, Phase.returned)
      cases op with
      | Get k =>
        simp only [runs, Op.isGet] at cT cF
        simp at cT cF
        refine ⟨?_, ?_, ?_, ?_⟩ <;> simp only [Shared.bodies, Op.release, RWMutex.RUnlock]
        · omega
        · rw [cF]; exact h2
        · rw [cF]; exact h3
        · rw [cF]; intro h; have := h4 h; omega
      | Set k v =>
        simp only [runs, Op.isGet] at cT cF
        simp at cT cF
        refine ⟨?_, ?_, ?_, ?_⟩ <;> simp only [Shared.bodies, Op.release, RWMutex.Unlock]
        · rw [cT]; exact h1
        · constructor
          · intro h; exact absurd h (by decide)
          · intro h; omega
        · omega
        · intro h; omega
      | Del k =>
        simp only [runs, Op.isGet] at cT cF
        simp at cT cF
        refine ⟨?_, ?_, ?_, ?_⟩ <;> simp only [Shared.bodies, Op.release, RWMutex.Unlock]
        · rw [cT]; exact h1
        · constructor
          · intro h; exact absurd h (by decide)
          · intro h; omega
        · omega
        · intro h; omega

theorem moves_locked {X : Env} : ∀ (sched : List Nat) {s s2 : Shared}, s.Locked →
    s.moves X sched = some s2 → s2.Locked
  | [], s, s2, h, hm => by
      simp only [Shared.moves, Option.some.injEq] at hm
      subst hm
      exact h
  | i :: sched, s, s2, h, hm => by
      simp only [Shared.moves] at hm
      cases h1 : s.move X i with
      | none => rw [h1] at hm; simp at hm
      | some s1 =>
        rw [h1] at hm
        exact moves_locked sched (move_locked h h1) hm

theorem running_length (s : Shared) : s.running.length = s.bodies true + s.bodies false := by
  simp only [Shared.running, Shared.bodies, List.length_map]
  induction s.calls with
  | nil => rfl
  | cons p l ih =>
    obtain ⟨op, ph⟩ := p
    simp only [List.filter_cons, List.countP_cons, runs]
    rcases Bool.eq_false_or_eq_true op.isGet with hop | hop <;>
      cases ph <;> simp [hop] <;> omega

/-- The lock does what the write side promises: in every state that goroutines reach
from a free lock, a running `Set` or `Del` body is the only running body; when
several bodies run, all of them are bodies of `Get`. -/
theorem writers_exclusive (X : Env) (c : Cache) (ops : List Op) (sched : List Nat)
    (s : Shared) (h : (Shared.start c ops).moves X sched = some s) :
    s.running.length ≤ 1 ∨ ∀ op ∈ s.running, op.isGet = true := by
  obtain ⟨-, -, h3, h4⟩ := moves_locked sched (start_locked c ops) h
  have hl := running_length s
  by_cases hW : s.bodies false = 0
  · right
    intro op hop
    simp only [Shared.running, List.mem_map, List.mem_filter, decide_eq_true_eq] at hop
    obtain ⟨p, ⟨hp, hb⟩, rfl⟩ := hop
    simp only [Shared.bodies, List.countP_eq_zero] at hW
    have := hW p hp
    simp only [runs, hb, decide_True, Bool.true_and, beq_iff_eq] at this
    cases hg : p.1.isGet with
    | true => rfl
    | false => exact absurd hg this
  · left
    have := h4 (by omega)
    omega

/-- C15 fails on the code: `Get` takes the read side of the lock, which is shared.
With two goroutines calling `Get(1)` on one `NewCache(100)`, the lock call of the
second returns while the first is in its body: the lock has two readers and no
writer and both bodies run, and each body writes the counter `t` (it is 2 when both
have returned, and was 0).  `Set` and `Del` take the write side: while a `Set` body
runs, the lock call of a `Get` (or of a `Del`) waits, and while a `Get` body runs,
the lock call of a `Set` waits. -/
theorem C15_two_gets_in_body :
    (((Shared.start (NewCache Env.sample 100) [.Get (.int 1), .Get (.int 1)]).moves
        Env.sample [0, 1]).map Shared.view
      = some ({ readers := 2, writer := false }, [Phase.inBody, Phase.inBody], 0) ∧
    ((Shared.start (NewCache Env.sample 100) [.Get (.int 1), .Get (.int 1)]).moves
        Env.sample [0, 1]).map Shared.running = some [.Get (.int 1), .Get (.int 1)] ∧
    ((Shared.start (NewCache Env.sample 100) [.Get (.int 1), .Get (.int 1)]).moves
        Env.sample [0, 1, 0, 1]).map Shared.view
      = some ({ readers := 0, writer := false }, [Phase.returned, Phase.returned], 2)) ∧
    (((Shared.start (NewCache Env.sample 100) [.Set (.int 1) (some 10), .Get (.int 1)]).moves
        Env.sample [0]).map Shared.view
      = some ({ readers := 0, writer := true }, [Phase.inBody, Phase.called], 0) ∧
    ((Shared.start (NewCache Env.sample 100) [.Set (.int 1) (some 10), .Get (.int 1)]).moves
        Env.sample [0, 1]).map Shared.view = none ∧
    ((Shared.start (NewCache Env.sample 100) [.Set (.int 1) (some 10), .Del (.int 1)]).moves
        Env.sample [0, 1]).map Shared.view = none ∧
    ((Shared.start (NewCache Env.sample 100) [.Set (.int 1) (some 10), .Get (.int 1)]).moves
        Env.sample [1, 0]).map Shared.view = none) := by
  refine ⟨⟨?_, ?_, ?_⟩, ?_, ?_, ?_, ?_⟩ <;> decide

end cache
